import Mathlib

/- Formal model of maze-visualizer-c (src/MazeSolver.c): grid data model,
   maze generation (iterative backtracker), BFS/DFS search engines and
   parent-link path reconstruction.  Machine loops are embedded with
   explicit fuel; the process-global random source is embedded as an
   explicit stream `rnd : Nat → Nat` together with a call counter, so that
   `rand()` call number `k` returns `rnd k` and `rand() % m` is `rnd k % m`.
   Animation (draw_grid, sleep_ms) has no effect on the modelled state and
   is dropped from the state-transforming definitions. -/

namespace Maze

/- mark bit constants (MazeSolver.c lines 65-68) -/

def M_NONE : Nat := 0

def M_VISIT : Nat := 1

def M_FRONT : Nat := 2

def M_PATH : Nat := 4

/-- Grid (MazeSolver.c lines 70-74): flat cell and mark arrays addressed by
`r * cols + c`.  Cell values: 1 = wall, 0 = open. -/
structure Grid where
  rows : Nat
  cols : Nat
  cells : List Nat
  marks : List Nat
deriving DecidableEq

/-- Flat index `r * cols + c` of a coordinate pair, as the C code computes it
with int arithmetic (coordinates are C ints, hence `Int` here). -/
def iidx (cols : Nat) (r c : Int) : Nat := (r * (cols : Int) + c).toNat

/-- grid_get (line 76): read a cell.  Out-of-bounds reads are undefined in C
and only ever guarded by is_inside in the source; the model defaults to 1. -/
def grid_get (g : Grid) (r c : Int) : Nat := g.cells.getD (iidx g.cols r c) 1

/-- grid_set (line 79). -/
def grid_set (g : Grid) (r c : Int) (v : Nat) : Grid :=
  { g with cells := g.cells.set (iidx g.cols r c) v }

/-- mark_get (line 82). -/
def mark_get (g : Grid) (r c : Int) : Nat := g.marks.getD (iidx g.cols r c) 0

/-- mark_or (line 85): `marks[idx] |= v`. -/
def mark_or (g : Grid) (r c : Int) (v : Nat) : Grid :=
  { g with marks := g.marks.set (iidx g.cols r c) (mark_get g r c ||| v) }

/-- mark_andnot (line 88): `marks[idx] &= ~v` on an unsigned char; for
`v ≤ 255` the complement truncated to 8 bits is `255 - v`. -/
def mark_andnot (g : Grid) (r c : Int) (v : Nat) : Grid :=
  { g with marks := g.marks.set (iidx g.cols r c) (mark_get g r c &&& (255 - v)) }

/-- is_inside (line 251). -/
def is_inside (g : Grid) (r c : Int) : Bool :=
  decide (0 ≤ r) && decide (r < (g.rows : Int)) && decide (0 ≤ c) && decide (c < (g.cols : Int))

/-- nbrs4 (line 254): the four unit-step neighbour offsets used by the solvers. -/
def nbrs4 : List (Int × Int) := [(-1, 0), (1, 0), (0, -1), (0, 1)]

/-- gdirs (line 145): the four distance-2 room-neighbour offsets used by the
generator. -/
def gdirs : List (Int × Int) := [(-2, 0), (2, 0), (0, -2), (0, 2)]

/- ring-buffer queue (lines 222-248).  The C struct has fields data, head,
   tail, cap.  The fields `size` and `overflowed` are specification ghost
   state: `size` counts unread entries and `overflowed` records whether a
   push ever landed while the buffer already held `cap` unread entries
   (i.e. overwrote an unread slot); they influence nothing else. -/

structure Queue where
  data : List (Int × Int)
  head : Nat
  tail : Nat
  cap : Nat
  size : Nat
  pushes : Nat
  overflowed : Bool
deriving DecidableEq

/-- queue_create (line 226). -/
def queue_create (cap : Nat) : Queue :=
  { data := List.replicate cap (0, 0), head := 0, tail := 0, cap := cap
    size := 0, pushes := 0, overflowed := false }

/-- queue_push (line 233): `data[tail++] = v; if (tail >= cap) tail = 0;`. -/
def queue_push (q : Queue) (v : Int × Int) : Queue :=
  let t := q.tail + 1
  { q with data := q.data.set q.tail v
           tail := if q.cap ≤ t then 0 else t
           size := q.size + 1
           pushes := q.pushes + 1
           overflowed := q.overflowed || decide (q.cap ≤ q.size) }

/-- queue_pop (line 237): `v = data[head++]; if (head >= cap) head = 0;`. -/
def queue_pop (q : Queue) : (Int × Int) × Queue :=
  let v := q.data.getD q.head (0, 0)
  let h := q.head + 1
  (v, { q with head := if q.cap ≤ h then 0 else h, size := q.size - 1 })

/-- queue_empty (line 242). -/
def queue_empty (q : Queue) : Bool := q.head == q.tail

/- LIFO stack (lines 197-220).  `dropped` is ghost state recording whether
   the capacity check in stack_push ever silently dropped a value. -/

structure Stack where
  data : List (Int × Int)
  top : Nat
  cap : Nat
  pushes : Nat
  dropped : Bool
deriving DecidableEq

/-- stack_create (line 201). -/
def stack_create (cap : Nat) : Stack :=
  { data := List.replicate cap (0, 0), top := 0, cap := cap, pushes := 0, dropped := false }

/-- stack_push (line 208): `if (top < cap) data[top++] = v;` (else the value
is silently dropped, recorded in the ghost flag). -/
def stack_push (s : Stack) (v : Int × Int) : Stack :=
  if s.top < s.cap then
    { s with data := s.data.set s.top v, top := s.top + 1, pushes := s.pushes + 1 }
  else { s with pushes := s.pushes + 1, dropped := true }

/-- stack_pop (line 211): `return data[--top];` (only called when nonempty). -/
def stack_pop (s : Stack) : (Int × Int) × Stack :=
  (s.data.getD (s.top - 1) (0, 0), { s with top := s.top - 1 })

/-- stack_empty (line 214). -/
def stack_empty (s : Stack) : Bool := s.top == 0

/- shuffle_ints (lines 114-121): Fisher-Yates shuffle driven by rand(). -/

/-- One run of the shuffle loop of shuffle_ints, with `i` the loop counter
counting down to 1; `k` is the rand() call counter. -/
def shuffle_loop (rnd : Nat → Nat) : Nat → List Int → Nat → List Int × Nat
  | 0, arr, k => (arr, k)
  | m + 1, arr, k =>
    let i := m + 1
    let j := rnd k % (i + 1)
    let t := arr.getD i 0
    let arr1 := (arr.set i (arr.getD j 0)).set j t
    shuffle_loop rnd m arr1 (k + 1)

/-- shuffle_ints (line 114) on a list of C ints. -/
def shuffle_ints (rnd : Nat → Nat) (arr : List Int) (k : Nat) : List Int × Nat :=
  shuffle_loop rnd (arr.length - 1) arr k

/- maze generation (lines 128-168) -/

/-- State of the generate_maze loop: the cell array, the transient visited
array `vis` (calloc'd bytes), the coordinate stack (list head = stack top)
and the rand() call counter. -/
structure GenState where
  cells : List Nat
  vis : List Nat
  stack : List (Int × Int)
  k : Nat
deriving DecidableEq

/-- Direction indices `i` admissible at (r,c) (lines 147-152): the distance-2
neighbour is strictly inside the border and not yet visited. -/
def gen_choices (rows cols : Nat) (vis : List Nat) (r c : Int) : List Nat :=
  (List.range 4).filter (fun i =>
    let d := gdirs.getD i (0, 0)
    let nr := r + d.1
    let nc := c + d.2
    decide (0 < nr) && decide (nr < (rows : Int) - 1) &&
    decide (0 < nc) && decide (nc < (cols : Int) - 1) &&
    (vis.getD (iidx cols nr nc) 0 == 0))

/-- One iteration of the generate_maze while loop (lines 142-165): peek the
stack top; if an unvisited distance-2 neighbour exists pick one at random,
open the wall cell between, mark it visited and push it; else pop. -/
def gen_step (rows cols : Nat) (rnd : Nat → Nat) (st : GenState) : GenState :=
  match st.stack with
  | [] => st
  | cur :: rest =>
    let r := cur.1
    let c := cur.2
    let cs := gen_choices rows cols st.vis r c
    if cs.length ≠ 0 then
      let pick := cs.getD (rnd st.k % cs.length) 0
      let d := gdirs.getD pick (0, 0)
      let nr := r + d.1
      let nc := c + d.2
      let wr := r + d.1 / 2
      let wc := c + d.2 / 2
      { cells := st.cells.set (iidx cols wr wc) 0
        vis := st.vis.set (iidx cols nr nc) 1
        stack := (nr, nc) :: cur :: rest
        k := st.k + 1 }
    else { st with stack := rest }

/-- The generate_maze while loop with fuel; the Bool reports whether the
loop genuinely exited (stack empty) within the given fuel. -/
def gen_run (rows cols : Nat) (rnd : Nat → Nat) : Nat → GenState → GenState × Bool
  | 0, st => (st, st.stack.isEmpty)
  | f + 1, st =>
    if st.stack.isEmpty then (st, true)
    else gen_run rows cols rnd f (gen_step rows cols rnd st)

/-- The row indices 1, 3, 5, ... below `rows` (the loop `for (r=1; r<rows; r+=2)`). -/
def odd_below (rows : Nat) : List Nat := (List.range (rows / 2)).map (fun t => 2 * t + 1)

/-- The all-wall fill loop of generate_maze (line 130): every in-range index
is written with 1. -/
def gen_fill_walls (rows cols : Nat) (cells : List Nat) : List Nat :=
  (List.range rows).foldl
    (fun cs r => (List.range cols).foldl (fun cs2 c => cs2.set (r * cols + c) 1) cs) cells

/-- The room-opening loop of generate_maze (line 131): every odd-odd
coordinate is written with 0. -/
def gen_open_rooms (rows cols : Nat) (cells : List Nat) : List Nat :=
  (odd_below rows).foldl
    (fun cs r => (odd_below cols).foldl (fun cs2 c => cs2.set (r * cols + c) 0) cs) cells

/-- generate_maze (lines 128-168).  The returned Bool is the model's
fuel-adequacy indicator for the carving loop (true iff the while loop
reached its exit condition). -/
def generate_maze (g : Grid) (rnd : Nat → Nat) : Grid × Bool :=
  let rows := g.rows
  let cols := g.cols
  let cells1 := gen_open_rooms rows cols (gen_fill_walls rows cols g.cells)
  let st0 : GenState :=
    { cells := cells1
      vis := (List.replicate (rows * cols) 0).set (iidx cols 1 1) 1
      stack := [(1, 1)]
      k := 0 }
  let res := gen_run rows cols rnd (2 * rows * cols + 1) st0
  ({ g with cells := res.1.cells }, res.2)

/- path reconstruction (lines 257-268) -/

/-- The while loop of reconstruct_and_mark, with fuel: while cur is neither
sentinel, mark (cur/cols, cur%cols) with M_PATH and follow the parent link.
Returns the grid and the final value of cur. -/
def recon_loop (parent : List Int) (cols : Nat) : Nat → Grid → Int → Grid × Int
  | 0, g, cur => (g, cur)
  | f + 1, g, cur =>
    if cur ≠ -2 ∧ cur ≠ -1 then
      let rr : Int := cur / (cols : Int)
      let cc : Int := cur % (cols : Int)
      recon_loop parent cols f (mark_or g rr cc M_PATH) (parent.getD cur.toNat (-1))
    else (g, cur)

/-- The sequence of cur values marked by the reconstruct_and_mark loop
(ghost mirror of recon_loop, used to speak about the reconstructed path). -/
def recon_path (parent : List Int) : Nat → Int → List Int
  | 0, _ => []
  | f + 1, cur =>
    if cur ≠ -2 ∧ cur ≠ -1 then cur :: recon_path parent f (parent.getD cur.toNat (-1))
    else []

/-- reconstruct_and_mark (lines 257-268): nothing happens when parent[end]
is the unset sentinel; otherwise walk parent links backward from end,
marking M_PATH, until a sentinel is hit.  `fuel` bounds the loop in the
model (adequacy is proved, see the reconstruction theorems). -/
def reconstruct_and_mark (g : Grid) (parent : List Int) (cols : Nat) (er ec : Int)
    (fuel : Nat) : Grid :=
  let idx := iidx cols er ec
  if parent.getD idx (-1) = -1 then g
  else (recon_loop parent cols fuel g (Int.ofNat idx)).1

/- BFS (lines 271-308) -/

/-- State of the solve_bfs loop. -/
structure BfsState where
  g : Grid
  parent : List Int
  q : Queue
deriving DecidableEq

/-- The body of the BFS neighbour loop (lines 294-303) for direction index
`kd`: if the neighbour is inside, open and undiscovered, set its parent,
push it and mark it frontier. -/
def bfs_expand (r c : Int) (st : BfsState) (kd : Nat) : BfsState :=
  let d := nbrs4.getD kd (0, 0)
  let nr := r + d.1
  let nc := c + d.2
  if is_inside st.g nr nc && (grid_get st.g nr nc == 0) &&
      (st.parent.getD (iidx st.g.cols nr nc) (-1) == -1) then
    { st with
      parent := st.parent.set (iidx st.g.cols nr nc) (r * (st.g.cols : Int) + c)
      q := queue_push st.q (nr, nc)
      g := mark_or st.g nr nc M_FRONT }
  else st

/-- One iteration of the solve_bfs while loop (lines 284-304).  The Bool is
true when the loop breaks (the end cell was popped). -/
def bfs_step (er ec : Int) (st : BfsState) : BfsState × Bool :=
  let pr := queue_pop st.q
  let r := pr.1.1
  let c := pr.1.2
  let g1 := mark_andnot st.g r c M_FRONT
  let g2 := if mark_get g1 r c &&& M_VISIT == 0 then mark_or g1 r c M_VISIT else g1
  let st1 : BfsState := { g := g2, parent := st.parent, q := pr.2 }
  if r == er && c == ec then (st1, true)
  else ((List.range 4).foldl (bfs_expand r c) st1, false)

/-- The solve_bfs while loop with fuel; the Bool reports whether the loop
genuinely exited (queue empty or break) within the fuel. -/
def bfs_run (er ec : Int) : Nat → BfsState → BfsState × Bool
  | 0, st => (st, queue_empty st.q)
  | f + 1, st =>
    if queue_empty st.q then (st, true)
    else
      let sb := bfs_step er ec st
      if sb.2 then (sb.1, true) else bfs_run er ec f sb.1

/-- The initial state of solve_bfs (lines 272-282): parent all unset except
the root sentinel at start, marks cleared, start pushed and marked frontier. -/
def bfs_start (g : Grid) (sr sc : Int) : BfsState :=
  let n := g.rows * g.cols
  let g0 : Grid := { g with marks := List.replicate n M_NONE }
  { g := mark_or g0 sr sc M_FRONT
    parent := (List.replicate n (-1 : Int)).set (iidx g.cols sr sc) (-2)
    q := queue_push (queue_create (n + 5)) (sr, sc) }

/-- solve_bfs (lines 271-308): run the search loop, then reconstruct.
Returns the final grid, the parent array (freed by the C code but the
carrier of the claims) and the fuel-adequacy indicator of the loop. -/
def solve_bfs (g : Grid) (sr sc er ec : Int) (delay_ms : Int) : Grid × List Int × Bool :=
  let n := g.rows * g.cols
  let res := bfs_run er ec (n + 2) (bfs_start g sr sc)
  let _ := delay_ms
  (reconstruct_and_mark res.1.g res.1.parent g.cols er ec (n + 1), res.1.parent, res.2)

/- DFS (lines 311-355) -/

/-- State of the solve_dfs loop; `k` is the rand() call counter consumed by
the per-iteration direction shuffles. -/
structure DfsState where
  g : Grid
  parent : List Int
  st : Stack
  k : Nat
deriving DecidableEq

/-- The body of the DFS neighbour loop (lines 338-349) for direction index
`kd`: if the neighbour is inside, open and has no mark yet, set its parent
(only if still unset), push it and mark it frontier. -/
def dfs_expand (r c : Int) (s : DfsState) (kd : Nat) : DfsState :=
  let d := nbrs4.getD kd (0, 0)
  let nr := r + d.1
  let nc := c + d.2
  if is_inside s.g nr nc && (grid_get s.g nr nc == 0) &&
      (mark_get s.g nr nc == M_NONE) then
    let p1 := if s.parent.getD (iidx s.g.cols nr nc) (-1) = -1
      then s.parent.set (iidx s.g.cols nr nc) (r * (s.g.cols : Int) + c)
      else s.parent
    { s with
      parent := p1
      st := stack_push s.st (nr, nc)
      g := mark_or s.g nr nc M_FRONT }
  else s

/-- One iteration of the solve_dfs while loop (lines 324-350); shuffles the
direction order before expanding.  The Bool is true when the loop breaks. -/
def dfs_step (rnd : Nat → Nat) (er ec : Int) (s : DfsState) : DfsState × Bool :=
  let pr := stack_pop s.st
  let r := pr.1.1
  let c := pr.1.2
  let g1 := mark_andnot s.g r c M_FRONT
  let g2 := if mark_get g1 r c &&& M_VISIT == 0 then mark_or g1 r c M_VISIT else g1
  let s1 : DfsState := { g := g2, parent := s.parent, st := pr.2, k := s.k }
  if r == er && c == ec then (s1, true)
  else
    let sh := shuffle_ints rnd [0, 1, 2, 3] s1.k
    (sh.1.foldl (fun acc oi => dfs_expand r c acc oi.toNat) { s1 with k := sh.2 }, false)

/-- The solve_dfs while loop with fuel; the Bool reports whether the loop
genuinely exited within the fuel. -/
def dfs_run (rnd : Nat → Nat) (er ec : Int) : Nat → DfsState → DfsState × Bool
  | 0, s => (s, stack_empty s.st)
  | f + 1, s =>
    if stack_empty s.st then (s, true)
    else
      let sb := dfs_step rnd er ec s
      if sb.2 then (sb.1, true) else dfs_run rnd er ec f sb.1

/-- The initial state of solve_dfs (lines 312-322). -/
def dfs_start (g : Grid) (sr sc : Int) : DfsState :=
  let n := g.rows * g.cols
  let g0 : Grid := { g with marks := List.replicate n M_NONE }
  { g := mark_or g0 sr sc M_FRONT
    parent := (List.replicate n (-1 : Int)).set (iidx g.cols sr sc) (-2)
    st := stack_push (stack_create (n + 5)) (sr, sc)
    k := 0 }

/-- solve_dfs (lines 311-355). -/
def solve_dfs (g : Grid) (rnd : Nat → Nat) (sr sc er ec : Int) (delay_ms : Int) :
    Grid × List Int × Bool :=
  let n := g.rows * g.cols
  let res := dfs_run rnd er ec (n + 2) (dfs_start g sr sc)
  let _ := delay_ms
  (reconstruct_and_mark res.1.g res.1.parent g.cols er ec (n + 1), res.1.parent, res.2)

/- configuration boundary (lines 19-25, 358-365, 375-383) -/

/-- sleep_ms (lines 19-25), POSIX branch: `if (ms > 0) usleep(ms*1000);`.
Modelled as the number of milliseconds actually slept. -/
def sleep_ms (ms : Int) : Int := if 0 < ms then ms else 0

/-- get_int_with_default (lines 358-365): a parsed integer if one was read,
else the default.  `none` models EOF or a line sscanf cannot parse. -/
def get_int_with_default (input : Option Int) (def_val : Int) : Int :=
  input.getD def_val

/-- The size correction main applies to the column count (lines 375-379). -/
def main_cols (input : Option Int) : Int :=
  let v := get_int_with_default input 31
  let v1 := if v < 11 then 11 else v
  if v1 % 2 == 0 then v1 + 1 else v1

/-- The size correction main applies to the row count (lines 376-380). -/
def main_rows (input : Option Int) : Int :=
  let v := get_int_with_default input 21
  let v1 := if v < 11 then 11 else v
  if v1 % 2 == 0 then v1 + 1 else v1

/-- The animation delay main passes to the solvers (line 383): main applies
no correction of its own to this value. -/
def main_delay (input : Option Int) : Int := get_int_with_default input 40

/- spec-side notions: adjacency, walks over open cells, shortest distance -/

/-- Two coordinates are adjacent when they differ by one of the four unit
offsets of nbrs4. -/
def adjB (p q : Int × Int) : Bool := (q.1 - p.1, q.2 - p.2) ∈ nbrs4

/-- A coordinate that is inside the grid and holds an open cell. -/
def inside_open (g : Grid) (p : Int × Int) : Bool :=
  is_inside g p.1 p.2 && (grid_get g p.1 p.2 == 0)

/-- The tail of a walk: each successive cell is adjacent to the previous
one, inside and open, and the walk ends at `e`. -/
def steps_ok (g : Grid) (e : Int × Int) : Int × Int → List (Int × Int) → Bool
  | prev, [] => prev == e
  | prev, x :: t => adjB prev x && inside_open g x && steps_ok g e x t

/-- A walk from `s` to `e` in the maze graph: it starts at `s` (inside the
grid), and every subsequent cell is an adjacent open in-bounds cell.  Its
edge count is `l.length - 1`. -/
def is_path (g : Grid) (s e : Int × Int) (l : List (Int × Int)) : Bool :=
  match l with
  | [] => false
  | x :: t => x == s && is_inside g x.1 x.2 && steps_ok g e x t

/-- There is a walk from `s` to `e` with at most `j` edges. -/
def DLE (g : Grid) (s e : Int × Int) (j : Nat) : Prop :=
  ∃ l, is_path g s e l = true ∧ l.length ≤ j + 1

/-- There is some walk from `s` to `e` over open cells. -/
def ReachesB (g : Grid) (s e : Int × Int) : Prop :=
  ∃ l, is_path g s e l = true

/-- The number of open cells sitting at wall positions (not both coordinates
odd); counted over the index space of the grid. -/
def open_wall_cells (g : Grid) : Nat :=
  ((List.range (g.rows * g.cols)).filter
    (fun i => (g.cells.getD i 1 == 0) &&
      !((i / g.cols) % 2 == 1 && (i % g.cols) % 2 == 1))).length

/-- The well-formedness and abstraction relation of the circular queue: `l`
is the list of unread entries, oldest first. -/
def QueueInv (q : Queue) (l : List (Int × Int)) : Prop :=
  q.data.length = q.cap ∧ q.head < q.cap ∧ q.tail < q.cap ∧
  l.length < q.cap ∧ q.size = l.length ∧
  q.tail = (q.head + l.length) % q.cap ∧
  ∀ i, i < l.length → q.data.getD ((q.head + i) % q.cap) (0, 0) = l.getD i (0, 0)

/- stack refinement: a Stack represents the LIFO list of its live entries,
   newest first -/

/-- The well-formedness and abstraction relation of the stack. -/
def StackInv (s : Stack) (l : List (Int × Int)) : Prop :=
  s.data.length = s.cap ∧ s.top = l.length ∧ l.length ≤ s.cap ∧
  ∀ i, i < l.length → s.data.getD (l.length - 1 - i) (0, 0) = l.getD i (0, 0)

/- counting helpers -/

/-- Number of discovered cells: indices whose parent entry is set. -/
def disc_count (parent : List Int) : Nat :=
  (List.range parent.length).countP (fun i => !(parent.getD i (-1) == -1))

/-- Number of marked cells of a marks array of length n. -/
def mark_count (marks : List Nat) : Nat :=
  (List.range marks.length).countP (fun i => !(marks.getD i 0 == 0))

/-- Inside-the-grid predicate on coordinate pairs. -/
def insideP (g : Grid) (p : Int × Int) : Prop :=
  0 ≤ p.1 ∧ p.1 < (g.rows : Int) ∧ 0 ≤ p.2 ∧ p.2 < (g.cols : Int)

/- BFS loop invariant -/

/-- The invariant of the solve_bfs loop, tying the concrete state to the
abstract FIFO content `l`: the queue is well formed, the grid geometry is
that of the input grid, the queue holds distinct inside cells that are all
discovered, every discovered cell is reachable from the start over open
cells, the ghost push counter equals the discovered-cell count, and no
overflow has occurred. -/
structure BfsInvL (g0 : Grid) (s : Int × Int) (st : BfsState) (l : List (Int × Int)) : Prop where
  qinv : QueueInv st.q l
  cap : st.q.cap = g0.rows * g0.cols + 5
  cpos : 0 < g0.cols
  cells : st.g.cells = g0.cells
  cols : st.g.cols = g0.cols
  rows : st.g.rows = g0.rows
  plen : st.parent.length = g0.rows * g0.cols
  nodup : l.Nodup
  mem_inside : ∀ p ∈ l, insideP g0 p
  mem_disc : ∀ p ∈ l, st.parent.getD (iidx g0.cols p.1 p.2) (-1) ≠ -1
  disc_reach : ∀ p : Int × Int, insideP g0 p →
    st.parent.getD (iidx g0.cols p.1 p.2) (-1) ≠ -1 → ReachesB g0 s p
  pushctr : st.q.pushes = disc_count st.parent
  ovf : st.q.overflowed = false

/-- The invariant of the solve_dfs loop, tying the concrete state to the
abstract LIFO content `l` (newest first): the stack is well formed, the
grid geometry is that of the input grid, the stack holds distinct inside
cells that are all marked and discovered, every discovered cell is
reachable from the start over open cells, the ghost push counter equals
the marked-cell count, and no push was ever dropped. -/
structure DfsInvL (g0 : Grid) (s : Int × Int) (st : DfsState) (l : List (Int × Int)) : Prop where
  sinv : StackInv st.st l
  cap : st.st.cap = g0.rows * g0.cols + 5
  cpos : 0 < g0.cols
  cells : st.g.cells = g0.cells
  cols : st.g.cols = g0.cols
  rows : st.g.rows = g0.rows
  plen : st.parent.length = g0.rows * g0.cols
  mlen : st.g.marks.length = g0.rows * g0.cols
  nodup : l.Nodup
  mem_inside : ∀ p ∈ l, insideP g0 p
  mem_marked : ∀ p ∈ l, st.g.marks.getD (iidx g0.cols p.1 p.2) 0 ≠ 0
  mem_disc : ∀ p ∈ l, st.parent.getD (iidx g0.cols p.1 p.2) (-1) ≠ -1
  disc_reach : ∀ p : Int × Int, insideP g0 p →
    st.parent.getD (iidx g0.cols p.1 p.2) (-1) ≠ -1 → ReachesB g0 s p
  pushctr : st.st.pushes = mark_count st.g.marks
  ndrop : st.st.dropped = false

/-- The parent array of a DFS in progress forms a forest rooted at the
start cell: only the start holds the root sentinel, every other discovered
cell points at an adjacent, earlier-discovered cell (witnessed by a strictly
decreasing rank), and the discovered cell itself is open. -/
structure ParentTree (g0 : Grid) (s : Int × Int) (parent : List Int) (rnk : Nat → Nat)
    (cnt : Nat) : Prop where
  plen : parent.length = g0.rows * g0.cols
  root : parent.getD (iidx g0.cols s.1 s.2) (-1) = -2
  root_uniq : ∀ i, i < parent.length → parent.getD i (-1) = -2 → i = iidx g0.cols s.1 s.2
  vals : ∀ i, i < parent.length → parent.getD i (-1) = -2 ∨ parent.getD i (-1) = -1 ∨
    0 ≤ parent.getD i (-1)
  edge : ∀ p : Int × Int, insideP g0 p → 0 ≤ parent.getD (iidx g0.cols p.1 p.2) (-1) →
    ∃ q : Int × Int, insideP g0 q ∧ adjB q p = true ∧ inside_open g0 p = true ∧
      parent.getD (iidx g0.cols p.1 p.2) (-1) = q.1 * (g0.cols : Int) + q.2 ∧
      parent.getD (iidx g0.cols q.1 q.2) (-1) ≠ -1 ∧
      rnk (iidx g0.cols q.1 q.2) < rnk (iidx g0.cols p.1 p.2)
  rnk_lt : ∀ i, i < parent.length → parent.getD i (-1) ≠ -1 → rnk i < cnt
  cnt_eq : cnt = disc_count parent

/-- Index predicate for room positions: both the row `i / cols` and the
column `i % cols` of the flat index are odd (the cells line 131 opens). -/
def isRoom (cols i : Nat) : Bool := ((i / cols) % 2 == 1) && ((i % cols) % 2 == 1)

/-- Number of open cells at non-room (wall) positions of a cells array,
counted over the index space `rows * cols`. -/
def open_nonroom (rows cols : Nat) (cells : List Nat) : Nat :=
  (List.range (rows * cols)).countP (fun i => (cells.getD i 1 == 0) && !(isRoom cols i))

/-- Room coordinate predicate matching the generator: both coordinates odd
and strictly inside the border (the only cells the carving loop stacks). -/
def RoomP (g : Grid) (p : Int × Int) : Prop :=
  p.1 % 2 = 1 ∧ p.2 % 2 = 1 ∧ 0 < p.1 ∧ p.1 < (g.rows : Int) - 1 ∧
  0 < p.2 ∧ p.2 < (g.cols : Int) - 1

/-- A coordinate whose cell the vis array of generate_maze marks visited. -/
def VisP (g : Grid) (vis : List Nat) (p : Int × Int) : Prop :=
  vis.getD (iidx g.cols p.1 p.2) 0 ≠ 0

/-- Loop measure of the carving loop: twice the number of still-unvisited
rooms plus the stack height; it strictly decreases every iteration. -/
def gen_meas (g : Grid) (st : GenState) : Nat :=
  2 * ((g.rows / 2) * (g.cols / 2) - mark_count st.vis) + st.stack.length

/-- Invariant of the generate_maze carving loop. -/
structure GenInv (g : Grid) (st : GenState) : Prop where
  clen : st.cells.length = g.rows * g.cols
  vlen : st.vis.length = g.rows * g.cols
  rooms_open : ∀ i, i < g.rows * g.cols → isRoom g.cols i = true → st.cells.getD i 1 = 0
  vis_room : ∀ i, i < g.rows * g.cols → st.vis.getD i 0 ≠ 0 → isRoom g.cols i = true
  wall_ends : ∀ w : Int × Int, insideP g w → ¬(w.1 % 2 = 1 ∧ w.2 % 2 = 1) →
    st.cells.getD (iidx g.cols w.1 w.2) 1 = 0 →
    (w.1 % 2 = 0 ∧ w.2 % 2 = 1 ∧ 1 ≤ w.1 ∧ w.1 ≤ (g.rows : Int) - 2 ∧
      1 ≤ w.2 ∧ w.2 ≤ (g.cols : Int) - 2 ∧
      VisP g st.vis (w.1 - 1, w.2) ∧ VisP g st.vis (w.1 + 1, w.2)) ∨
    (w.1 % 2 = 1 ∧ w.2 % 2 = 0 ∧ 1 ≤ w.1 ∧ w.1 ≤ (g.rows : Int) - 2 ∧
      1 ≤ w.2 ∧ w.2 ≤ (g.cols : Int) - 2 ∧
      VisP g st.vis (w.1, w.2 - 1) ∧ VisP g st.vis (w.1, w.2 + 1))
  stack_mem : ∀ p ∈ st.stack, RoomP g p ∧ VisP g st.vis p
  pop_closed : ∀ p : Int × Int, RoomP g p → VisP g st.vis p → p ∉ st.stack →
    ∀ d ∈ gdirs, 0 < p.1 + d.1 → p.1 + d.1 < (g.rows : Int) - 1 →
    0 < p.2 + d.2 → p.2 + d.2 < (g.cols : Int) - 1 →
    VisP g st.vis (p.1 + d.1, p.2 + d.2)
  count : open_nonroom g.rows g.cols st.cells + 1 = mark_count st.vis
  reach : ∀ p : Int × Int, insideP g p → VisP g st.vis p →
    ReachesB { g with cells := st.cells } (1, 1) p
  vis11 : VisP g st.vis (1, 1)

/-- The parent forest solve_bfs builds, together with a ghost depth `dep`
recording the BFS layer of each discovered cell: every tree edge increases
the depth by exactly one and the root sits at depth zero. -/
structure BTree (g0 : Grid) (s : Int × Int) (parent : List Int) (dep : Nat → Nat) :
    Prop where
  plen : parent.length = g0.rows * g0.cols
  root : parent.getD (iidx g0.cols s.1 s.2) (-1) = -2
  root_uniq : ∀ i, i < parent.length → parent.getD i (-1) = -2 → i = iidx g0.cols s.1 s.2
  vals : ∀ i, i < parent.length → parent.getD i (-1) = -2 ∨ parent.getD i (-1) = -1 ∨
    0 ≤ parent.getD i (-1)
  edge : ∀ p : Int × Int, insideP g0 p → 0 ≤ parent.getD (iidx g0.cols p.1 p.2) (-1) →
    ∃ q : Int × Int, insideP g0 q ∧ adjB q p = true ∧ inside_open g0 p = true ∧
      parent.getD (iidx g0.cols p.1 p.2) (-1) = q.1 * (g0.cols : Int) + q.2 ∧
      parent.getD (iidx g0.cols q.1 q.2) (-1) ≠ -1 ∧
      dep (iidx g0.cols p.1 p.2) = dep (iidx g0.cols q.1 q.2) + 1
  dep0 : dep (iidx g0.cols s.1 s.2) = 0

/-- Invariant carried through the BFS neighbour fold while the popped cell
`u` (at BFS layer `dep_u`) is being expanded: the queue holds the remaining
old layer `l2` followed by the newly pushed cells `news`, all at layer
`dep_u + 1`; processed cells sit at layers at most `dep_u`. -/
structure BfsFold (g0 : Grid) (s : Int × Int) (er ec : Int) (u : Int × Int)
    (dep_u : Nat) (l2 : List (Int × Int)) (st : BfsState) (news : List (Int × Int))
    (dep : Nat → Nat) : Prop where
  base : BfsInvL g0 s st (l2 ++ news)
  tree : BTree g0 s st.parent dep
  udisc : st.parent.getD (iidx g0.cols u.1 u.2) (-1) ≠ -1
  udep : dep (iidx g0.cols u.1 u.2) = dep_u
  l2dep : ∀ v ∈ l2, dep_u ≤ dep (iidx g0.cols v.1 v.2) ∧
    dep (iidx g0.cols v.1 v.2) ≤ dep_u + 1
  newsdep : ∀ v ∈ news, dep (iidx g0.cols v.1 v.2) = dep_u + 1
  newsfresh : ∀ v ∈ news, v ∉ l2 ∧ v ≠ u
  procbound : ∀ p : Int × Int, insideP g0 p →
    st.parent.getD (iidx g0.cols p.1 p.2) (-1) ≠ -1 → p ∉ l2 ++ news →
    dep (iidx g0.cols p.1 p.2) ≤ dep_u
  oldclos : ∀ p : Int × Int, insideP g0 p →
    st.parent.getD (iidx g0.cols p.1 p.2) (-1) ≠ -1 → p ∉ l2 ++ news →
    p ≠ (er, ec) → p ≠ u →
    ∀ d ∈ nbrs4, insideP g0 (p.1 + d.1, p.2 + d.2) →
    inside_open g0 (p.1 + d.1, p.2 + d.2) = true →
    st.parent.getD (iidx g0.cols (p.1 + d.1) (p.2 + d.2)) (-1) ≠ -1 ∧
    dep (iidx g0.cols (p.1 + d.1) (p.2 + d.2)) ≤ dep (iidx g0.cols p.1 p.2) + 1
  endqf : st.parent.getD (iidx g0.cols er ec) (-1) ≠ -1 →
    ((er, ec) ∈ l2 ++ news ∨ (er, ec) = u)
  depbound : ∀ i, i < g0.rows * g0.cols → st.parent.getD i (-1) ≠ -1 →
    dep i < disc_count st.parent

/-- The BFS loop invariant with layer bookkeeping: the queue is sorted by
layer and spans at most two consecutive layers, processed cells sit at
layers at most every queued cell's, a processed cell's open neighbours are
discovered one layer deeper at most, and the end cell, once discovered,
stays queued until the loop breaks on it. -/
structure BfsDeep (g0 : Grid) (s : Int × Int) (er ec : Int) (st : BfsState)
    (l : List (Int × Int)) (dep : Nat → Nat) : Prop where
  base : BfsInvL g0 s st l
  tree : BTree g0 s st.parent dep
  pair : List.Pairwise
    (fun a b => dep (iidx g0.cols a.1 a.2) ≤ dep (iidx g0.cols b.1 b.2)) l
  layer : ∀ v ∈ l, ∀ w ∈ l,
    dep (iidx g0.cols v.1 v.2) ≤ dep (iidx g0.cols w.1 w.2) + 1
  ple : ∀ p : Int × Int, insideP g0 p →
    st.parent.getD (iidx g0.cols p.1 p.2) (-1) ≠ -1 → p ∉ l →
    ∀ v ∈ l, dep (iidx g0.cols p.1 p.2) ≤ dep (iidx g0.cols v.1 v.2)
  closure : ∀ p : Int × Int, insideP g0 p →
    st.parent.getD (iidx g0.cols p.1 p.2) (-1) ≠ -1 → p ∉ l → p ≠ (er, ec) →
    ∀ d ∈ nbrs4, insideP g0 (p.1 + d.1, p.2 + d.2) →
    inside_open g0 (p.1 + d.1, p.2 + d.2) = true →
    st.parent.getD (iidx g0.cols (p.1 + d.1) (p.2 + d.2)) (-1) ≠ -1 ∧
    dep (iidx g0.cols (p.1 + d.1) (p.2 + d.2)) ≤ dep (iidx g0.cols p.1 p.2) + 1
  endq : st.parent.getD (iidx g0.cols er ec) (-1) ≠ -1 → (er, ec) ∈ l
  depbound : ∀ i, i < g0.rows * g0.cols → st.parent.getD i (-1) ≠ -1 →
    dep i < disc_count st.parent

/-- What remains of the layer invariant when the solve_bfs loop exits. -/
structure BfsFinal (g0 : Grid) (s : Int × Int) (er ec : Int) (st : BfsState)
    (l : List (Int × Int)) (dep : Nat → Nat) : Prop where
  base : BfsInvL g0 s st l
  tree : BTree g0 s st.parent dep
  ple : ∀ p : Int × Int, insideP g0 p →
    st.parent.getD (iidx g0.cols p.1 p.2) (-1) ≠ -1 → p ∉ l →
    ∀ v ∈ l, dep (iidx g0.cols p.1 p.2) ≤ dep (iidx g0.cols v.1 v.2)
  closure : ∀ p : Int × Int, insideP g0 p →
    st.parent.getD (iidx g0.cols p.1 p.2) (-1) ≠ -1 → p ∉ l → p ≠ (er, ec) →
    ∀ d ∈ nbrs4, insideP g0 (p.1 + d.1, p.2 + d.2) →
    inside_open g0 (p.1 + d.1, p.2 + d.2) = true →
    st.parent.getD (iidx g0.cols (p.1 + d.1) (p.2 + d.2)) (-1) ≠ -1 ∧
    dep (iidx g0.cols (p.1 + d.1) (p.2 + d.2)) ≤ dep (iidx g0.cols p.1 p.2) + 1
  endnotq : (er, ec) ∉ l
  depbound : ∀ i, i < g0.rows * g0.cols → st.parent.getD i (-1) ≠ -1 →
    dep i < disc_count st.parent

/- basic list and index lemmas -/

theorem getD_set_self {α : Type} (l : List α) (i : Nat) (v d : α) (h : i < l.length) :
    (l.set i v).getD i d = v := by
  simp [List.getD_eq_getElem?_getD, List.getElem?_set_self, h]

theorem getD_set_ne {α : Type} (l : List α) {i j : Nat} (v d : α) (h : i ≠ j) :
    (l.set i v).getD j d = l.getD j d := by
  simp [List.getD_eq_getElem?_getD, List.getElem?_set_ne h]

theorem getD_replicate {α : Type} {n i : Nat} (a d : α) (h : i < n) :
    (List.replicate n a).getD i d = a := by
  simp [List.getD_eq_getElem?_getD, List.getElem?_replicate, h]

theorem getD_set (l : List Int) (i j : Nat) (v d : Int) :
    (l.set i v).getD j d = if i = j ∧ i < l.length then v else l.getD j d := by
  by_cases hij : i = j
  · subst hij
    by_cases hlen : i < l.length
    · simp [getD_set_self, hlen]
    · simp [hlen, List.set_eq_of_length_le (Nat.le_of_not_lt hlen)]
  · simp [getD_set_ne l v d hij, hij]

theorem iidx_int {rows cols : Nat} {r c : Int} (hr0 : 0 ≤ r) (hr : r < (rows : Int))
    (hc0 : 0 ≤ c) (hc : c < (cols : Int)) :
    (iidx cols r c : Int) = r * cols + c := by
  have hcc : (0 : Int) ≤ r * cols + c := by positivity
  simpa [iidx] using Int.toNat_of_nonneg hcc

theorem iidx_lt {rows cols : Nat} {r c : Int} (hr0 : 0 ≤ r) (hr : r < (rows : Int))
    (hc0 : 0 ≤ c) (hc : c < (cols : Int)) :
    iidx cols r c < rows * cols := by
  have h1 : r * cols + c < (rows : Int) * cols := by
    have hr1 : r + 1 ≤ (rows : Int) := hr
    have : (r + 1) * cols ≤ (rows : Int) * cols := by
      apply mul_le_mul_of_nonneg_right hr1
      exact Int.ofNat_nonneg cols
    nlinarith
  have h2 : ((iidx cols r c : Nat) : Int) < ((rows * cols : Nat) : Int) := by
    rw [iidx_int hr0 hr hc0 hc]
    push_cast
    exact h1
  exact_mod_cast h2

theorem iidx_inj {rows cols : Nat} {r c r' c' : Int} (hc0' : 0 < cols)
    (h1 : 0 ≤ r) (h2 : r < (rows : Int)) (h3 : 0 ≤ c) (h4 : c < (cols : Int))
    (h5 : 0 ≤ r') (h6 : r' < (rows : Int)) (h7 : 0 ≤ c') (h8 : c' < (cols : Int))
    (heq : iidx cols r c = iidx cols r' c') : r = r' ∧ c = c' := by
  have e1 : r * cols + c = r' * cols + c' := by
    have hcast : ((iidx cols r c : Nat) : Int) = ((iidx cols r' c' : Nat) : Int) := by
      exact_mod_cast congrArg (fun n : Nat => (n : Int)) heq
    rwa [iidx_int h1 h2 h3 h4, iidx_int h5 h6 h7 h8] at hcast
  have hcpos : (0 : Int) < (cols : Int) := by exact_mod_cast hc0'
  constructor
  · by_contra hne
    rcases lt_or_gt_of_ne hne with hlt | hgt
    · have : r * cols + c < r' * cols + c' := by nlinarith
      omega
    · have : r' * cols + c' < r * cols + c := by nlinarith
      omega
  · have : r = r' := by
      by_contra hne
      rcases lt_or_gt_of_ne hne with hlt | hgt
      · have : r * cols + c < r' * cols + c' := by nlinarith
        omega
      · have : r' * cols + c' < r * cols + c := by nlinarith
        omega
    nlinarith [this]

theorem is_inside_iff (g : Grid) (r c : Int) :
    is_inside g r c = true ↔ 0 ≤ r ∧ r < (g.rows : Int) ∧ 0 ≤ c ∧ c < (g.cols : Int) := by
  simp [is_inside, and_assoc]

theorem iidx_divmod (cols i : Nat) :
    iidx cols ((i : Int) / (cols : Int)) ((i : Int) % (cols : Int)) = i := by
  unfold iidx
  have h := Int.ediv_add_emod (i : Int) (cols : Int)
  have h2 : (i : Int) / (cols : Int) * (cols : Int) + (i : Int) % (cols : Int) = (i : Int) := by
    linarith
  rw [h2]
  exact Int.toNat_ofNat i

/- mark bit lemmas -/

theorem or_path_and_path (x : Nat) : (x ||| M_PATH) &&& M_PATH = M_PATH := by
  have h4 : M_PATH = 2 ^ 2 := by norm_num [M_PATH]
  rw [h4, Nat.and_two_pow]
  have ht : (x ||| 2 ^ 2).testBit 2 = true := by
    rw [Nat.testBit_or, Nat.testBit_two_pow]
    simp
  rw [ht]
  simp

theorem or_path_has_path (x : Nat) : (x ||| M_PATH) &&& M_PATH ≠ 0 := by
  rw [or_path_and_path]
  norm_num [M_PATH]

theorem or_front_ne_zero (x : Nat) : (x ||| M_FRONT) ≠ 0 := by
  intro h
  have h2 := congrArg (fun m => Nat.testBit m 1) h
  simp only [Nat.testBit_or] at h2
  rw [show Nat.testBit M_FRONT 1 = true from by decide] at h2
  simp at h2

theorem or_visit_ne_zero (x : Nat) : (x ||| M_VISIT) ≠ 0 := by
  intro h
  have h2 := congrArg (fun m => Nat.testBit m 0) h
  simp only [Nat.testBit_or] at h2
  rw [show Nat.testBit M_VISIT 0 = true from by decide] at h2
  simp at h2

theorem clear_front_keeps_visit (x : Nat) : (x &&& (255 - M_FRONT)) &&& M_VISIT = x &&& M_VISIT := by
  rw [Nat.and_assoc]
  norm_num [M_FRONT, M_VISIT]

/-- After the pop prologue of a solve iteration, the popped cell's mark is
nonzero: either the visited bit was already set (and survives the frontier
clear), or the visited bit is newly set. -/
theorem popped_mark_ne_zero (x : Nat) :
    (if (x &&& (255 - M_FRONT)) &&& M_VISIT == 0
      then (x &&& (255 - M_FRONT)) ||| M_VISIT
      else x &&& (255 - M_FRONT)) ≠ 0 := by
  by_cases h : (x &&& (255 - M_FRONT)) &&& M_VISIT = 0
  · simp only [h]
    simpa using or_visit_ne_zero (x &&& (255 - M_FRONT))
  · simp only [beq_iff_eq, if_neg h]
    intro hz
    rw [hz] at h
    exact h (by decide)

/- reconstruction lemmas -/

theorem recon_loop_neg2 (parent : List Int) (cols : Nat) (f : Nat) (g : Grid) :
    recon_loop parent cols f g (-2) = (g, -2) := by
  cases f <;> simp [recon_loop]

theorem recon_path_neg2 (parent : List Int) (f : Nat) :
    recon_path parent f (-2) = [] := by
  cases f <;> simp [recon_path]

theorem getLast?_cons_of_ne_nil {α : Type} (x : α) {l : List α} (h : l ≠ []) :
    (x :: l).getLast? = l.getLast? := by
  cases l with
  | nil => exact absurd rfl h
  | cons a t => rfl

/-- Core walk lemma for reconstruction: if parent links strictly decrease a
rank and the only root-sentinel cell is sIdx, the walk from any discovered
cell reaches the root sentinel with fuel beyond the rank, marks sIdx with
the path bit, and the recorded path ends at sIdx. -/
theorem recon_loop_spec (parent : List Int) (cols : Nat) (hcols : 0 < cols) (sIdx : Nat)
    (rank : Nat → Nat)
    (hval : ∀ i, i < parent.length →
      parent.getD i (-1) = -2 ∨ parent.getD i (-1) = -1 ∨
      (0 ≤ parent.getD i (-1) ∧ (parent.getD i (-1)).toNat < parent.length ∧
       parent.getD (parent.getD i (-1)).toNat (-1) ≠ -1 ∧
       rank (parent.getD i (-1)).toNat < rank i))
    (hroot : ∀ i, i < parent.length → (parent.getD i (-1) = -2 ↔ i = sIdx)) :
    ∀ b cur, cur < parent.length → rank cur < b → parent.getD cur (-1) ≠ -1 →
      ∀ g : Grid, g.cols = cols → sIdx < g.marks.length →
      ∀ fuel, rank cur + 1 ≤ fuel →
        ((recon_loop parent cols fuel g (cur : Int)).2 = -2 ∧
         (recon_loop parent cols fuel g (cur : Int)).1.marks.getD sIdx 0 &&& M_PATH ≠ 0 ∧
         (recon_path parent fuel (cur : Int)).getLast? = some (sIdx : Int)) := by
  intro b
  induction b with
  | zero => intro cur _ h2; omega
  | succ b ih =>
    intro cur hcur hrk hne g hgcols hmlen fuel hfuel
    obtain ⟨f, rfl⟩ : ∃ f, fuel = f + 1 := ⟨fuel - 1, by omega⟩
    have hcond : ((cur : Int) ≠ -2 ∧ (cur : Int) ≠ -1) := by
      constructor <;> (intro h; omega)
    have htn : ((cur : Int)).toNat = cur := Int.toNat_ofNat cur
    set rr : Int := (cur : Int) / (cols : Int) with hrr
    set cc : Int := (cur : Int) % (cols : Int) with hcc
    have hidx : iidx g.cols rr cc = cur := by
      rw [hgcols, hrr, hcc]
      exact iidx_divmod cols cur
    have hstep : recon_loop parent cols (f + 1) g (cur : Int) =
        recon_loop parent cols f (mark_or g rr cc M_PATH) (parent.getD cur (-1)) := by
      rw [recon_loop]
      rw [if_pos hcond, htn]
    have hpathstep : recon_path parent (f + 1) (cur : Int) =
        (cur : Int) :: recon_path parent f (parent.getD cur (-1)) := by
      rw [recon_path]
      rw [if_pos hcond, htn]
    rcases hval cur hcur with hm2 | hm1 | ⟨hge, hlt2, hnext, hrk2⟩
    · -- parent of cur is the root sentinel: cur = sIdx, walk ends now
      have hs : cur = sIdx := (hroot cur hcur).mp hm2
      rw [hstep, hm2, hpathstep, hm2]
      rw [recon_loop_neg2, recon_path_neg2]
      refine ⟨rfl, ?_, by rw [hs]; simp⟩
      have hsel : (mark_or g rr cc M_PATH).marks.getD sIdx 0 =
          mark_get g rr cc ||| M_PATH := by
        unfold mark_or
        simp only
        rw [hidx, hs]
        exact getD_set_self _ _ _ _ (hs ▸ hmlen)
      rw [hsel]
      exact or_path_has_path _
    · exact absurd hm1 hne
    · -- follow the parent link; induction on the rank bound
      rw [hstep, hpathstep]
      have hofn : parent.getD cur (-1) = (((parent.getD cur (-1)).toNat : Nat) : Int) :=
        (Int.toNat_of_nonneg hge).symm
      have hres := ih (parent.getD cur (-1)).toNat hlt2 (by omega) hnext
        (mark_or g rr cc M_PATH) (by simpa [mark_or] using hgcols)
        (by simpa [mark_or] using hmlen) f (by omega)
      rw [← hofn] at hres
      refine ⟨hres.1, hres.2.1, ?_⟩
      have hlast := hres.2.2
      have hnil : recon_path parent f (parent.getD cur (-1)) ≠ [] := by
        intro hn
        rw [hn] at hlast
        simp at hlast
      rw [getLast?_cons_of_ne_nil _ hnil]
      exact hlast

/- claim C5 -/

/-- C5: if `parent[end]` equals the unset sentinel (-1) when
reconstruct_and_mark is called, it returns with the grid — in particular the
entire marks array — exactly as it was on entry. -/
theorem recon_unset_no_marks (g : Grid) (parent : List Int) (cols : Nat) (er ec : Int)
    (fuel : Nat) (h : parent.getD (iidx cols er ec) (-1) = -1) :
    reconstruct_and_mark g parent cols er ec fuel = g := by
  have hrfl : reconstruct_and_mark g parent cols er ec fuel =
      if parent.getD (iidx cols er ec) (-1) = -1 then g
      else (recon_loop parent cols fuel g ((iidx cols er ec : Nat) : Int)).1 := rfl
  rw [hrfl, if_pos h]

/-- Witness for C5 at a concrete grid and all-unset parent array. -/
theorem recon_unset_no_marks_witness :
    ([(-1 : Int), -1, -1, -1].getD (iidx 2 1 1) (-1) = -1) ∧
    reconstruct_and_mark ⟨2, 2, [1, 1, 1, 1], [0, 0, 0, 0]⟩ [-1, -1, -1, -1] 2 1 1 5 =
      ⟨2, 2, [1, 1, 1, 1], [0, 0, 0, 0]⟩ :=
  ⟨by decide, recon_unset_no_marks ⟨2, 2, [1, 1, 1, 1], [0, 0, 0, 0]⟩ [-1, -1, -1, -1] 2 1 1 5
    (by decide)⟩

/- claim C9 -/

/-- C9 counterexample: entering -5 for the animation delay, the value main
passes into the solve functions is -5 itself — negative input reaches the
solvers as-is, not clamped at the configuration boundary. -/
theorem delay_not_clamped_cex :
    main_delay (some (-5)) = -5 ∧ main_delay (some (-5)) < 0 := by
  constructor
  · rfl
  · decide

/-- C9 (amended): main applies no clamping to the entered delay — a negative
delay is passed to the core solve functions unchanged; the only mitigation
is inside sleep_ms, which sleeps zero milliseconds for non-positive values. -/
theorem delay_passes_through (x : Int) (hx : x < 0) :
    main_delay (some x) = x ∧ sleep_ms (main_delay (some x)) = 0 := by
  refine ⟨rfl, ?_⟩
  have hnp : ¬ (0 : Int) < x := by omega
  simp [main_delay, get_int_with_default, sleep_ms, hnp]

/-- Witness for the amended C9 at input -5. -/
theorem delay_passes_through_witness :
    ((-5 : Int) < 0) ∧
    (main_delay (some (-5)) = -5 ∧ sleep_ms (main_delay (some (-5))) = 0) :=
  ⟨by decide, delay_passes_through (-5) (by decide)⟩

/- claim C6 -/

/-- C6: whenever the parent array forms a tree rooted at the start cell
(formalised by a rank that strictly decreases along parent links, with all
ranks below `rows*cols`, with exactly the start holding the root sentinel
-2, and parent pointers in range and pointing at discovered cells), the
backward walk of reconstruct_and_mark from any end cell with `parent[end]`
set reaches the root sentinel -2 within fuel `rows*cols`, the recorded walk
ends at the start cell, and the start cell carries the path mark in the
resulting grid. -/
theorem recon_walk_terminates_at_start (g : Grid) (parent : List Int) (er ec : Int)
    (sIdx : Nat) (rank : Nat → Nat)
    (hcols : 0 < g.cols)
    (hplen : parent.length = g.rows * g.cols)
    (hmlen : g.marks.length = g.rows * g.cols)
    (hsl : sIdx < parent.length)
    (hval : ∀ i, i < parent.length →
      parent.getD i (-1) = -2 ∨ parent.getD i (-1) = -1 ∨
      (0 ≤ parent.getD i (-1) ∧ (parent.getD i (-1)).toNat < parent.length ∧
       parent.getD (parent.getD i (-1)).toNat (-1) ≠ -1 ∧
       rank (parent.getD i (-1)).toNat < rank i))
    (hrank : ∀ i, i < parent.length → rank i < g.rows * g.cols)
    (hroot : ∀ i, i < parent.length → (parent.getD i (-1) = -2 ↔ i = sIdx))
    (hein : iidx g.cols er ec < parent.length)
    (hend : parent.getD (iidx g.cols er ec) (-1) ≠ -1) :
    (recon_loop parent g.cols (g.rows * g.cols) g ((iidx g.cols er ec : Nat) : Int)).2 = -2 ∧
    (recon_loop parent g.cols (g.rows * g.cols) g
        ((iidx g.cols er ec : Nat) : Int)).1.marks.getD sIdx 0 &&& M_PATH ≠ 0 ∧
    (recon_path parent (g.rows * g.cols) ((iidx g.cols er ec : Nat) : Int)).getLast? =
      some ((sIdx : Nat) : Int) ∧
    reconstruct_and_mark g parent g.cols er ec (g.rows * g.cols) =
      (recon_loop parent g.cols (g.rows * g.cols) g ((iidx g.cols er ec : Nat) : Int)).1 := by
  have hmain := recon_loop_spec parent g.cols hcols sIdx rank hval hroot
    (rank (iidx g.cols er ec) + 1) (iidx g.cols er ec) hein (by omega) hend
    g rfl (by rw [hmlen, ← hplen]; exact hsl) (g.rows * g.cols)
    (by have := hrank _ hein; omega)
  refine ⟨hmain.1, hmain.2.1, hmain.2.2, ?_⟩
  have hrfl : reconstruct_and_mark g parent g.cols er ec (g.rows * g.cols) =
      if parent.getD (iidx g.cols er ec) (-1) = -1 then g
      else (recon_loop parent g.cols (g.rows * g.cols) g
        ((iidx g.cols er ec : Nat) : Int)).1 := rfl
  rw [hrfl, if_neg hend]

/-- Witness for C6: a four-cell parent tree rooted at index 0 with end
index 2, rank the identity. -/
theorem recon_walk_terminates_at_start_witness :
    (0 < (2 : Nat) ∧
     ([(-2 : Int), 0, 1, -1] : List Int).length = 2 * 2 ∧
     ([0, 0, 0, 0] : List Nat).length = 2 * 2 ∧
     (0 : Nat) < ([(-2 : Int), 0, 1, -1] : List Int).length ∧
     iidx 2 1 0 < ([(-2 : Int), 0, 1, -1] : List Int).length ∧
     ([(-2 : Int), 0, 1, -1] : List Int).getD (iidx 2 1 0) (-1) ≠ -1) ∧
    ((recon_loop [(-2 : Int), 0, 1, -1] 2 (2 * 2) ⟨2, 2, [1, 1, 1, 1], [0, 0, 0, 0]⟩
        ((iidx 2 1 0 : Nat) : Int)).2 = -2 ∧
     (recon_loop [(-2 : Int), 0, 1, -1] 2 (2 * 2) ⟨2, 2, [1, 1, 1, 1], [0, 0, 0, 0]⟩
        ((iidx 2 1 0 : Nat) : Int)).1.marks.getD 0 0 &&& M_PATH ≠ 0 ∧
     (recon_path [(-2 : Int), 0, 1, -1] (2 * 2) ((iidx 2 1 0 : Nat) : Int)).getLast? =
       some ((0 : Nat) : Int) ∧
     reconstruct_and_mark ⟨2, 2, [1, 1, 1, 1], [0, 0, 0, 0]⟩ [(-2 : Int), 0, 1, -1] 2 1 0
        (2 * 2) =
       (recon_loop [(-2 : Int), 0, 1, -1] 2 (2 * 2) ⟨2, 2, [1, 1, 1, 1], [0, 0, 0, 0]⟩
        ((iidx 2 1 0 : Nat) : Int)).1) :=
  ⟨⟨by decide, by decide, by decide, by decide, by decide, by decide⟩,
   recon_walk_terminates_at_start ⟨2, 2, [1, 1, 1, 1], [0, 0, 0, 0]⟩ [(-2 : Int), 0, 1, -1]
     1 0 0 (fun i => i) (by decide) (by decide) (by decide) (by decide)
     (by decide) (by decide) (by decide) (by decide) (by decide)⟩

theorem bfs_run_succ (er ec : Int) (f : Nat) (st : BfsState) :
    bfs_run er ec (f + 1) st =
      if queue_empty st.q then (st, true)
      else if (bfs_step er ec st).2 then ((bfs_step er ec st).1, true)
      else bfs_run er ec f (bfs_step er ec st).1 := rfl

theorem solve_bfs_start_eq_end_marks (g : Grid) (sr sc : Int) (delay_ms : Int)
    (hr0 : 0 ≤ sr) (hr : sr < (g.rows : Int)) (hc0 : 0 ≤ sc) (hc : sc < (g.cols : Int)) :
    (solve_bfs g sr sc sr sc delay_ms).1.marks =
      (List.replicate (g.rows * g.cols) M_NONE).set (iidx g.cols sr sc) 5 ∧
    (solve_bfs g sr sc sr sc delay_ms).2.1 =
      (List.replicate (g.rows * g.cols) (-1 : Int)).set (iidx g.cols sr sc) (-2) := by
  have hsl : iidx g.cols sr sc < g.rows * g.cols := iidx_lt hr0 hr hc0 hc
  set n := g.rows * g.cols with hn
  set sIdx := iidx g.cols sr sc with hsidx
  have hq0 : (bfs_start g sr sc).q =
      { data := (List.replicate (n + 5) ((0 : Int), (0 : Int))).set 0 (sr, sc), head := 0,
        tail := 1, cap := n + 5, size := 1, pushes := 1, overflowed := false } := by
    have hno : ¬ (n + 5 ≤ 0 + 1) := by omega
    simp [bfs_start, queue_create, queue_push, hno]
  have hg0m : (bfs_start g sr sc).g.marks = (List.replicate n M_NONE).set sIdx 2 := by
    simp only [bfs_start, mark_or, mark_get]
    rw [getD_replicate M_NONE 0 hsl]
    rw [show M_NONE ||| M_FRONT = 2 from by decide]
  have hg0c : (bfs_start g sr sc).g.cols = g.cols := rfl
  have hp0 : (bfs_start g sr sc).parent = (List.replicate n (-1 : Int)).set sIdx (-2) := rfl
  have hqe : queue_empty (bfs_start g sr sc).q = false := by
    rw [hq0]
    rfl
  have hpop1 : (queue_pop (bfs_start g sr sc).q).1 = (sr, sc) := by
    rw [hq0]
    show ((List.replicate (n + 5) ((0 : Int), (0 : Int))).set 0 (sr, sc)).getD 0 (0, 0) = (sr, sc)
    exact getD_set_self _ _ _ _ (by simp)
  have hm1 : mark_get (mark_andnot (bfs_start g sr sc).g sr sc M_FRONT) sr sc = 0 := by
    simp only [mark_andnot, mark_get, hg0m, hg0c]
    rw [getD_set_self _ _ _ _ (by simp [hsl]), getD_set_self _ _ _ _ (by simp [hsl])]
    decide
  have hstep : bfs_step sr sc (bfs_start g sr sc) =
      ({ g := mark_or (mark_andnot (bfs_start g sr sc).g sr sc M_FRONT) sr sc M_VISIT,
         parent := (bfs_start g sr sc).parent,
         q := (queue_pop (bfs_start g sr sc).q).2 }, true) := by
    simp only [bfs_step]
    rw [hpop1]
    simp [hm1]
  have hmarks1 : (bfs_step sr sc (bfs_start g sr sc)).1.g.marks =
      (List.replicate n M_NONE).set sIdx 1 := by
    rw [hstep]
    show (mark_or (mark_andnot (bfs_start g sr sc).g sr sc M_FRONT) sr sc M_VISIT).marks =
      (List.replicate n M_NONE).set sIdx 1
    simp only [mark_or, mark_andnot, mark_get, hg0c, hg0m]
    rw [getD_set_self _ _ _ _ (by simp [hsl])]
    rw [show (2 : Nat) &&& (255 - M_FRONT) = 0 from by decide]
    rw [getD_set_self _ _ _ _ (by simp [hsl])]
    rw [show (0 : Nat) ||| M_VISIT = 1 from by decide]
    simp [List.set_set]
  have hpar1 : (bfs_step sr sc (bfs_start g sr sc)).1.parent =
      (List.replicate n (-1 : Int)).set sIdx (-2) := by
    rw [hstep]
    exact hp0
  have hcols1 : (bfs_step sr sc (bfs_start g sr sc)).1.g.cols = g.cols := by
    rw [hstep]
    rfl
  have hrun : bfs_run sr sc (n + 2) (bfs_start g sr sc) =
      ((bfs_step sr sc (bfs_start g sr sc)).1, true) := by
    rw [show n + 2 = (n + 1) + 1 from rfl, bfs_run_succ]
    rw [if_neg (by simp [hqe])]
    rw [hstep]
    rw [if_pos rfl]
  have hpe : ((List.replicate n (-1 : Int)).set sIdx (-2)).getD sIdx (-1) = -2 :=
    getD_set_self _ _ _ _ (by simp [hsl])
  have hsolve : (solve_bfs g sr sc sr sc delay_ms).1 =
      reconstruct_and_mark (bfs_step sr sc (bfs_start g sr sc)).1.g
        ((List.replicate n (-1 : Int)).set sIdx (-2)) g.cols sr sc (n + 1) := by
    simp only [solve_bfs, ← hn]
    rw [hrun]
    simp only [hpar1]
  have hsolvep : (solve_bfs g sr sc sr sc delay_ms).2.1 =
      (List.replicate n (-1 : Int)).set sIdx (-2) := by
    simp only [solve_bfs, ← hn]
    rw [hrun]
    simp only [hpar1]
  refine ⟨?_, hsolvep⟩
  rw [hsolve]
  have hrecon : reconstruct_and_mark (bfs_step sr sc (bfs_start g sr sc)).1.g
      ((List.replicate n (-1 : Int)).set sIdx (-2)) g.cols sr sc (n + 1) =
      (recon_loop ((List.replicate n (-1 : Int)).set sIdx (-2)) g.cols (n + 1)
        (bfs_step sr sc (bfs_start g sr sc)).1.g ((sIdx : Nat) : Int)).1 := by
    have hrfl : reconstruct_and_mark (bfs_step sr sc (bfs_start g sr sc)).1.g
        ((List.replicate n (-1 : Int)).set sIdx (-2)) g.cols sr sc (n + 1) =
        if ((List.replicate n (-1 : Int)).set sIdx (-2)).getD (iidx g.cols sr sc) (-1) = -1
        then (bfs_step sr sc (bfs_start g sr sc)).1.g
        else (recon_loop ((List.replicate n (-1 : Int)).set sIdx (-2)) g.cols (n + 1)
          (bfs_step sr sc (bfs_start g sr sc)).1.g ((iidx g.cols sr sc : Nat) : Int)).1 := rfl
    rw [hrfl, ← hsidx, if_neg (by rw [hpe]; decide)]
  rw [hrecon]
  have hcond : ((sIdx : Nat) : Int) ≠ -2 ∧ ((sIdx : Nat) : Int) ≠ -1 := by
    constructor <;> (intro h; omega)
  have hloop : recon_loop ((List.replicate n (-1 : Int)).set sIdx (-2)) g.cols (n + 1)
      (bfs_step sr sc (bfs_start g sr sc)).1.g ((sIdx : Nat) : Int) =
      (mark_or (bfs_step sr sc (bfs_start g sr sc)).1.g
        (((sIdx : Nat) : Int) / (g.cols : Int)) (((sIdx : Nat) : Int) % (g.cols : Int))
        M_PATH, -2) := by
    rw [show n + 1 = n + 1 from rfl]
    rw [recon_loop]
    rw [if_pos hcond]
    rw [show ((sIdx : Nat) : Int).toNat = sIdx from Int.toNat_ofNat sIdx]
    rw [hpe]
    exact recon_loop_neg2 _ _ _ _
  rw [hloop]
  simp only [mark_or, mark_get]
  have hdm : iidx (bfs_step sr sc (bfs_start g sr sc)).1.g.cols
      (((sIdx : Nat) : Int) / (g.cols : Int)) (((sIdx : Nat) : Int) % (g.cols : Int)) = sIdx := by
    rw [hcols1]
    exact iidx_divmod g.cols sIdx
  rw [hdm, hmarks1]
  rw [getD_set_self _ _ _ _ (by simp [hsl])]
  rw [show (1 : Nat) ||| M_PATH = 5 from rfl]
  simp [List.set_set]

/-- C8: if start equals end, solve_bfs breaks on the first pop and
reconstruct_and_mark marks exactly the start cell with the path bit: the
path-mark bit is set at the start index and nowhere else, and the
reconstructed path is the single-cell sequence containing only the start. -/
theorem start_eq_end_single_cell_path (g : Grid) (sr sc delay_ms : Int)
    (hr0 : 0 ≤ sr) (hr : sr < (g.rows : Int)) (hc0 : 0 ≤ sc) (hc : sc < (g.cols : Int)) :
    (∀ i, i < g.rows * g.cols →
      (((solve_bfs g sr sc sr sc delay_ms).1.marks.getD i 0) &&& M_PATH ≠ 0 ↔
        i = iidx g.cols sr sc)) ∧
    recon_path (solve_bfs g sr sc sr sc delay_ms).2.1 (g.rows * g.cols + 1)
      ((iidx g.cols sr sc : Nat) : Int) = [((iidx g.cols sr sc : Nat) : Int)] := by
  have hsl : iidx g.cols sr sc < g.rows * g.cols := iidx_lt hr0 hr hc0 hc
  obtain ⟨hmarks, hpar⟩ := solve_bfs_start_eq_end_marks g sr sc delay_ms hr0 hr hc0 hc
  constructor
  · intro i hi
    rw [hmarks]
    by_cases his : i = iidx g.cols sr sc
    · subst his
      rw [getD_set_self _ _ _ _ (by simp [hsl])]
      simp [M_PATH]
    · rw [getD_set_ne _ _ _ (fun he => his he.symm)]
      rw [getD_replicate M_NONE 0 hi]
      simp [M_NONE, M_PATH, his]
  · rw [hpar]
    have hpe : ((List.replicate (g.rows * g.cols) (-1 : Int)).set (iidx g.cols sr sc)
        (-2)).getD (iidx g.cols sr sc) (-1) = -2 :=
      getD_set_self _ _ _ _ (by simp [hsl])
    have hcond : ((iidx g.cols sr sc : Nat) : Int) ≠ -2 ∧
        ((iidx g.cols sr sc : Nat) : Int) ≠ -1 := by
      constructor <;> (intro h; omega)
    rw [recon_path, if_pos hcond,
      show ((iidx g.cols sr sc : Nat) : Int).toNat = iidx g.cols sr sc from
        Int.toNat_ofNat _, hpe, recon_path_neg2]

/-- Witness for C8 on a 3-by-3 grid with start = end = (1,1). -/
theorem start_eq_end_single_cell_path_witness :
    ((0 : Int) ≤ 1 ∧ (1 : Int) < ((3 : Nat) : Int) ∧ (0 : Int) ≤ 1 ∧
      (1 : Int) < ((3 : Nat) : Int)) ∧
    ((∀ i, i < 3 * 3 →
      (((solve_bfs ⟨3, 3, List.replicate 9 1, List.replicate 9 0⟩ 1 1 1 1 0).1.marks.getD i 0)
        &&& M_PATH ≠ 0 ↔ i = iidx 3 1 1)) ∧
    recon_path (solve_bfs ⟨3, 3, List.replicate 9 1, List.replicate 9 0⟩ 1 1 1 1 0).2.1
      (3 * 3 + 1) ((iidx 3 1 1 : Nat) : Int) = [((iidx 3 1 1 : Nat) : Int)]) :=
  ⟨⟨by decide, by decide, by decide, by decide⟩,
   start_eq_end_single_cell_path ⟨3, 3, List.replicate 9 1, List.replicate 9 0⟩ 1 1 0
     (by decide) (by decide) (by decide) (by decide)⟩

/- ring buffer refinement: a Queue in a well-formed state represents the
   FIFO list of its unread entries -/

theorem add_mod_inj {h a b cap : Nat} (ha : a < cap) (hb : b < cap)
    (he : (h + a) % cap = (h + b) % cap) : a = b := by
  have hcap : 0 < cap := by omega
  have hrlt : h % cap < cap := Nat.mod_lt h hcap
  have ea : (h + a) % cap = (h % cap + a) % cap := by
    rw [Nat.add_mod h a cap, Nat.mod_eq_of_lt ha]
  have eb : (h + b) % cap = (h % cap + b) % cap := by
    rw [Nat.add_mod h b cap, Nat.mod_eq_of_lt hb]
  rw [ea, eb] at he
  have fa : ∀ x, x < cap → (h % cap + x) % cap = h % cap + x ∨
      (cap ≤ h % cap + x ∧ (h % cap + x) % cap = h % cap + x - cap) := by
    intro x hx
    rcases Nat.lt_or_ge (h % cap + x) cap with h1 | h1
    · exact Or.inl (Nat.mod_eq_of_lt h1)
    · refine Or.inr ⟨h1, ?_⟩
      rw [Nat.mod_eq_sub_mod h1]
      exact Nat.mod_eq_of_lt (by omega)
  rcases fa a ha with e1 | ⟨g1, e1⟩ <;> rcases fa b hb with e2 | ⟨g2, e2⟩ <;>
    (rw [e1, e2] at he; omega)

theorem queue_create_inv {cap : Nat} (h : 0 < cap) : QueueInv (queue_create cap) [] := by
  refine ⟨by simp [queue_create], h, h, h, rfl, by simp [queue_create], ?_⟩
  intro i hi
  simp at hi

theorem queue_empty_inv {q : Queue} {l : List (Int × Int)} (hq : QueueInv q l) :
    (queue_empty q = true ↔ l = []) := by
  obtain ⟨hd, hh, ht, hl, hs, htl, hc⟩ := hq
  unfold queue_empty
  rw [beq_iff_eq]
  constructor
  · intro he
    rw [htl] at he
    have := @add_mod_inj q.head 0 l.length q.cap (Nat.lt_of_le_of_lt (Nat.zero_le _) hh) hl
      (by rw [Nat.add_zero, Nat.mod_eq_of_lt hh]; exact he)
    exact List.length_eq_zero.mp this.symm
  · intro he
    subst he
    rw [htl]
    simp [Nat.mod_eq_of_lt hh]

theorem queue_push_inv {q : Queue} {l : List (Int × Int)} (hq : QueueInv q l)
    (hroom : l.length + 1 < q.cap) (v : Int × Int) :
    QueueInv (queue_push q v) (l ++ [v]) := by
  obtain ⟨hd, hh, ht, hl, hs, htl, hc⟩ := hq
  have hcap : 0 < q.cap := Nat.lt_of_le_of_lt (Nat.zero_le _) hh
  have htail' : (if q.cap ≤ q.tail + 1 then 0 else q.tail + 1) = (q.tail + 1) % q.cap := by
    rcases Nat.lt_or_ge (q.tail + 1) q.cap with h1 | h1
    · rw [if_neg (by omega), Nat.mod_eq_of_lt h1]
    · have h2 : q.tail + 1 = q.cap := by omega
      rw [if_pos (by omega), h2, Nat.mod_self]
  refine ⟨by simp [queue_push, hd], hh, ?_, ?_, ?_, ?_, ?_⟩
  · show (if q.cap ≤ q.tail + 1 then 0 else q.tail + 1) < q.cap
    rw [htail']
    exact Nat.mod_lt _ hcap
  · simpa using hroom
  · show q.size + 1 = (l ++ [v]).length
    simp [hs]
  · show (if q.cap ≤ q.tail + 1 then 0 else q.tail + 1) = (q.head + (l ++ [v]).length) % q.cap
    rw [htail', htl, Nat.mod_add_mod]
    congr 1
    simp
    omega
  · intro i hi
    simp only [List.length_append, List.length_cons, List.length_nil] at hi
    show (q.data.set q.tail v).getD ((q.head + i) % q.cap) (0, 0) = (l ++ [v]).getD i (0, 0)
    rcases Nat.lt_or_ge i l.length with hil | hil
    · have hne : q.tail ≠ (q.head + i) % q.cap := by
        rw [htl]
        intro he
        have := @add_mod_inj q.head l.length i q.cap (by omega) (by omega) he
        omega
      rw [getD_set_ne _ _ _ hne, hc i hil, List.getD_append _ _ _ _ hil]
    · have hieq : i = l.length := by omega
      subst hieq
      have hidx : (q.head + l.length) % q.cap = q.tail := htl.symm
      rw [hidx, getD_set_self _ _ _ _ (by rw [hd]; exact ht)]
      rw [List.getD_append_right _ _ _ _ (le_refl _)]
      simp

theorem queue_pop_inv {q : Queue} {l : List (Int × Int)} {v : Int × Int}
    (hq : QueueInv q (v :: l)) :
    (queue_pop q).1 = v ∧ QueueInv (queue_pop q).2 l := by
  obtain ⟨hd, hh, ht, hl, hs, htl, hc⟩ := hq
  have hcap : 0 < q.cap := Nat.lt_of_le_of_lt (Nat.zero_le _) hh
  have hhead' : (if q.cap ≤ q.head + 1 then 0 else q.head + 1) = (q.head + 1) % q.cap := by
    rcases Nat.lt_or_ge (q.head + 1) q.cap with h1 | h1
    · rw [if_neg (by omega), Nat.mod_eq_of_lt h1]
    · have h2 : q.head + 1 = q.cap := by omega
      rw [if_pos (by omega), h2, Nat.mod_self]
  constructor
  · show q.data.getD q.head (0, 0) = v
    have h0 := hc 0 (by simp)
    rw [Nat.add_zero, Nat.mod_eq_of_lt hh] at h0
    simpa using h0
  · refine ⟨hd, ?_, ht, ?_, ?_, ?_, ?_⟩
    · show (if q.cap ≤ q.head + 1 then 0 else q.head + 1) < q.cap
      rw [hhead']
      exact Nat.mod_lt _ hcap
    · show l.length < q.cap
      simp at hl
      omega
    · show q.size - 1 = l.length
      rw [hs]
      simp
    · show q.tail = ((if q.cap ≤ q.head + 1 then 0 else q.head + 1) + l.length) % q.cap
      rw [hhead', Nat.mod_add_mod, htl]
      congr 1
      simp
      omega
    · intro i hi
      show q.data.getD (((if q.cap ≤ q.head + 1 then 0 else q.head + 1) + i) % q.cap) (0, 0) =
        l.getD i (0, 0)
      rw [hhead', Nat.mod_add_mod]
      have h1 := hc (i + 1) (by simp; omega)
      have he : q.head + 1 + i = q.head + (i + 1) := by omega
      rw [he]
      rw [h1]
      simp

theorem stack_create_inv (cap : Nat) : StackInv (stack_create cap) [] := by
  refine ⟨by simp [stack_create], rfl, by simp, ?_⟩
  intro i hi
  simp at hi

theorem stack_empty_inv {s : Stack} {l : List (Int × Int)} (hs : StackInv s l) :
    (stack_empty s = true ↔ l = []) := by
  obtain ⟨hd, htop, hle, hc⟩ := hs
  unfold stack_empty
  rw [beq_iff_eq, htop]
  exact ⟨fun h => List.length_eq_zero.mp h, fun h => by rw [h]; rfl⟩

theorem stack_push_inv {s : Stack} {l : List (Int × Int)} (hs : StackInv s l)
    (hroom : l.length < s.cap) (v : Int × Int) :
    StackInv (stack_push s v) (v :: l) := by
  obtain ⟨hd, htop, hle, hc⟩ := hs
  have hlt : s.top < s.cap := by omega
  unfold stack_push
  rw [if_pos hlt]
  refine ⟨by simp [hd], by simp [htop], by simp; omega, ?_⟩
  intro i hi
  simp only [List.length_cons] at hi
  show (s.data.set s.top v).getD ((v :: l).length - 1 - i) (0, 0) = (v :: l).getD i (0, 0)
  simp only [List.length_cons]
  rcases Nat.eq_zero_or_pos i with hi0 | hip
  · subst hi0
    have he : l.length + 1 - 1 - 0 = s.top := by omega
    rw [he, getD_set_self _ _ _ _ (by rw [hd]; exact hlt)]
    rfl
  · have hne : s.top ≠ l.length + 1 - 1 - i := by omega
    rw [getD_set_ne _ _ _ hne]
    have he : l.length + 1 - 1 - i = l.length - 1 - (i - 1) := by omega
    rw [he, hc (i - 1) (by omega)]
    rcases Nat.exists_eq_succ_of_ne_zero (by omega : i ≠ 0) with ⟨j, rfl⟩
    simp

theorem stack_pop_inv {s : Stack} {l : List (Int × Int)} {v : Int × Int}
    (hs : StackInv s (v :: l)) :
    (stack_pop s).1 = v ∧ StackInv (stack_pop s).2 l := by
  obtain ⟨hd, htop, hle, hc⟩ := hs
  constructor
  · show s.data.getD (s.top - 1) (0, 0) = v
    have h0 := hc 0 (by simp)
    simp only [List.length_cons] at h0
    rw [htop]
    simp only [List.length_cons]
    have he : l.length + 1 - 1 = l.length + 1 - 1 - 0 := by omega
    rw [he, h0]
    rfl
  · refine ⟨hd, ?_, ?_, ?_⟩
    · show s.top - 1 = l.length
      rw [htop]
      simp
    · show l.length ≤ s.cap
      simp only [List.length_cons] at hle
      omega
    · intro i hi
      show s.data.getD (l.length - 1 - i) (0, 0) = l.getD i (0, 0)
      have h1 := hc (i + 1) (by simp; omega)
      simp only [List.length_cons] at h1
      have he : l.length + 1 - 1 - (i + 1) = l.length - 1 - i := by omega
      rw [he] at h1
      rw [h1]
      simp

theorem countP_range_update {n j : Nat} {p q : Nat → Bool}
    (hj : j < n) (hpq : ∀ i, i ≠ j → p i = q i) (hpj : p j = false) (hqj : q j = true) :
    (List.range n).countP q = (List.range n).countP p + 1 := by
  induction n with
  | zero => omega
  | succ m ih =>
    rw [List.range_succ, List.countP_append, List.countP_append]
    rcases Nat.lt_or_ge j m with hjm | hjm
    · rw [ih hjm]
      have : List.countP q [m] = List.countP p [m] := by
        simp [List.countP_cons, hpq m (by omega)]
      omega
    · have hjeq : j = m := by omega
      subst hjeq
      have hpc : (List.range j).countP p = (List.range j).countP q := by
        apply List.countP_congr
        intro a ha
        rw [List.mem_range] at ha
        rw [hpq a (by omega)]
      simp [List.countP_cons, hpj, hqj, hpc]

theorem countP_range_congr {n : Nat} {p q : Nat → Bool} (h : ∀ i, i < n → p i = q i) :
    (List.range n).countP p = (List.range n).countP q := by
  apply List.countP_congr
  intro a ha
  rw [List.mem_range] at ha
  rw [h a ha]

theorem countP_range_le (n : Nat) (p : Nat → Bool) : (List.range n).countP p ≤ n := by
  calc (List.range n).countP p ≤ (List.range n).length := List.countP_le_length p
  _ = n := List.length_range n

/-- A duplicate-free list of positions inside the grid all of whose members
satisfy a predicate on their flat indices is no longer than the index count
of the predicate. -/
theorem nodup_inside_length_le (rows cols : Nat) (hcols : 0 < cols)
    (l : List (Int × Int)) (p : Nat → Bool)
    (hnd : l.Nodup)
    (hin : ∀ x ∈ l, 0 ≤ x.1 ∧ x.1 < (rows : Int) ∧ 0 ≤ x.2 ∧ x.2 < (cols : Int))
    (hp : ∀ x ∈ l, p (iidx cols x.1 x.2) = true) :
    l.length ≤ (List.range (rows * cols)).countP p := by
  have hmapnd : (l.map (fun x => iidx cols x.1 x.2)).Nodup := by
    apply List.Nodup.map_on _ hnd
    intro x hx y hy hxy
    obtain ⟨hx1, hx2, hx3, hx4⟩ := hin x hx
    obtain ⟨hy1, hy2, hy3, hy4⟩ := hin y hy
    obtain ⟨h1, h2⟩ := iidx_inj hcols hx1 hx2 hx3 hx4 hy1 hy2 hy3 hy4 hxy
    exact Prod.ext h1 h2
  have hsub : (l.map (fun x => iidx cols x.1 x.2)) ⊆ (List.range (rows * cols)).filter p := by
    intro a ha
    rw [List.mem_map] at ha
    obtain ⟨x, hx, rfl⟩ := ha
    rw [List.mem_filter, List.mem_range]
    obtain ⟨hx1, hx2, hx3, hx4⟩ := hin x hx
    exact ⟨iidx_lt hx1 hx2 hx3 hx4, hp x hx⟩
  calc l.length = (l.map (fun x => iidx cols x.1 x.2)).length := (List.length_map _ _).symm
  _ ≤ ((List.range (rows * cols)).filter p).length := by
      have h1 : (l.map (fun x => iidx cols x.1 x.2)).toFinset.card =
          (l.map (fun x => iidx cols x.1 x.2)).length := List.toFinset_card_of_nodup hmapnd
      have h2 : (l.map (fun x => iidx cols x.1 x.2)).toFinset ⊆
          ((List.range (rows * cols)).filter p).toFinset := by
        intro a ha
        rw [List.mem_toFinset] at ha
        rw [List.mem_toFinset]
        exact hsub ha
      have h3 := Finset.card_le_card h2
      have h4 := List.toFinset_card_le ((List.range (rows * cols)).filter p)
      omega
  _ = (List.range (rows * cols)).countP p := (List.countP_eq_length_filter _ _).symm

/- path extension -/

theorem steps_ok_snoc {g : Grid} {e x prev : Int × Int} {t : List (Int × Int)}
    (h : steps_ok g e prev t = true) (hadj : adjB e x = true) (hio : inside_open g x = true) :
    steps_ok g x prev (t ++ [x]) = true := by
  induction t generalizing prev with
  | nil =>
    simp only [steps_ok, beq_iff_eq] at h
    subst h
    simp [steps_ok, hadj, hio]
  | cons y t2 ih =>
    simp only [steps_ok, Bool.and_eq_true] at h
    obtain ⟨⟨h1, h2⟩, h3⟩ := h
    simp only [List.cons_append, steps_ok, Bool.and_eq_true]
    exact ⟨⟨h1, h2⟩, ih h3⟩

theorem is_path_snoc {g : Grid} {s p x : Int × Int} {l : List (Int × Int)}
    (h : is_path g s p l = true) (hadj : adjB p x = true) (hio : inside_open g x = true) :
    is_path g s x (l ++ [x]) = true := by
  cases l with
  | nil => simp [is_path] at h
  | cons y t =>
    simp only [is_path, Bool.and_eq_true] at h
    obtain ⟨⟨h1, h2⟩, h3⟩ := h
    simp only [List.cons_append, is_path, Bool.and_eq_true]
    exact ⟨⟨h1, h2⟩, steps_ok_snoc h3 hadj hio⟩

theorem reaches_snoc {g : Grid} {s p x : Int × Int} (h : ReachesB g s p)
    (hadj : adjB p x = true) (hio : inside_open g x = true) : ReachesB g s x := by
  obtain ⟨l, hl⟩ := h
  exact ⟨l ++ [x], is_path_snoc hl hadj hio⟩

theorem reaches_self {g : Grid} {s : Int × Int} (h : is_inside g s.1 s.2 = true) :
    ReachesB g s s := by
  refine ⟨[s], ?_⟩
  simp [is_path, steps_ok, h]

/- small congruence lemmas for grid operations -/

theorem getD_replicate_self {α : Type} (n i : Nat) (a : α) :
    (List.replicate n a).getD i a = a := by
  rcases Nat.lt_or_ge i n with h | h
  · exact getD_replicate a a h
  · simp [List.getD_eq_getElem?_getD, List.getElem?_replicate, Nat.not_lt.mpr h]

theorem is_inside_eq {g g0 : Grid} (hr : g.rows = g0.rows) (hc : g.cols = g0.cols)
    (r c : Int) : is_inside g r c = is_inside g0 r c := by
  unfold is_inside
  rw [hr, hc]

theorem grid_get_eq {g g0 : Grid} (hc : g.cells = g0.cells) (hco : g.cols = g0.cols)
    (r c : Int) : grid_get g r c = grid_get g0 r c := by
  unfold grid_get iidx
  rw [hc, hco]

theorem is_inside_insideP {g : Grid} {r c : Int} :
    is_inside g r c = true ↔ insideP g (r, c) := by
  rw [is_inside_iff]
  exact Iff.rfl

theorem nbrs4_getD_mem {kd : Nat} (h : kd < 4) : nbrs4.getD kd (0, 0) ∈ nbrs4 := by
  match kd, h with
  | 0, _ => decide
  | 1, _ => decide
  | 2, _ => decide
  | 3, _ => decide

theorem adjB_of_dir {r c : Int} {d : Int × Int} (hd : d ∈ nbrs4) :
    adjB (r, c) (r + d.1, c + d.2) = true := by
  unfold adjB
  have h1 : r + d.1 - r = d.1 := by ring
  have h2 : c + d.2 - c = d.2 := by ring
  rw [h1, h2]
  simpa using hd

theorem countP_range_lt_of_false {n j : Nat} {p : Nat → Bool} (hj : j < n)
    (hpj : p j = false) : (List.range n).countP p < n := by
  have hsum := @List.length_eq_countP_add_countP Nat p (List.range n)
  have hpos : 0 < (List.range n).countP (fun a => decide (¬ p a = true)) := by
    rw [List.countP_pos_iff]
    exact ⟨j, List.mem_range.mpr hj, by simp [hpj]⟩
  have h2 : (List.range n).countP p < (List.range n).countP p +
      (List.range n).countP (fun a => decide (¬ p a = true)) := by omega
  rw [← hsum] at h2
  rwa [List.length_range] at h2

theorem BfsInvL.len_le {g0 : Grid} {s : Int × Int} {st : BfsState} {l : List (Int × Int)}
    (inv : BfsInvL g0 s st l) : l.length ≤ disc_count st.parent := by
  have h := nodup_inside_length_le g0.rows g0.cols inv.cpos l
    (fun i => !(st.parent.getD i (-1) == -1)) inv.nodup
    (fun x hx => inv.mem_inside x hx)
    (fun x hx => by
      have hne := inv.mem_disc x hx
      simp only [Bool.not_eq_true', beq_eq_false_iff_ne, ne_eq]
      exact hne)
  unfold disc_count
  rw [inv.plen]
  exact h

theorem BfsInvL.disc_le {g0 : Grid} {s : Int × Int} {st : BfsState} {l : List (Int × Int)}
    (inv : BfsInvL g0 s st l) : disc_count st.parent ≤ g0.rows * g0.cols := by
  unfold disc_count
  rw [← inv.plen]
  exact countP_range_le _ _

theorem bfs_expand_inv {g0 : Grid} {s : Int × Int} {st : BfsState} {l : List (Int × Int)}
    (inv : BfsInvL g0 s st l) (r c : Int) (kd : Nat) (hkd : kd < 4)
    (hrc : insideP g0 (r, c)) (hreach : ReachesB g0 s (r, c)) :
    ∃ l', BfsInvL g0 s (bfs_expand r c st kd) l' ∧
      g0.rows * g0.cols - disc_count (bfs_expand r c st kd).parent + l'.length =
        g0.rows * g0.cols - disc_count st.parent + l.length := by
  set n := g0.rows * g0.cols with hn
  set d := nbrs4.getD kd (0, 0) with hd
  set nr := r + d.1 with hnr
  set nc := c + d.2 with hnc
  by_cases hg : (is_inside st.g nr nc && (grid_get st.g nr nc == 0) &&
      (st.parent.getD (iidx st.g.cols nr nc) (-1) == -1)) = true
  · -- discovery: the neighbour is inside, open and undiscovered
    simp only [Bool.and_eq_true, beq_iff_eq] at hg
    obtain ⟨⟨hin, hopen⟩, hund⟩ := hg
    have hexp : bfs_expand r c st kd =
        { st with
          parent := st.parent.set (iidx st.g.cols nr nc) (r * (st.g.cols : Int) + c)
          q := queue_push st.q (nr, nc)
          g := mark_or st.g nr nc M_FRONT } := by
      simp only [bfs_expand]
      rw [← hd, ← hnr, ← hnc]
      rw [if_pos (by
        simp only [Bool.and_eq_true, beq_iff_eq]
        exact ⟨⟨hin, hopen⟩, hund⟩)]
    have hnin : insideP g0 (nr, nc) := by
      rw [← is_inside_insideP, ← is_inside_eq inv.rows inv.cols]
      exact hin
    have hj : iidx st.g.cols nr nc = iidx g0.cols nr nc := by rw [inv.cols]
    have hjlt : iidx g0.cols nr nc < n := iidx_lt hnin.1 hnin.2.1 hnin.2.2.1 hnin.2.2.2
    have hjplen : iidx g0.cols nr nc < st.parent.length := by rw [inv.plen]; exact hjlt
    have hvnn : (0 : Int) ≤ r * (st.g.cols : Int) + c := by
      rw [inv.cols]
      have h1 : 0 ≤ r := hrc.1
      have h2 : 0 ≤ c := hrc.2.2.1
      positivity
    have hnmem : (nr, nc) ∉ l := by
      intro hmem
      have := inv.mem_disc (nr, nc) hmem
      rw [← hj] at this
      exact this hund
    have hroom : l.length + 1 < st.q.cap := by
      have h1 := inv.len_le
      have h2 : disc_count st.parent < n := by
        unfold disc_count
        rw [inv.plen]
        apply countP_range_lt_of_false hjlt
        rw [hj] at hund
        rw [hund]
        decide
      rw [inv.cap]
      omega
    have hpnew : ∀ i, i ≠ iidx g0.cols nr nc →
        (st.parent.set (iidx st.g.cols nr nc) (r * (st.g.cols : Int) + c)).getD i (-1) =
          st.parent.getD i (-1) := by
      intro i hi
      rw [hj]
      exact getD_set_ne _ _ _ (fun he => hi he.symm)
    have hpj : (st.parent.set (iidx st.g.cols nr nc) (r * (st.g.cols : Int) + c)).getD
        (iidx g0.cols nr nc) (-1) = r * (st.g.cols : Int) + c := by
      rw [hj]
      exact getD_set_self _ _ _ _ hjplen
    have hdisc' : disc_count (st.parent.set (iidx st.g.cols nr nc)
        (r * (st.g.cols : Int) + c)) = disc_count st.parent + 1 := by
      unfold disc_count
      rw [List.length_set, inv.plen]
      apply countP_range_update hjlt
      · intro i hi
        rw [hpnew i hi]
      · rw [hj] at hund
        rw [hund]
        decide
      · rw [hpj]
        simp only [Bool.not_eq_true', beq_eq_false_iff_ne, ne_eq]
        omega
    have hadj : adjB (r, c) (nr, nc) = true := adjB_of_dir (nbrs4_getD_mem hkd)
    have hio : inside_open g0 (nr, nc) = true := by
      unfold inside_open
      rw [← is_inside_eq inv.rows inv.cols, ← grid_get_eq inv.cells inv.cols]
      simp [hin, hopen]
    refine ⟨l ++ [(nr, nc)], ?_, ?_⟩
    · rw [hexp]
      refine ⟨queue_push_inv inv.qinv hroom _, by simp [queue_push, inv.cap], inv.cpos,
        inv.cells, inv.cols, inv.rows, by simp [inv.plen], ?_, ?_, ?_, ?_, ?_, ?_⟩
      · simp [List.nodup_append, inv.nodup, hnmem]
      · intro p hp
        rw [List.mem_append] at hp
        rcases hp with hp | hp
        · exact inv.mem_inside p hp
        · simp at hp
          subst hp
          exact hnin
      · intro p hp
        rw [List.mem_append] at hp
        rcases hp with hp | hp
        · by_cases hpe : iidx g0.cols p.1 p.2 = iidx g0.cols nr nc
          · rw [hpe, hpj]
            omega
          · rw [hpnew _ hpe]
            exact inv.mem_disc p hp
        · simp at hp
          subst hp
          rw [hpj]
          omega
      · intro p hpin hpd
        by_cases hpe : iidx g0.cols p.1 p.2 = iidx g0.cols nr nc
        · have hpeq : p = (nr, nc) := by
            obtain ⟨h1, h2⟩ := iidx_inj inv.cpos hpin.1 hpin.2.1 hpin.2.2.1 hpin.2.2.2
              hnin.1 hnin.2.1 hnin.2.2.1 hnin.2.2.2 hpe
            exact Prod.ext h1 h2
          subst hpeq
          exact reaches_snoc hreach hadj hio
        · rw [hpnew _ hpe] at hpd
          exact inv.disc_reach p hpin hpd
      · show st.q.pushes + 1 = _
        rw [inv.pushctr, hdisc']
      · show (st.q.overflowed || decide (st.q.cap ≤ st.q.size)) = false
        rw [inv.ovf]
        obtain ⟨_, _, _, hql, hqs, _, _⟩ := inv.qinv
        simp only [Bool.false_or, decide_eq_false_iff_not]
        omega
    · rw [hexp]
      simp only
      rw [hdisc']
      have h2 : disc_count st.parent < n := by
        unfold disc_count
        rw [inv.plen]
        apply countP_range_lt_of_false hjlt
        rw [hj] at hund
        rw [hund]
        decide
      simp only [List.length_append, List.length_cons, List.length_nil]
      omega
  · -- no discovery: the state is unchanged
    have hexp : bfs_expand r c st kd = st := by
      simp only [bfs_expand]
      rw [← hd, ← hnr, ← hnc]
      rw [if_neg hg]
    rw [hexp]
    exact ⟨l, inv, rfl⟩

theorem bfs_expand_fold_inv {g0 : Grid} {s : Int × Int} (r c : Int)
    (hrc : insideP g0 (r, c)) (hreach : ReachesB g0 s (r, c)) :
    ∀ (dirs : List Nat), (∀ k ∈ dirs, k < 4) →
    ∀ (st : BfsState) (l : List (Int × Int)), BfsInvL g0 s st l →
    ∃ l', BfsInvL g0 s (dirs.foldl (bfs_expand r c) st) l' ∧
      g0.rows * g0.cols - disc_count (dirs.foldl (bfs_expand r c) st).parent + l'.length =
        g0.rows * g0.cols - disc_count st.parent + l.length := by
  intro dirs
  induction dirs with
  | nil => exact fun _ st l inv => ⟨l, inv, rfl⟩
  | cons k ks ih =>
    intro hks st l inv
    obtain ⟨l1, inv1, hm1⟩ := bfs_expand_inv inv r c k (hks k (by simp)) hrc hreach
    obtain ⟨l2, inv2, hm2⟩ := ih (fun x hx => hks x (by simp [hx])) _ l1 inv1
    refine ⟨l2, inv2, ?_⟩
    simp only [List.foldl_cons] at *
    omega

theorem bfs_step_inv {g0 : Grid} {s : Int × Int} {er ec : Int} {st : BfsState}
    {l : List (Int × Int)} (inv : BfsInvL g0 s st l) (hne : queue_empty st.q = false) :
    ∃ l', BfsInvL g0 s (bfs_step er ec st).1 l' ∧
      g0.rows * g0.cols - disc_count (bfs_step er ec st).1.parent + l'.length + 1 =
        g0.rows * g0.cols - disc_count st.parent + l.length := by
  have hlne : l ≠ [] := by
    intro h
    rw [(queue_empty_inv inv.qinv).mpr h] at hne
    exact Bool.noConfusion hne
  obtain ⟨p, l2, rfl⟩ : ∃ p l2, l = p :: l2 := by
    cases l with
    | nil => exact absurd rfl hlne
    | cons a t => exact ⟨a, t, rfl⟩
  obtain ⟨hpopv, hpopq⟩ := queue_pop_inv inv.qinv
  have hpin : insideP g0 p := inv.mem_inside p (by simp)
  have hpdisc := inv.mem_disc p (by simp)
  have hpreach : ReachesB g0 s p := inv.disc_reach p hpin hpdisc
  -- the state after the pop prologue (frontier clear, visited mark)
  have hstep : bfs_step er ec st =
      (let g1 := mark_andnot st.g p.1 p.2 M_FRONT
       let g2 := if mark_get g1 p.1 p.2 &&& M_VISIT == 0 then mark_or g1 p.1 p.2 M_VISIT else g1
       let st1 : BfsState := { g := g2, parent := st.parent, q := (queue_pop st.q).2 }
       if p.1 == er && p.2 == ec then (st1, true)
       else ((List.range 4).foldl (bfs_expand p.1 p.2) st1, false)) := by
    simp only [bfs_step, hpopv]
  set g1 := mark_andnot st.g p.1 p.2 M_FRONT with hg1
  set g2 := (if mark_get g1 p.1 p.2 &&& M_VISIT == 0 then mark_or g1 p.1 p.2 M_VISIT else g1)
    with hg2
  have hg2cells : g2.cells = g0.cells := by
    rw [hg2, hg1]
    split <;> exact inv.cells
  have hg2cols : g2.cols = g0.cols := by
    rw [hg2, hg1]
    split <;> exact inv.cols
  have hg2rows : g2.rows = g0.rows := by
    rw [hg2, hg1]
    split <;> exact inv.rows
  have inv1 : BfsInvL g0 s { g := g2, parent := st.parent, q := (queue_pop st.q).2 } l2 :=
    { qinv := hpopq
      cap := inv.cap
      cpos := inv.cpos
      cells := hg2cells
      cols := hg2cols
      rows := hg2rows
      plen := inv.plen
      nodup := inv.nodup.of_cons
      mem_inside := fun x hx => inv.mem_inside x (by simp [hx])
      mem_disc := fun x hx => inv.mem_disc x (by simp [hx])
      disc_reach := inv.disc_reach
      pushctr := inv.pushctr
      ovf := inv.ovf }
  rw [hstep]
  simp only [← hg1, ← hg2]
  by_cases hbrk : (p.1 == er && p.2 == ec) = true
  · rw [if_pos hbrk]
    refine ⟨l2, inv1, ?_⟩
    simp only [List.length_cons]
    omega
  · rw [if_neg hbrk]
    obtain ⟨l', inv', hm⟩ := bfs_expand_fold_inv p.1 p.2 hpin hpreach (List.range 4)
      (fun k hk => List.mem_range.mp hk) _ l2 inv1
    refine ⟨l', inv', ?_⟩
    simp only [List.length_cons] at *
    omega

theorem bfs_run_inv {g0 : Grid} {s : Int × Int} {er ec : Int} :
    ∀ (f : Nat) (st : BfsState) (l : List (Int × Int)), BfsInvL g0 s st l →
    g0.rows * g0.cols - disc_count st.parent + l.length < f →
    (bfs_run er ec f st).2 = true ∧ ∃ l', BfsInvL g0 s (bfs_run er ec f st).1 l' := by
  intro f
  induction f with
  | zero => intro st l _ h; omega
  | succ f ih =>
    intro st l inv hm
    rw [bfs_run_succ]
    by_cases hqe : queue_empty st.q = true
    · rw [if_pos hqe]
      exact ⟨rfl, l, inv⟩
    · rw [if_neg hqe]
      have hne : queue_empty st.q = false := by
        cases h : queue_empty st.q
        · rfl
        · exact absurd h hqe
      obtain ⟨l2, inv2, hm2⟩ := bfs_step_inv inv hne
      by_cases hbrk : (bfs_step er ec st).2 = true
      · rw [if_pos hbrk]
        exact ⟨rfl, l2, inv2⟩
      · rw [if_neg hbrk]
        exact ih (bfs_step er ec st).1 l2 inv2 (by omega)

theorem bfs_start_inv {g : Grid} {sr sc : Int} (hs : insideP g (sr, sc)) :
    BfsInvL g (sr, sc) (bfs_start g sr sc) [(sr, sc)] := by
  have hcpos : 0 < g.cols := by
    have := hs.2.2.2
    have := hs.2.2.1
    omega
  set n := g.rows * g.cols with hn
  have hsl : iidx g.cols sr sc < n := iidx_lt hs.1 hs.2.1 hs.2.2.1 hs.2.2.2
  have hqiv : QueueInv (queue_push (queue_create (n + 5)) (sr, sc)) ([] ++ [(sr, sc)]) :=
    queue_push_inv (queue_create_inv (by omega)) (by simp [queue_create]) (sr, sc)
  have hpar : (bfs_start g sr sc).parent = (List.replicate n (-1 : Int)).set
      (iidx g.cols sr sc) (-2) := rfl
  have hpgetD : ∀ i, i < n → ((List.replicate n (-1 : Int)).set (iidx g.cols sr sc) (-2)).getD
      i (-1) = if i = iidx g.cols sr sc then -2 else -1 := by
    intro i hi
    by_cases hie : i = iidx g.cols sr sc
    · subst hie
      rw [if_pos rfl]
      exact getD_set_self _ _ _ _ (by simp [hsl])
    · rw [if_neg hie, getD_set_ne _ _ _ (fun he => hie he.symm), getD_replicate _ _ hi]
  refine
    { qinv := hqiv
      cap := rfl
      cpos := hcpos
      cells := rfl
      cols := rfl
      rows := rfl
      plen := by rw [hpar]; simp
      nodup := by simp
      mem_inside := ?_
      mem_disc := ?_
      disc_reach := ?_
      pushctr := ?_
      ovf := rfl
  }
  · intro p hp
    simp at hp
    subst hp
    exact hs
  · intro p hp
    simp at hp
    subst hp
    rw [hpar, hpgetD _ hsl, if_pos rfl]
    omega
  · intro p hpin hpd
    rw [hpar, hpgetD _ (iidx_lt hpin.1 hpin.2.1 hpin.2.2.1 hpin.2.2.2)] at hpd
    by_cases hie : iidx g.cols p.1 p.2 = iidx g.cols sr sc
    · have hpeq : p = (sr, sc) := by
        obtain ⟨h1, h2⟩ := iidx_inj hcpos hpin.1 hpin.2.1 hpin.2.2.1 hpin.2.2.2
          hs.1 hs.2.1 hs.2.2.1 hs.2.2.2 hie
        exact Prod.ext h1 h2
      subst hpeq
      apply reaches_self
      rw [is_inside_iff]
      exact hs
    · rw [if_neg hie] at hpd
      exact absurd rfl hpd
  · show (0 : Nat) + 1 = disc_count ((List.replicate n (-1 : Int)).set (iidx g.cols sr sc) (-2))
    unfold disc_count
    have hlen : ((List.replicate n (-1 : Int)).set (iidx g.cols sr sc) (-2)).length = n := by
      simp
    rw [hlen]
    have hz : (List.range n).countP
        (fun i => !((List.replicate n (-1 : Int)).getD i (-1) == -1)) = 0 := by
      rw [List.countP_eq_zero]
      intro a ha
      rw [List.mem_range] at ha
      rw [getD_replicate _ _ ha]
      decide
    have := @countP_range_update n (iidx g.cols sr sc)
      (fun i => !((List.replicate n (-1 : Int)).getD i (-1) == -1))
      (fun i => !(((List.replicate n (-1 : Int)).set (iidx g.cols sr sc) (-2)).getD i
        (-1) == -1))
      hsl ?_ ?_ ?_
    · rw [this, hz]
    · intro i hi
      simp only [getD_set_ne (List.replicate n ((-1 : Int))) ((-2 : Int)) ((-1 : Int))
        (fun he => hi he.symm)]
    · simp only [getD_replicate ((-1 : Int)) ((-1 : Int)) hsl]
      decide
    · simp only [getD_set_self (List.replicate n ((-1 : Int))) (iidx g.cols sr sc)
        ((-2 : Int)) ((-1 : Int)) (by simp [hsl])]
      decide

/- DFS loop invariant -/

theorem getD_mem_or_default {α : Type} (l : List α) (i : Nat) (d : α) :
    l.getD i d ∈ l ∨ l.getD i d = d := by
  rcases Nat.lt_or_ge i l.length with h | h
  · left
    rw [List.getD_eq_getElem?_getD, List.getElem?_eq_getElem h]
    exact List.getElem_mem h
  · right
    rw [List.getD_eq_getElem?_getD, List.getElem?_eq_none h]
    rfl

theorem shuffle_loop_mem (rnd : Nat → Nat) :
    ∀ (m : Nat) (arr : List Int) (k : Nat) (x : Int),
      x ∈ (shuffle_loop rnd m arr k).1 → x ∈ arr ∨ x = 0 := by
  intro m
  induction m with
  | zero => exact fun arr k x hx => Or.inl hx
  | succ m ih =>
    intro arr k x hx
    rw [shuffle_loop] at hx
    rcases ih _ _ _ hx with h1 | h1
    · rcases List.mem_or_eq_of_mem_set h1 with h2 | h2
      · rcases List.mem_or_eq_of_mem_set h2 with h3 | h3
        · exact Or.inl h3
        · rw [h3]
          rcases getD_mem_or_default arr (rnd k % (m + 1 + 1)) 0 with h4 | h4
          · exact Or.inl h4
          · exact Or.inr h4
      · rw [h2]
        rcases getD_mem_or_default arr (m + 1) 0 with h4 | h4
        · exact Or.inl h4
        · exact Or.inr h4
    · exact Or.inr h1

theorem shuffle_ints_mem_toNat_lt (rnd : Nat → Nat) (k : Nat) (x : Int)
    (hx : x ∈ (shuffle_ints rnd [0, 1, 2, 3] k).1) : x.toNat < 4 := by
  unfold shuffle_ints at hx
  rcases shuffle_loop_mem rnd _ _ _ _ hx with h | h
  · simp only [List.mem_cons, List.not_mem_nil, or_false] at h
    rcases h with h | h | h | h <;> (rw [h]; decide)
  · rw [h]
    decide

theorem DfsInvL.slen_le {g0 : Grid} {s : Int × Int} {st : DfsState} {l : List (Int × Int)}
    (inv : DfsInvL g0 s st l) : l.length ≤ mark_count st.g.marks := by
  have h := nodup_inside_length_le g0.rows g0.cols inv.cpos l
    (fun i => !(st.g.marks.getD i 0 == 0)) inv.nodup
    (fun x hx => inv.mem_inside x hx)
    (fun x hx => by
      have hne := inv.mem_marked x hx
      simp only [Bool.not_eq_true', beq_eq_false_iff_ne, ne_eq]
      exact hne)
  unfold mark_count
  rw [inv.mlen]
  exact h

theorem dfs_expand_inv {g0 : Grid} {s : Int × Int} {st : DfsState} {l : List (Int × Int)}
    (inv : DfsInvL g0 s st l) (r c : Int) (kd : Nat) (hkd : kd < 4)
    (hrc : insideP g0 (r, c)) (hreach : ReachesB g0 s (r, c)) :
    ∃ l', DfsInvL g0 s (dfs_expand r c st kd) l' ∧
      g0.rows * g0.cols - mark_count (dfs_expand r c st kd).g.marks + l'.length =
        g0.rows * g0.cols - mark_count st.g.marks + l.length := by
  set n := g0.rows * g0.cols with hn
  set d := nbrs4.getD kd (0, 0) with hd
  set nr := r + d.1 with hnr
  set nc := c + d.2 with hnc
  by_cases hg : (is_inside st.g nr nc && (grid_get st.g nr nc == 0) &&
      (mark_get st.g nr nc == M_NONE)) = true
  · simp only [Bool.and_eq_true, beq_iff_eq] at hg
    obtain ⟨⟨hin, hopen⟩, hm0⟩ := hg
    have hexp : dfs_expand r c st kd =
        { st with
          parent := if st.parent.getD (iidx st.g.cols nr nc) (-1) = -1
            then st.parent.set (iidx st.g.cols nr nc) (r * (st.g.cols : Int) + c)
            else st.parent
          st := stack_push st.st (nr, nc)
          g := mark_or st.g nr nc M_FRONT } := by
      simp only [dfs_expand]
      rw [← hd, ← hnr, ← hnc]
      rw [if_pos (by
        simp only [Bool.and_eq_true, beq_iff_eq]
        exact ⟨⟨hin, hopen⟩, hm0⟩)]
    have hnin : insideP g0 (nr, nc) := by
      rw [← is_inside_insideP, ← is_inside_eq inv.rows inv.cols]
      exact hin
    have hj : iidx st.g.cols nr nc = iidx g0.cols nr nc := by rw [inv.cols]
    have hjlt : iidx g0.cols nr nc < n := iidx_lt hnin.1 hnin.2.1 hnin.2.2.1 hnin.2.2.2
    have hjmlen : iidx g0.cols nr nc < st.g.marks.length := by rw [inv.mlen]; exact hjlt
    have hm0' : st.g.marks.getD (iidx g0.cols nr nc) 0 = 0 := by
      rw [← hj]
      unfold mark_get at hm0
      exact hm0
    have hnmem : (nr, nc) ∉ l := by
      intro hmem
      exact inv.mem_marked (nr, nc) hmem hm0'
    have hmcnt : mark_count st.g.marks < n := by
      unfold mark_count
      rw [inv.mlen]
      apply countP_range_lt_of_false hjlt
      rw [hm0']
      decide
    have hroom : l.length < st.st.cap := by
      have h1 := inv.slen_le
      rw [inv.cap]
      omega
    have hmarks' : (mark_or st.g nr nc M_FRONT).marks =
        st.g.marks.set (iidx g0.cols nr nc) 2 := by
      unfold mark_or mark_get
      rw [hj]
      simp only
      rw [hm0']
      rfl
    have hmget : ∀ i, i ≠ iidx g0.cols nr nc →
        (st.g.marks.set (iidx g0.cols nr nc) 2).getD i 0 = st.g.marks.getD i 0 :=
      fun i hi => getD_set_ne _ _ _ (fun he => hi he.symm)
    have hmgetj : (st.g.marks.set (iidx g0.cols nr nc) 2).getD (iidx g0.cols nr nc) 0 = 2 :=
      getD_set_self _ _ _ _ hjmlen
    have hmc' : mark_count (st.g.marks.set (iidx g0.cols nr nc) 2) =
        mark_count st.g.marks + 1 := by
      unfold mark_count
      rw [List.length_set, inv.mlen]
      apply countP_range_update hjlt
      · intro i hi
        simp only [hmget i hi]
      · rw [hm0']
        decide
      · rw [hmgetj]
        decide
    have hadj : adjB (r, c) (nr, nc) = true := adjB_of_dir (nbrs4_getD_mem hkd)
    have hio : inside_open g0 (nr, nc) = true := by
      unfold inside_open
      rw [← is_inside_eq inv.rows inv.cols, ← grid_get_eq inv.cells inv.cols]
      simp [hin, hopen]
    have hpar' : ∀ i, i < n →
        (if st.parent.getD (iidx st.g.cols nr nc) (-1) = -1
          then st.parent.set (iidx st.g.cols nr nc) (r * (st.g.cols : Int) + c)
          else st.parent).getD i (-1) =
        (if i = iidx g0.cols nr nc ∧ st.parent.getD (iidx g0.cols nr nc) (-1) = -1
          then r * (st.g.cols : Int) + c
          else st.parent.getD i (-1)) := by
      intro i hi
      rw [hj]
      by_cases hu : st.parent.getD (iidx g0.cols nr nc) (-1) = -1
      · rw [if_pos hu]
        by_cases hie : i = iidx g0.cols nr nc
        · subst hie
          rw [if_pos ⟨rfl, hu⟩]
          exact getD_set_self _ _ _ _ (by rw [inv.plen]; exact hjlt)
        · rw [if_neg (by tauto)]
          exact getD_set_ne _ _ _ (fun he => hie he.symm)
      · rw [if_neg hu, if_neg (by tauto)]
    have hvnn : (0 : Int) ≤ r * (st.g.cols : Int) + c := by
      rw [inv.cols]
      have h1 : 0 ≤ r := hrc.1
      have h2 : 0 ≤ c := hrc.2.2.1
      positivity
    refine ⟨(nr, nc) :: l, ?_, ?_⟩
    · rw [hexp]
      refine
        { sinv := stack_push_inv inv.sinv hroom _
          cap := by
            show (stack_push st.st (nr, nc)).cap = _
            unfold stack_push
            split <;> exact inv.cap
          cpos := inv.cpos
          cells := inv.cells
          cols := inv.cols
          rows := inv.rows
          plen := by
            show (if _ then _ else _ : List Int).length = _
            split
            · simp [inv.plen]
            · exact inv.plen
          mlen := by
            show (mark_or st.g nr nc M_FRONT).marks.length = _
            rw [hmarks']
            simp [inv.mlen]
          nodup := by simp [inv.nodup, hnmem]
          mem_inside := ?_
          mem_marked := ?_
          mem_disc := ?_
          disc_reach := ?_
          pushctr := ?_
          ndrop := by
            show (stack_push st.st (nr, nc)).dropped = _
            unfold stack_push
            rw [if_pos (by obtain ⟨_, h2, _, _⟩ := inv.sinv; omega)]
            exact inv.ndrop }
      · intro p hp
        rcases List.mem_cons.mp hp with hp | hp
        · subst hp
          exact hnin
        · exact inv.mem_inside p hp
      · intro p hp
        show (mark_or st.g nr nc M_FRONT).marks.getD _ 0 ≠ 0
        rw [hmarks']
        rcases List.mem_cons.mp hp with hp | hp
        · subst hp
          rw [hmgetj]
          omega
        · by_cases hie : iidx g0.cols p.1 p.2 = iidx g0.cols nr nc
          · rw [hie, hmgetj]
            omega
          · rw [hmget _ hie]
            exact inv.mem_marked p hp
      · intro p hp
        rcases List.mem_cons.mp hp with hp | hp
        · subst hp
          rw [hpar' _ hjlt]
          split
          · omega
          · rename_i hsplit
            rw [Classical.not_and_iff_or_not_not] at hsplit
            rcases hsplit with hsplit | hsplit
            · exact absurd rfl hsplit
            · exact hsplit
        · have hplt : iidx g0.cols p.1 p.2 < n :=
            iidx_lt (inv.mem_inside p hp).1 (inv.mem_inside p hp).2.1
              (inv.mem_inside p hp).2.2.1 (inv.mem_inside p hp).2.2.2
          rw [hpar' _ hplt]
          split
          · omega
          · exact inv.mem_disc p hp
      · intro p hpin hpd
        have hplt : iidx g0.cols p.1 p.2 < n :=
          iidx_lt hpin.1 hpin.2.1 hpin.2.2.1 hpin.2.2.2
        rw [hpar' _ hplt] at hpd
        by_cases hie : p = (nr, nc)
        · subst hie
          exact reaches_snoc hreach hadj hio
        · have : st.parent.getD (iidx g0.cols p.1 p.2) (-1) ≠ -1 := by
            rcases Classical.em (iidx g0.cols p.1 p.2 = iidx g0.cols nr nc ∧
                st.parent.getD (iidx g0.cols nr nc) (-1) = -1) with hc2 | hc2
            · exfalso
              apply hie
              obtain ⟨h1, h2⟩ := iidx_inj inv.cpos hpin.1 hpin.2.1 hpin.2.2.1 hpin.2.2.2
                hnin.1 hnin.2.1 hnin.2.2.1 hnin.2.2.2 hc2.1
              exact Prod.ext h1 h2
            · rw [if_neg hc2] at hpd
              exact hpd
          exact inv.disc_reach p hpin this
      · show (stack_push st.st (nr, nc)).pushes = mark_count (mark_or st.g nr nc M_FRONT).marks
        rw [hmarks', hmc']
        unfold stack_push
        rw [if_pos (by obtain ⟨_, h2, _, _⟩ := inv.sinv; omega)]
        show st.st.pushes + 1 = _
        rw [inv.pushctr]
    · rw [hexp]
      show n - mark_count (mark_or st.g nr nc M_FRONT).marks + ((nr, nc) :: l).length = _
      rw [hmarks', hmc']
      simp only [List.length_cons]
      omega
  · have hexp : dfs_expand r c st kd = st := by
      simp only [dfs_expand]
      rw [← hd, ← hnr, ← hnc]
      rw [if_neg hg]
    rw [hexp]
    exact ⟨l, inv, rfl⟩

theorem dfs_expand_fold_inv {g0 : Grid} {s : Int × Int} (r c : Int)
    (hrc : insideP g0 (r, c)) (hreach : ReachesB g0 s (r, c)) :
    ∀ (ords : List Int), (∀ x ∈ ords, x.toNat < 4) →
    ∀ (st : DfsState) (l : List (Int × Int)), DfsInvL g0 s st l →
    ∃ l', DfsInvL g0 s (ords.foldl (fun acc oi => dfs_expand r c acc oi.toNat) st) l' ∧
      g0.rows * g0.cols -
          mark_count ((ords.foldl (fun acc oi => dfs_expand r c acc oi.toNat) st)).g.marks +
          l'.length =
        g0.rows * g0.cols - mark_count st.g.marks + l.length := by
  intro ords
  induction ords with
  | nil => exact fun _ st l inv => ⟨l, inv, rfl⟩
  | cons k ks ih =>
    intro hks st l inv
    obtain ⟨l1, inv1, hm1⟩ := dfs_expand_inv inv r c k.toNat (hks k (by simp)) hrc hreach
    obtain ⟨l2, inv2, hm2⟩ := ih (fun x hx => hks x (by simp [hx])) _ l1 inv1
    refine ⟨l2, inv2, ?_⟩
    simp only [List.foldl_cons] at *
    omega

theorem dfs_step_inv {g0 : Grid} {s : Int × Int} {rnd : Nat → Nat} {er ec : Int}
    {st : DfsState} {l : List (Int × Int)} (inv : DfsInvL g0 s st l)
    (hne : stack_empty st.st = false) :
    ∃ l', DfsInvL g0 s (dfs_step rnd er ec st).1 l' ∧
      g0.rows * g0.cols - mark_count (dfs_step rnd er ec st).1.g.marks + l'.length + 1 =
        g0.rows * g0.cols - mark_count st.g.marks + l.length := by
  set n := g0.rows * g0.cols with hn
  have hlne : l ≠ [] := by
    intro h
    rw [(stack_empty_inv inv.sinv).mpr h] at hne
    exact Bool.noConfusion hne
  obtain ⟨p, l2, rfl⟩ : ∃ p l2, l = p :: l2 := by
    cases l with
    | nil => exact absurd rfl hlne
    | cons a t => exact ⟨a, t, rfl⟩
  obtain ⟨hpopv, hpops⟩ := stack_pop_inv inv.sinv
  have hpin : insideP g0 p := inv.mem_inside p (by simp)
  have hpdisc := inv.mem_disc p (by simp)
  have hpmark := inv.mem_marked p (by simp)
  have hpreach : ReachesB g0 s p := inv.disc_reach p hpin hpdisc
  have hjp : iidx st.g.cols p.1 p.2 = iidx g0.cols p.1 p.2 := by rw [inv.cols]
  have hjplt : iidx g0.cols p.1 p.2 < n := iidx_lt hpin.1 hpin.2.1 hpin.2.2.1 hpin.2.2.2
  have hjpm : iidx g0.cols p.1 p.2 < st.g.marks.length := by rw [inv.mlen]; exact hjplt
  set v := st.g.marks.getD (iidx g0.cols p.1 p.2) 0 with hv
  set g1 := mark_andnot st.g p.1 p.2 M_FRONT with hg1
  set g2 := (if mark_get g1 p.1 p.2 &&& M_VISIT == 0 then mark_or g1 p.1 p.2 M_VISIT else g1)
    with hg2
  have hg1marks : g1.marks = st.g.marks.set (iidx g0.cols p.1 p.2) (v &&& (255 - M_FRONT)) := by
    rw [hg1]
    unfold mark_andnot mark_get
    rw [hjp, ← hv]
  have hg1get : mark_get g1 p.1 p.2 = v &&& (255 - M_FRONT) := by
    unfold mark_get
    rw [hg1marks]
    have : iidx g1.cols p.1 p.2 = iidx g0.cols p.1 p.2 := by
      rw [hg1]
      unfold mark_andnot
      exact hjp
    rw [this]
    exact getD_set_self _ _ _ _ (by simp [hjpm])
  have hg2marks : g2.marks = st.g.marks.set (iidx g0.cols p.1 p.2)
      (if (v &&& (255 - M_FRONT)) &&& M_VISIT == 0
        then (v &&& (255 - M_FRONT)) ||| M_VISIT
        else v &&& (255 - M_FRONT)) := by
    rw [hg2, hg1get]
    split
    · unfold mark_or mark_get
      rw [hg1marks]
      have hc1 : iidx g1.cols p.1 p.2 = iidx g0.cols p.1 p.2 := by
        rw [hg1]
        unfold mark_andnot
        exact hjp
      rw [hc1, getD_set_self _ _ _ _ (by simp [hjpm]), List.set_set]
    · exact hg1marks
  have hwne : (if (v &&& (255 - M_FRONT)) &&& M_VISIT == 0
      then (v &&& (255 - M_FRONT)) ||| M_VISIT
      else v &&& (255 - M_FRONT)) ≠ 0 := popped_mark_ne_zero v
  have hg2cells : g2.cells = g0.cells := by
    rw [hg2, hg1]
    split
    · exact inv.cells
    · exact inv.cells
  have hg2cols : g2.cols = g0.cols := by
    rw [hg2, hg1]
    split
    · exact inv.cols
    · exact inv.cols
  have hg2rows : g2.rows = g0.rows := by
    rw [hg2, hg1]
    split
    · exact inv.rows
    · exact inv.rows
  have hg2mlen : g2.marks.length = n := by
    rw [hg2marks]
    simp [inv.mlen]
  have hg2get : ∀ i, i ≠ iidx g0.cols p.1 p.2 →
      g2.marks.getD i 0 = st.g.marks.getD i 0 := by
    intro i hi
    rw [hg2marks]
    exact getD_set_ne _ _ _ (fun he => hi he.symm)
  have hg2getp : g2.marks.getD (iidx g0.cols p.1 p.2) 0 ≠ 0 := by
    rw [hg2marks, getD_set_self _ _ _ _ hjpm]
    exact hwne
  have hmc : mark_count g2.marks = mark_count st.g.marks := by
    unfold mark_count
    rw [hg2mlen, inv.mlen]
    apply countP_range_congr
    intro i hi
    show (!(g2.marks.getD i 0 == 0)) = (!(st.g.marks.getD i 0 == 0))
    by_cases hie : i = iidx g0.cols p.1 p.2
    · rw [hie]
      have h1 : (st.g.marks.getD (iidx g0.cols p.1 p.2) 0 == 0) = false := by
        rw [beq_eq_false_iff_ne]
        exact hpmark
      have h2 : (g2.marks.getD (iidx g0.cols p.1 p.2) 0 == 0) = false := by
        rw [beq_eq_false_iff_ne]
        exact hg2getp
      rw [h1, h2]
    · rw [hg2get i hie]
  set st1 : DfsState :=
    { g := g2, parent := st.parent, st := (stack_pop st.st).2, k := st.k } with hst1
  have inv1 : DfsInvL g0 s st1 l2 :=
    { sinv := hpops
      cap := inv.cap
      cpos := inv.cpos
      cells := hg2cells
      cols := hg2cols
      rows := hg2rows
      plen := inv.plen
      mlen := hg2mlen
      nodup := inv.nodup.of_cons
      mem_inside := fun x hx => inv.mem_inside x (by simp [hx])
      mem_marked := fun x hx => by
        have hxin := inv.mem_inside x (by simp [hx])
        by_cases hie : iidx g0.cols x.1 x.2 = iidx g0.cols p.1 p.2
        · show g2.marks.getD _ 0 ≠ 0
          rw [hie]
          exact hg2getp
        · show g2.marks.getD _ 0 ≠ 0
          rw [hg2get _ hie]
          exact inv.mem_marked x (by simp [hx])
      mem_disc := fun x hx => inv.mem_disc x (by simp [hx])
      disc_reach := inv.disc_reach
      pushctr := by
        show (stack_pop st.st).2.pushes = _
        rw [hmc]
        exact inv.pushctr
      ndrop := inv.ndrop }
  have hstep : dfs_step rnd er ec st =
      (if p.1 == er && p.2 == ec then (st1, true)
       else
        (((shuffle_ints rnd [0, 1, 2, 3] st1.k).1).foldl
          (fun acc oi => dfs_expand p.1 p.2 acc oi.toNat)
          { st1 with k := (shuffle_ints rnd [0, 1, 2, 3] st1.k).2 },
          false)) := by
    simp only [dfs_step, hpopv, ← hg1, ← hg2, hst1]
  rw [hstep]
  simp only
  by_cases hbrk : (p.1 == er && p.2 == ec) = true
  · rw [if_pos hbrk]
    refine ⟨l2, inv1, ?_⟩
    simp only [List.length_cons]
    rw [hmc]
    omega
  · rw [if_neg hbrk]
    have invk : DfsInvL g0 s { st1 with k := (shuffle_ints rnd [0, 1, 2, 3] st1.k).2 } l2 :=
      { inv1 with }
    obtain ⟨l', inv', hm⟩ := dfs_expand_fold_inv p.1 p.2 hpin hpreach
      (shuffle_ints rnd [0, 1, 2, 3] st.k).1
      (fun x hx => shuffle_ints_mem_toNat_lt rnd st.k x hx)
      _ l2 invk
    refine ⟨l', inv', ?_⟩
    simp only [List.length_cons] at *
    have hnn : n = g0.rows * g0.cols := rfl
    omega

theorem dfs_run_inv {g0 : Grid} {s : Int × Int} {rnd : Nat → Nat} {er ec : Int} :
    ∀ (f : Nat) (st : DfsState) (l : List (Int × Int)), DfsInvL g0 s st l →
    g0.rows * g0.cols - mark_count st.g.marks + l.length < f →
    (dfs_run rnd er ec f st).2 = true ∧ ∃ l', DfsInvL g0 s (dfs_run rnd er ec f st).1 l' := by
  intro f
  induction f with
  | zero => intro st l _ h; omega
  | succ f ih =>
    intro st l inv hm
    have hrs : dfs_run rnd er ec (f + 1) st =
        if stack_empty st.st then (st, true)
        else if (dfs_step rnd er ec st).2 then ((dfs_step rnd er ec st).1, true)
        else dfs_run rnd er ec f (dfs_step rnd er ec st).1 := rfl
    rw [hrs]
    by_cases hqe : stack_empty st.st = true
    · rw [if_pos hqe]
      exact ⟨rfl, l, inv⟩
    · rw [if_neg hqe]
      have hne : stack_empty st.st = false := by
        cases h : stack_empty st.st
        · rfl
        · exact absurd h hqe
      obtain ⟨l2, inv2, hm2⟩ := dfs_step_inv inv hne
      by_cases hbrk : (dfs_step rnd er ec st).2 = true
      · rw [if_pos hbrk]
        exact ⟨rfl, l2, inv2⟩
      · rw [if_neg hbrk]
        exact ih (dfs_step rnd er ec st).1 l2 inv2 (by omega)

theorem dfs_start_inv {g : Grid} {sr sc : Int} (hs : insideP g (sr, sc)) :
    DfsInvL g (sr, sc) (dfs_start g sr sc) [(sr, sc)] := by
  have hcpos : 0 < g.cols := by
    have := hs.2.2.2
    have := hs.2.2.1
    omega
  set n := g.rows * g.cols with hn
  have hsl : iidx g.cols sr sc < n := iidx_lt hs.1 hs.2.1 hs.2.2.1 hs.2.2.2
  have hsiv : StackInv (stack_push (stack_create (n + 5)) (sr, sc)) ((sr, sc) :: []) :=
    stack_push_inv (stack_create_inv (n + 5)) (by simp [stack_create]) (sr, sc)
  have hpar : (dfs_start g sr sc).parent = (List.replicate n (-1 : Int)).set
      (iidx g.cols sr sc) (-2) := rfl
  have hmarks : (dfs_start g sr sc).g.marks = (List.replicate n 0).set
      (iidx g.cols sr sc) 2 := by
    show (mark_or { g with marks := List.replicate n M_NONE } sr sc M_FRONT).marks = _
    unfold mark_or mark_get
    simp only
    rw [getD_replicate _ _ hsl]
    rfl
  have hpgetD : ∀ i, i < n → ((List.replicate n (-1 : Int)).set (iidx g.cols sr sc) (-2)).getD
      i (-1) = if i = iidx g.cols sr sc then -2 else -1 := by
    intro i hi
    by_cases hie : i = iidx g.cols sr sc
    · subst hie
      rw [if_pos rfl]
      exact getD_set_self _ _ _ _ (by simp [hsl])
    · rw [if_neg hie, getD_set_ne _ _ _ (fun he => hie he.symm), getD_replicate _ _ hi]
  refine
    { sinv := hsiv
      cap := by
        show (stack_push (stack_create (n + 5)) (sr, sc)).cap = _
        unfold stack_push stack_create
        rw [if_pos (by simp)]
      cpos := hcpos
      cells := rfl
      cols := rfl
      rows := rfl
      plen := by rw [hpar]; simp
      mlen := by rw [hmarks]; simp
      nodup := by simp
      mem_inside := ?_
      mem_marked := ?_
      mem_disc := ?_
      disc_reach := ?_
      pushctr := ?_
      ndrop := by
        show (stack_push (stack_create (n + 5)) (sr, sc)).dropped = _
        unfold stack_push stack_create
        rw [if_pos (by simp)] }
  · intro p hp
    simp at hp
    subst hp
    exact hs
  · intro p hp
    simp at hp
    subst hp
    rw [hmarks, getD_set_self _ _ _ _ (by simp [hsl])]
    omega
  · intro p hp
    simp at hp
    subst hp
    rw [hpar, hpgetD _ hsl, if_pos rfl]
    omega
  · intro p hpin hpd
    rw [hpar, hpgetD _ (iidx_lt hpin.1 hpin.2.1 hpin.2.2.1 hpin.2.2.2)] at hpd
    by_cases hie : iidx g.cols p.1 p.2 = iidx g.cols sr sc
    · have hpeq : p = (sr, sc) := by
        obtain ⟨h1, h2⟩ := iidx_inj hcpos hpin.1 hpin.2.1 hpin.2.2.1 hpin.2.2.2
          hs.1 hs.2.1 hs.2.2.1 hs.2.2.2 hie
        exact Prod.ext h1 h2
      subst hpeq
      apply reaches_self
      rw [is_inside_iff]
      exact hs
    · rw [if_neg hie] at hpd
      exact absurd rfl hpd
  · show (stack_push (stack_create (n + 5)) (sr, sc)).pushes =
      mark_count (dfs_start g sr sc).g.marks
    rw [hmarks]
    unfold stack_push stack_create
    rw [if_pos (by simp)]
    show 0 + 1 = _
    unfold mark_count
    have hlen : ((List.replicate n (0 : Nat)).set (iidx g.cols sr sc) 2).length = n := by
      simp
    rw [hlen]
    have hz : (List.range n).countP (fun i => !((List.replicate n (0 : Nat)).getD i 0 == 0)) =
        0 := by
      rw [List.countP_eq_zero]
      intro a ha
      rw [List.mem_range] at ha
      rw [getD_replicate _ _ ha]
      decide
    have hupd := @countP_range_update n (iidx g.cols sr sc)
      (fun i => !((List.replicate n (0 : Nat)).getD i 0 == 0))
      (fun i => !(((List.replicate n (0 : Nat)).set (iidx g.cols sr sc) 2).getD i 0 == 0))
      hsl ?_ ?_ ?_
    · rw [hupd, hz]
    · intro i hi
      simp only [getD_set_ne (List.replicate n (0 : Nat)) (2 : Nat) (0 : Nat)
        (fun he => hi he.symm)]
    · simp only [getD_replicate (0 : Nat) (0 : Nat) hsl]
      decide
    · simp only [getD_set_self (List.replicate n (0 : Nat)) (iidx g.cols sr sc)
        (2 : Nat) (0 : Nat) (by simp [hsl])]
      decide

/- parent monotonicity (claim C2) -/

theorem bfs_expand_parent_mono (r c : Int) (st : BfsState) (kd : Nat) (i : Nat)
    (h : st.parent.getD i (-1) ≠ -1) :
    (bfs_expand r c st kd).parent.getD i (-1) = st.parent.getD i (-1) := by
  simp only [bfs_expand]
  split
  · rename_i hg
    simp only [Bool.and_eq_true, beq_iff_eq] at hg
    show (st.parent.set (iidx st.g.cols (r + (nbrs4.getD kd (0, 0)).1)
      (c + (nbrs4.getD kd (0, 0)).2)) (r * (st.g.cols : Int) + c)).getD i (-1) =
      st.parent.getD i (-1)
    apply getD_set_ne
    intro he
    rw [he] at hg
    exact h hg.2
  · rfl

theorem bfs_fold_parent_mono (r c : Int) (dirs : List Nat) :
    ∀ (st : BfsState) (i : Nat), st.parent.getD i (-1) ≠ -1 →
    (dirs.foldl (bfs_expand r c) st).parent.getD i (-1) = st.parent.getD i (-1) := by
  induction dirs with
  | nil => exact fun st i _ => rfl
  | cons k ks ih =>
    intro st i h
    simp only [List.foldl_cons]
    rw [ih (bfs_expand r c st k) i (by rw [bfs_expand_parent_mono r c st k i h]; exact h)]
    exact bfs_expand_parent_mono r c st k i h

theorem bfs_step_parent_mono (er ec : Int) (st : BfsState) (i : Nat)
    (h : st.parent.getD i (-1) ≠ -1) :
    (bfs_step er ec st).1.parent.getD i (-1) = st.parent.getD i (-1) := by
  simp only [bfs_step]
  split
  · rfl
  · exact bfs_fold_parent_mono _ _ _ _ i h

theorem bfs_run_parent_mono (er ec : Int) :
    ∀ (f : Nat) (st : BfsState) (i : Nat), st.parent.getD i (-1) ≠ -1 →
    (bfs_run er ec f st).1.parent.getD i (-1) = st.parent.getD i (-1) := by
  intro f
  induction f with
  | zero => exact fun st i _ => rfl
  | succ f ih =>
    intro st i h
    rw [bfs_run_succ]
    by_cases hqe : queue_empty st.q = true
    · rw [if_pos hqe]
    · rw [if_neg hqe]
      by_cases hbrk : (bfs_step er ec st).2 = true
      · rw [if_pos hbrk]
        exact bfs_step_parent_mono er ec st i h
      · rw [if_neg hbrk]
        rw [ih (bfs_step er ec st).1 i
          (by rw [bfs_step_parent_mono er ec st i h]; exact h)]
        exact bfs_step_parent_mono er ec st i h

theorem dfs_expand_parent_mono (r c : Int) (st : DfsState) (kd : Nat) (i : Nat)
    (h : st.parent.getD i (-1) ≠ -1) :
    (dfs_expand r c st kd).parent.getD i (-1) = st.parent.getD i (-1) := by
  simp only [dfs_expand]
  split
  · show (if st.parent.getD (iidx st.g.cols (r + (nbrs4.getD kd (0, 0)).1)
        (c + (nbrs4.getD kd (0, 0)).2)) (-1) = -1
      then st.parent.set (iidx st.g.cols (r + (nbrs4.getD kd (0, 0)).1)
        (c + (nbrs4.getD kd (0, 0)).2)) (r * (st.g.cols : Int) + c)
      else st.parent).getD i (-1) = st.parent.getD i (-1)
    split
    · rename_i hu
      apply getD_set_ne
      intro he
      rw [he] at hu
      exact h hu
    · rfl
  · rfl

theorem dfs_fold_parent_mono (r c : Int) (ords : List Int) :
    ∀ (st : DfsState) (i : Nat), st.parent.getD i (-1) ≠ -1 →
    (ords.foldl (fun acc oi => dfs_expand r c acc oi.toNat) st).parent.getD i (-1) =
      st.parent.getD i (-1) := by
  induction ords with
  | nil => exact fun st i _ => rfl
  | cons k ks ih =>
    intro st i h
    simp only [List.foldl_cons]
    rw [ih (dfs_expand r c st k.toNat) i
      (by rw [dfs_expand_parent_mono r c st k.toNat i h]; exact h)]
    exact dfs_expand_parent_mono r c st k.toNat i h

theorem dfs_step_parent_mono (rnd : Nat → Nat) (er ec : Int) (st : DfsState) (i : Nat)
    (h : st.parent.getD i (-1) ≠ -1) :
    (dfs_step rnd er ec st).1.parent.getD i (-1) = st.parent.getD i (-1) := by
  simp only [dfs_step]
  split
  · rfl
  · exact dfs_fold_parent_mono _ _ _ _ i h

theorem dfs_run_parent_mono (rnd : Nat → Nat) (er ec : Int) :
    ∀ (f : Nat) (st : DfsState) (i : Nat), st.parent.getD i (-1) ≠ -1 →
    (dfs_run rnd er ec f st).1.parent.getD i (-1) = st.parent.getD i (-1) := by
  intro f
  induction f with
  | zero => exact fun st i _ => rfl
  | succ f ih =>
    intro st i h
    have hrs : dfs_run rnd er ec (f + 1) st =
        if stack_empty st.st then (st, true)
        else if (dfs_step rnd er ec st).2 then ((dfs_step rnd er ec st).1, true)
        else dfs_run rnd er ec f (dfs_step rnd er ec st).1 := rfl
    rw [hrs]
    by_cases hqe : stack_empty st.st = true
    · rw [if_pos hqe]
    · rw [if_neg hqe]
      by_cases hbrk : (dfs_step rnd er ec st).2 = true
      · rw [if_pos hbrk]
        exact dfs_step_parent_mono rnd er ec st i h
      · rw [if_neg hbrk]
        rw [ih (dfs_step rnd er ec st).1 i
          (by rw [dfs_step_parent_mono rnd er ec st i h]; exact h)]
        exact dfs_step_parent_mono rnd er ec st i h

/-- C2: during any solve, once a cell's parent entry holds a value other
than the unset sentinel -1, the remainder of the BFS or DFS loop leaves it
exactly as it is: any later discovery of the same cell is a no-op on the
parent array. -/
theorem parent_assigned_once (er ec : Int) (rnd : Nat → Nat) (f : Nat) (i : Nat)
    (stb : BfsState) (std : DfsState)
    (hb : stb.parent.getD i (-1) ≠ -1) (hd : std.parent.getD i (-1) ≠ -1) :
    (bfs_run er ec f stb).1.parent.getD i (-1) = stb.parent.getD i (-1) ∧
    (dfs_run rnd er ec f std).1.parent.getD i (-1) = std.parent.getD i (-1) :=
  ⟨bfs_run_parent_mono er ec f stb i hb, dfs_run_parent_mono rnd er ec f std i hd⟩

/-- Witness for C2: the start states of both solvers on a 3-by-3 grid with
the start cell's parent already set to the root sentinel. -/
theorem parent_assigned_once_witness :
    ((bfs_start ⟨3, 3, List.replicate 9 0, List.replicate 9 0⟩ 1 1).parent.getD 4 (-1) ≠ -1 ∧
     (dfs_start ⟨3, 3, List.replicate 9 0, List.replicate 9 0⟩ 1 1).parent.getD 4 (-1) ≠ -1) ∧
    ((bfs_run 2 2 20 (bfs_start ⟨3, 3, List.replicate 9 0, List.replicate 9 0⟩ 1 1)).1.parent.getD
        4 (-1) =
      (bfs_start ⟨3, 3, List.replicate 9 0, List.replicate 9 0⟩ 1 1).parent.getD 4 (-1) ∧
     (dfs_run (fun _ => 0) 2 2 20
        (dfs_start ⟨3, 3, List.replicate 9 0, List.replicate 9 0⟩ 1 1)).1.parent.getD 4 (-1) =
      (dfs_start ⟨3, 3, List.replicate 9 0, List.replicate 9 0⟩ 1 1).parent.getD 4 (-1)) :=
  ⟨⟨by decide, by decide⟩,
   parent_assigned_once 2 2 (fun _ => 0) 20 4
     (bfs_start ⟨3, 3, List.replicate 9 0, List.replicate 9 0⟩ 1 1)
     (dfs_start ⟨3, 3, List.replicate 9 0, List.replicate 9 0⟩ 1 1)
     (by decide) (by decide)⟩

theorem bfs_start_disc_one {g : Grid} {sr sc : Int} (hs : insideP g (sr, sc)) :
    disc_count (bfs_start g sr sc).parent = 1 := by
  have h1 := (bfs_start_inv hs).pushctr
  have h2 : (bfs_start g sr sc).q.pushes = 1 := rfl
  rw [h2] at h1
  exact h1.symm

theorem dfs_start_mark_one {g : Grid} {sr sc : Int} (hs : insideP g (sr, sc)) :
    mark_count (dfs_start g sr sc).g.marks = 1 := by
  have h1 := (dfs_start_inv hs).pushctr
  have h2 : (dfs_start g sr sc).st.pushes = 1 := by
    show (stack_push (stack_create (g.rows * g.cols + 5)) (sr, sc)).pushes = 1
    unfold stack_push stack_create
    rw [if_pos (by simp)]
  rw [h2] at h1
  exact h1.symm

/-- C7: for every grid — in particular one where the end cell is not
reachable from the start over open cells — the main loops of solve_bfs and
solve_dfs terminate (the loop exits genuinely within the model's fuel, as
the returned indicator shows), and when no open-cell walk from start to
end exists, `parent[end]` is still the unset sentinel -1 when the loop
exits. -/
theorem solve_loops_terminate_unreachable (g : Grid) (rnd : Nat → Nat)
    (sr sc er ec delay_ms : Int) (hs : insideP g (sr, sc)) (he : insideP g (er, ec)) :
    (solve_bfs g sr sc er ec delay_ms).2.2 = true ∧
    (solve_dfs g rnd sr sc er ec delay_ms).2.2 = true ∧
    (¬ ReachesB g (sr, sc) (er, ec) →
      (solve_bfs g sr sc er ec delay_ms).2.1.getD (iidx g.cols er ec) (-1) = -1 ∧
      (solve_dfs g rnd sr sc er ec delay_ms).2.1.getD (iidx g.cols er ec) (-1) = -1) := by
  set n := g.rows * g.cols with hn
  have hmb : n - disc_count (bfs_start g sr sc).parent + ([(sr, sc)] : List (Int × Int)).length
      < n + 2 := by
    rw [bfs_start_disc_one hs]
    simp
    omega
  have hmd : n - mark_count (dfs_start g sr sc).g.marks +
      ([(sr, sc)] : List (Int × Int)).length < n + 2 := by
    rw [dfs_start_mark_one hs]
    simp
    omega
  obtain ⟨hbh, lb, hbinv⟩ := @bfs_run_inv g (sr, sc) er ec (n + 2) (bfs_start g sr sc)
    [(sr, sc)] (bfs_start_inv hs) hmb
  obtain ⟨hdh, ld, hdinv⟩ := @dfs_run_inv g (sr, sc) rnd er ec (n + 2)
    (dfs_start g sr sc) [(sr, sc)] (dfs_start_inv hs) hmd
  refine ⟨hbh, hdh, ?_⟩
  intro hnr
  constructor
  · show (bfs_run er ec (n + 2) (bfs_start g sr sc)).1.parent.getD (iidx g.cols er ec)
      (-1) = -1
    by_contra hne
    exact hnr (hbinv.disc_reach (er, ec) he hne)
  · show (dfs_run rnd er ec (n + 2) (dfs_start g sr sc)).1.parent.getD (iidx g.cols er ec)
      (-1) = -1
    by_contra hne
    exact hnr (hdinv.disc_reach (er, ec) he hne)

/-- All cells of the three-by-three all-wall grid are walls, so nothing is
reachable from (1,1) over open cells except (1,1) itself. -/
theorem no_reach_all_wall :
    ¬ ReachesB ⟨3, 3, List.replicate 9 1, List.replicate 9 0⟩ (1, 1) (1, 2) := by
  rintro ⟨l, hl⟩
  cases l with
  | nil => simp [is_path] at hl
  | cons x t =>
    simp only [is_path, Bool.and_eq_true, beq_iff_eq] at hl
    obtain ⟨⟨hx, hin⟩, hsteps⟩ := hl
    subst hx
    cases t with
    | nil =>
      simp only [steps_ok, beq_iff_eq] at hsteps
      exact absurd hsteps (by decide)
    | cons y t2 =>
      simp only [steps_ok, Bool.and_eq_true] at hsteps
      have hio := hsteps.1.2
      unfold inside_open grid_get at hio
      rw [Bool.and_eq_true, beq_iff_eq] at hio
      have hwall : (List.replicate 9 1).getD
          (iidx (Grid.mk 3 3 (List.replicate 9 1) (List.replicate 9 0)).cols y.1 y.2) 1 = 1 :=
        getD_replicate_self 9 _ 1
      rw [hwall] at hio
      exact absurd hio.2 (by decide)

/-- Witness for C7 on the all-wall 3-by-3 grid where the end (1,2) is not
reachable from the start (1,1). -/
theorem solve_loops_terminate_unreachable_witness :
    (insideP ⟨3, 3, List.replicate 9 1, List.replicate 9 0⟩ (1, 1) ∧
     insideP ⟨3, 3, List.replicate 9 1, List.replicate 9 0⟩ (1, 2)) ∧
    ((solve_bfs ⟨3, 3, List.replicate 9 1, List.replicate 9 0⟩ 1 1 1 2 0).2.2 = true ∧
     (solve_dfs ⟨3, 3, List.replicate 9 1, List.replicate 9 0⟩ (fun _ => 0) 1 1 1 2 0).2.2 =
       true ∧
     (¬ ReachesB ⟨3, 3, List.replicate 9 1, List.replicate 9 0⟩ (1, 1) (1, 2) →
       (solve_bfs ⟨3, 3, List.replicate 9 1, List.replicate 9 0⟩ 1 1 1 2 0).2.1.getD
         (iidx 3 1 2) (-1) = -1 ∧
       (solve_dfs ⟨3, 3, List.replicate 9 1, List.replicate 9 0⟩ (fun _ => 0) 1 1 1
         2 0).2.1.getD (iidx 3 1 2) (-1) = -1)) :=
  ⟨⟨⟨by decide, by decide, by decide, by decide⟩, ⟨by decide, by decide, by decide, by decide⟩⟩,
   solve_loops_terminate_unreachable ⟨3, 3, List.replicate 9 1, List.replicate 9 0⟩
     (fun _ => 0) 1 1 1 2 0
     ⟨by decide, by decide, by decide, by decide⟩ ⟨by decide, by decide, by decide, by decide⟩⟩

/-- C10: during a single solve every cell is pushed onto the frontier
container at most once, so the total number of pushes (ghost counter)
stays within the capacity rows*cols+5; in consequence the circular queue
never overwrites an unread entry (the ghost overflow flag stays false) and
the capacity-drop branch of stack_push never fires (the ghost drop flag
stays false). -/
theorem frontier_capacity_safe (g : Grid) (rnd : Nat → Nat) (sr sc er ec : Int)
    (hs : insideP g (sr, sc)) :
    ((bfs_run er ec (g.rows * g.cols + 2) (bfs_start g sr sc)).1.q.pushes ≤
        g.rows * g.cols + 5 ∧
     (bfs_run er ec (g.rows * g.cols + 2) (bfs_start g sr sc)).1.q.overflowed = false) ∧
    ((dfs_run rnd er ec (g.rows * g.cols + 2) (dfs_start g sr sc)).1.st.pushes ≤
        g.rows * g.cols + 5 ∧
     (dfs_run rnd er ec (g.rows * g.cols + 2) (dfs_start g sr sc)).1.st.dropped = false) := by
  set n := g.rows * g.cols with hn
  have hmb : n - disc_count (bfs_start g sr sc).parent + ([(sr, sc)] : List (Int × Int)).length
      < n + 2 := by
    rw [bfs_start_disc_one hs]
    simp
    omega
  have hmd : n - mark_count (dfs_start g sr sc).g.marks +
      ([(sr, sc)] : List (Int × Int)).length < n + 2 := by
    rw [dfs_start_mark_one hs]
    simp
    omega
  obtain ⟨hbh, lb, hbinv⟩ := @bfs_run_inv g (sr, sc) er ec (n + 2) (bfs_start g sr sc)
    [(sr, sc)] (bfs_start_inv hs) hmb
  obtain ⟨hdh, ld, hdinv⟩ := @dfs_run_inv g (sr, sc) rnd er ec (n + 2)
    (dfs_start g sr sc) [(sr, sc)] (dfs_start_inv hs) hmd
  refine ⟨⟨?_, hbinv.ovf⟩, ⟨?_, hdinv.ndrop⟩⟩
  · rw [hbinv.pushctr]
    have := hbinv.disc_le
    omega
  · rw [hdinv.pushctr]
    have hle : mark_count (dfs_run rnd er ec (n + 2) (dfs_start g sr sc)).1.g.marks ≤ n := by
      unfold mark_count
      rw [hdinv.mlen]
      exact countP_range_le _ _
    omega

/-- Witness for C10 on a 3-by-3 open grid. -/
theorem frontier_capacity_safe_witness :
    insideP ⟨3, 3, List.replicate 9 0, List.replicate 9 0⟩ (1, 1) ∧
    (((bfs_run 2 2 (3 * 3 + 2) (bfs_start ⟨3, 3, List.replicate 9 0, List.replicate 9 0⟩
        1 1)).1.q.pushes ≤ 3 * 3 + 5 ∧
      (bfs_run 2 2 (3 * 3 + 2) (bfs_start ⟨3, 3, List.replicate 9 0, List.replicate 9 0⟩
        1 1)).1.q.overflowed = false) ∧
     ((dfs_run (fun _ => 0) 2 2 (3 * 3 + 2)
        (dfs_start ⟨3, 3, List.replicate 9 0, List.replicate 9 0⟩ 1 1)).1.st.pushes ≤
        3 * 3 + 5 ∧
      (dfs_run (fun _ => 0) 2 2 (3 * 3 + 2)
        (dfs_start ⟨3, 3, List.replicate 9 0, List.replicate 9 0⟩ 1 1)).1.st.dropped =
        false)) :=
  ⟨⟨by decide, by decide, by decide, by decide⟩,
   frontier_capacity_safe ⟨3, 3, List.replicate 9 0, List.replicate 9 0⟩ (fun _ => 0) 1 1 2 2
     ⟨by decide, by decide, by decide, by decide⟩⟩

/- the DFS parent forest: tree structure over discovered cells -/

theorem iidx_int' {cols : Nat} {r c : Int} (hr0 : 0 ≤ r) (hc0 : 0 ≤ c) :
    ((iidx cols r c : Nat) : Int) = r * cols + c := by
  have hnn : (0 : Int) ≤ r * cols + c := by positivity
  simpa [iidx] using Int.toNat_of_nonneg hnn

theorem pos_div_mod {cols : Nat} {p : Int × Int} (hc : 0 < cols)
    (h1 : 0 ≤ p.1) (h2 : 0 ≤ p.2) (h4 : p.2 < (cols : Int)) :
    ((iidx cols p.1 p.2 : Nat) : Int) / (cols : Int) = p.1 ∧
    ((iidx cols p.1 p.2 : Nat) : Int) % (cols : Int) = p.2 := by
  have hcne : ((cols : Int)) ≠ 0 := by
    intro h
    omega
  rw [iidx_int' h1 h2]
  have hco : p.1 * (cols : Int) + p.2 = p.2 + (cols : Int) * p.1 := by ring
  constructor
  · rw [hco, Int.add_mul_ediv_left p.2 p.1 hcne, Int.ediv_eq_zero_of_lt h2 h4]
    omega
  · rw [hco, Int.add_mul_emod_self_left, Int.emod_eq_of_lt h2 h4]

theorem index_pos {g0 : Grid} (hc : 0 < g0.cols) {i : Nat} (hi : i < g0.rows * g0.cols) :
    insideP g0 ((i : Int) / (g0.cols : Int), (i : Int) % (g0.cols : Int)) ∧
    iidx g0.cols ((i : Int) / (g0.cols : Int)) ((i : Int) % (g0.cols : Int)) = i := by
  have hdiv : i / g0.cols < g0.rows := by
    rw [Nat.div_lt_iff_lt_mul hc]
    omega
  have hmod : i % g0.cols < g0.cols := Nat.mod_lt i hc
  have hdint : (i : Int) / (g0.cols : Int) = ((i / g0.cols : Nat) : Int) :=
    (Int.ofNat_ediv i g0.cols).symm
  have hmint : (i : Int) % (g0.cols : Int) = ((i % g0.cols : Nat) : Int) :=
    (Int.ofNat_emod i g0.cols).symm
  refine ⟨⟨?_, ?_, ?_, ?_⟩, iidx_divmod g0.cols i⟩
  · show (0 : Int) ≤ (i : Int) / (g0.cols : Int)
    rw [hdint]
    exact Int.ofNat_nonneg _
  · show (i : Int) / (g0.cols : Int) < (g0.rows : Int)
    rw [hdint]
    exact_mod_cast hdiv
  · show (0 : Int) ≤ (i : Int) % (g0.cols : Int)
    rw [hmint]
    exact Int.ofNat_nonneg _
  · show (i : Int) % (g0.cols : Int) < (g0.cols : Int)
    rw [hmint]
    exact_mod_cast hmod

theorem dfs_start_tree {g : Grid} {sr sc : Int} (hs : insideP g (sr, sc)) :
    ParentTree g (sr, sc) (dfs_start g sr sc).parent (fun _ => 0) 1 := by
  have hcpos : 0 < g.cols := by
    have := hs.2.2.2
    have := hs.2.2.1
    omega
  set n := g.rows * g.cols
  have hsl : iidx g.cols sr sc < n := iidx_lt hs.1 hs.2.1 hs.2.2.1 hs.2.2.2
  have hpar : (dfs_start g sr sc).parent = (List.replicate n (-1 : Int)).set
      (iidx g.cols sr sc) (-2) := rfl
  have hpget : ∀ i, i < n → (dfs_start g sr sc).parent.getD i (-1) =
      if i = iidx g.cols sr sc then -2 else -1 := by
    intro i hi
    rw [hpar]
    by_cases hie : i = iidx g.cols sr sc
    · subst hie
      rw [if_pos rfl]
      exact getD_set_self _ _ _ _ (by simp [hsl])
    · rw [if_neg hie, getD_set_ne _ _ _ (fun he => hie he.symm), getD_replicate _ _ hi]
  have hplen : (dfs_start g sr sc).parent.length = n := by rw [hpar]; simp
  refine
    { plen := hplen
      root := by rw [hpget _ hsl, if_pos rfl]
      root_uniq := ?_
      vals := ?_
      edge := ?_
      rnk_lt := fun i _ _ => Nat.zero_lt_one
      cnt_eq := ?_ }
  · intro i hi hv
    rw [hplen] at hi
    rw [hpget i hi] at hv
    by_cases hie : i = iidx g.cols sr sc
    · exact hie
    · rw [if_neg hie] at hv
      omega
  · intro i hi
    rw [hplen] at hi
    rw [hpget i hi]
    split
    · exact Or.inl rfl
    · exact Or.inr (Or.inl rfl)
  · intro p hpin hge
    exfalso
    rw [hpget _ (iidx_lt hpin.1 hpin.2.1 hpin.2.2.1 hpin.2.2.2)] at hge
    split at hge
    · omega
    · omega
  · have h1 := bfs_start_disc_one hs
    exact h1.symm

theorem dfs_expand_tree {g0 : Grid} {s : Int × Int} {st : DfsState}
    {rnk : Nat → Nat} {cnt : Nat}
    (hgcells : st.g.cells = g0.cells) (hgcols : st.g.cols = g0.cols)
    (hgrows : st.g.rows = g0.rows) (hcpos : 0 < g0.cols)
    (tree : ParentTree g0 s st.parent rnk cnt)
    (r c : Int) (kd : Nat) (hkd : kd < 4) (hrc : insideP g0 (r, c))
    (hrcd : st.parent.getD (iidx g0.cols r c) (-1) ≠ -1) :
    ∃ rnk' cnt', ParentTree g0 s (dfs_expand r c st kd).parent rnk' cnt' := by
  set n := g0.rows * g0.cols
  set d := nbrs4.getD kd (0, 0) with hd
  set nr := r + d.1 with hnr
  set nc := c + d.2 with hnc
  by_cases hg : (is_inside st.g nr nc && (grid_get st.g nr nc == 0) &&
      (mark_get st.g nr nc == M_NONE)) = true
  · simp only [Bool.and_eq_true, beq_iff_eq] at hg
    obtain ⟨⟨hin, hopen⟩, hm0⟩ := hg
    have hparexp : (dfs_expand r c st kd).parent =
        (if st.parent.getD (iidx st.g.cols nr nc) (-1) = -1
          then st.parent.set (iidx st.g.cols nr nc) (r * (st.g.cols : Int) + c)
          else st.parent) := by
      simp only [dfs_expand]
      rw [← hd, ← hnr, ← hnc]
      rw [if_pos (by
        simp only [Bool.and_eq_true, beq_iff_eq]
        exact ⟨⟨hin, hopen⟩, hm0⟩)]
    by_cases hu : st.parent.getD (iidx st.g.cols nr nc) (-1) = -1
    · -- a genuine discovery: extend the forest by one leaf
      have hnin : insideP g0 (nr, nc) := by
        rw [← is_inside_insideP, ← is_inside_eq hgrows hgcols]
        exact hin
      have hj : iidx st.g.cols nr nc = iidx g0.cols nr nc := by rw [hgcols]
      have hjlt : iidx g0.cols nr nc < n := iidx_lt hnin.1 hnin.2.1 hnin.2.2.1 hnin.2.2.2
      have hjplen : iidx g0.cols nr nc < st.parent.length := by rw [tree.plen]; exact hjlt
      have hug : st.parent.getD (iidx g0.cols nr nc) (-1) = -1 := by
        rw [← hj]
        exact hu
      have hpnew : ∀ i, i ≠ iidx g0.cols nr nc →
          (st.parent.set (iidx g0.cols nr nc) (r * (st.g.cols : Int) + c)).getD i (-1) =
            st.parent.getD i (-1) :=
        fun i hi => getD_set_ne _ _ _ (fun he => hi he.symm)
      have hpj : (st.parent.set (iidx g0.cols nr nc) (r * (st.g.cols : Int) + c)).getD
          (iidx g0.cols nr nc) (-1) = r * (st.g.cols : Int) + c :=
        getD_set_self _ _ _ _ hjplen
      have hvnn : (0 : Int) ≤ r * (st.g.cols : Int) + c := by
        rw [hgcols]
        have h1 : 0 ≤ r := hrc.1
        have h2 : 0 ≤ c := hrc.2.2.1
        positivity
      have hdnz : d.1 ≠ 0 ∨ d.2 ≠ 0 := by
        have hdm := nbrs4_getD_mem hkd
        rw [← hd] at hdm
        simp only [nbrs4, List.mem_cons, List.not_mem_nil, or_false] at hdm
        rcases hdm with h | h | h | h <;> rw [h] <;> decide
      have hrne : (r, c) ≠ (nr, nc) := by
        intro he
        have h1 : r = nr := congrArg Prod.fst he
        have h2 : c = nc := congrArg Prod.snd he
        rw [hnr] at h1
        rw [hnc] at h2
        rcases hdnz with h | h
        · apply h
          omega
        · apply h
          omega
      have hqne : iidx g0.cols r c ≠ iidx g0.cols nr nc := by
        intro he
        obtain ⟨e1, e2⟩ := iidx_inj hcpos hrc.1 hrc.2.1 hrc.2.2.1 hrc.2.2.2
          hnin.1 hnin.2.1 hnin.2.2.1 hnin.2.2.2 he
        exact hrne (Prod.ext e1 e2)
      have hdisc' : disc_count (st.parent.set (iidx g0.cols nr nc)
          (r * (st.g.cols : Int) + c)) = disc_count st.parent + 1 := by
        unfold disc_count
        rw [List.length_set, tree.plen]
        apply countP_range_update hjlt
        · intro i hi
          simp only [hpnew i hi]
        · rw [hug]
          decide
        · rw [hpj]
          simp only [Bool.not_eq_true', beq_eq_false_iff_ne, ne_eq]
          omega
      refine ⟨Function.update rnk (iidx g0.cols nr nc) cnt, cnt + 1, ?_⟩
      rw [hparexp, if_pos hu, hj]
      refine
        { plen := by rw [List.length_set]; exact tree.plen
          root := ?_
          root_uniq := ?_
          vals := ?_
          edge := ?_
          rnk_lt := ?_
          cnt_eq := by rw [hdisc', ← tree.cnt_eq] }
      · have hsne : iidx g0.cols s.1 s.2 ≠ iidx g0.cols nr nc := by
          intro he
          rw [← he] at hug
          rw [tree.root] at hug
          omega
        rw [hpnew _ hsne]
        exact tree.root
      · intro i hi hv
        rw [List.length_set] at hi
        by_cases hie : i = iidx g0.cols nr nc
        · subst hie
          rw [hpj] at hv
          omega
        · rw [hpnew _ hie] at hv
          exact tree.root_uniq i hi hv
      · intro i hi
        rw [List.length_set] at hi
        by_cases hie : i = iidx g0.cols nr nc
        · subst hie
          rw [hpj]
          exact Or.inr (Or.inr hvnn)
        · rw [hpnew _ hie]
          exact tree.vals i hi
      · intro p hpin hge
        by_cases hie : iidx g0.cols p.1 p.2 = iidx g0.cols nr nc
        · -- the new leaf: its parent is the expanding cell (r, c)
          have hpeq : p = (nr, nc) := by
            obtain ⟨e1, e2⟩ := iidx_inj hcpos hpin.1 hpin.2.1 hpin.2.2.1 hpin.2.2.2
              hnin.1 hnin.2.1 hnin.2.2.1 hnin.2.2.2 hie
            exact Prod.ext e1 e2
          subst hpeq
          refine ⟨(r, c), hrc, adjB_of_dir (nbrs4_getD_mem hkd), ?_, ?_,
            ?_, ?_⟩
          · unfold inside_open
            rw [← is_inside_eq hgrows hgcols, ← grid_get_eq hgcells hgcols]
            simp [hin, hopen]
          · rw [hie, hpj, hgcols]
          · rw [hpnew _ hqne]
            exact hrcd
          · rw [hie, Function.update_same, Function.update_noteq hqne]
            have := tree.rnk_lt (iidx g0.cols r c)
              (by rw [tree.plen]; exact iidx_lt hrc.1 hrc.2.1 hrc.2.2.1 hrc.2.2.2) hrcd
            exact this
        · rw [hpnew _ hie] at hge
          obtain ⟨q, hq1, hq2, hq3, hq4, hq5, hq6⟩ := tree.edge p hpin hge
          have hqne2 : iidx g0.cols q.1 q.2 ≠ iidx g0.cols nr nc := by
            intro he
            rw [he, hug] at hq5
            exact hq5 rfl
          refine ⟨q, hq1, hq2, hq3, by rw [hpnew _ hie]; exact hq4, ?_, ?_⟩
          · rw [hpnew _ hqne2]
            exact hq5
          · rw [Function.update_noteq hqne2, Function.update_noteq hie]
            exact hq6
      · intro i hi hv
        rw [List.length_set] at hi
        by_cases hie : i = iidx g0.cols nr nc
        · subst hie
          rw [Function.update_same]
          omega
        · rw [hpnew _ hie] at hv
          rw [Function.update_noteq hie]
          have := tree.rnk_lt i hi hv
          omega
    · refine ⟨rnk, cnt, ?_⟩
      rw [hparexp, if_neg hu]
      exact tree
  · have hexp : (dfs_expand r c st kd).parent = st.parent := by
      simp only [dfs_expand]
      rw [← hd, ← hnr, ← hnc]
      rw [if_neg hg]
    rw [hexp]
    exact ⟨rnk, cnt, tree⟩

theorem dfs_expand_geom (r c : Int) (st : DfsState) (kd : Nat) :
    (dfs_expand r c st kd).g.cells = st.g.cells ∧ (dfs_expand r c st kd).g.cols = st.g.cols ∧
    (dfs_expand r c st kd).g.rows = st.g.rows := by
  simp only [dfs_expand]
  split
  · exact ⟨rfl, rfl, rfl⟩
  · exact ⟨rfl, rfl, rfl⟩

theorem dfs_fold_tree {g0 : Grid} {s : Int × Int} (r c : Int) (hrc : insideP g0 (r, c))
    (hcpos : 0 < g0.cols) :
    ∀ (ords : List Int), (∀ x ∈ ords, x.toNat < 4) →
    ∀ (st : DfsState) (rnk : Nat → Nat) (cnt : Nat),
      st.g.cells = g0.cells → st.g.cols = g0.cols → st.g.rows = g0.rows →
      ParentTree g0 s st.parent rnk cnt →
      st.parent.getD (iidx g0.cols r c) (-1) ≠ -1 →
    ∃ rnk' cnt', ParentTree g0 s
      ((ords.foldl (fun acc oi => dfs_expand r c acc oi.toNat) st)).parent rnk' cnt' := by
  intro ords
  induction ords with
  | nil => exact fun _ st rnk cnt _ _ _ tree _ => ⟨rnk, cnt, tree⟩
  | cons k ks ih =>
    intro hks st rnk cnt hc1 hc2 hc3 tree hrcd
    obtain ⟨rnk1, cnt1, tree1⟩ := dfs_expand_tree hc1 hc2 hc3 hcpos tree r c k.toNat
      (hks k (by simp)) hrc hrcd
    obtain ⟨hg1, hg2, hg3⟩ := dfs_expand_geom r c st k.toNat
    simp only [List.foldl_cons]
    exact ih (fun x hx => hks x (by simp [hx])) (dfs_expand r c st k.toNat) rnk1 cnt1
      (by rw [hg1]; exact hc1) (by rw [hg2]; exact hc2) (by rw [hg3]; exact hc3) tree1
      (by rw [dfs_expand_parent_mono r c st k.toNat _ hrcd]; exact hrcd)

theorem dfs_step_tree {g0 : Grid} {s : Int × Int} {rnd : Nat → Nat} {er ec : Int}
    {st : DfsState} {l : List (Int × Int)} {rnk : Nat → Nat} {cnt : Nat}
    (inv : DfsInvL g0 s st l) (tree : ParentTree g0 s st.parent rnk cnt)
    (hne : stack_empty st.st = false) :
    ∃ rnk' cnt', ParentTree g0 s (dfs_step rnd er ec st).1.parent rnk' cnt' := by
  have hlne : l ≠ [] := by
    intro h
    rw [(stack_empty_inv inv.sinv).mpr h] at hne
    exact Bool.noConfusion hne
  obtain ⟨p, l2, rfl⟩ : ∃ p l2, l = p :: l2 := by
    cases l with
    | nil => exact absurd rfl hlne
    | cons a t => exact ⟨a, t, rfl⟩
  obtain ⟨hpopv, hpops⟩ := stack_pop_inv inv.sinv
  have hpin : insideP g0 p := inv.mem_inside p (by simp)
  have hpdisc := inv.mem_disc p (by simp)
  set g1 := mark_andnot st.g p.1 p.2 M_FRONT with hg1
  set g2 := (if mark_get g1 p.1 p.2 &&& M_VISIT == 0 then mark_or g1 p.1 p.2 M_VISIT else g1)
    with hg2
  have hg2cells : g2.cells = g0.cells := by
    rw [hg2, hg1]
    split
    · exact inv.cells
    · exact inv.cells
  have hg2cols : g2.cols = g0.cols := by
    rw [hg2, hg1]
    split
    · exact inv.cols
    · exact inv.cols
  have hg2rows : g2.rows = g0.rows := by
    rw [hg2, hg1]
    split
    · exact inv.rows
    · exact inv.rows
  set st1 : DfsState :=
    { g := g2, parent := st.parent, st := (stack_pop st.st).2, k := st.k } with hst1
  have hstep : dfs_step rnd er ec st =
      (if p.1 == er && p.2 == ec then (st1, true)
       else
        (((shuffle_ints rnd [0, 1, 2, 3] st1.k).1).foldl
          (fun acc oi => dfs_expand p.1 p.2 acc oi.toNat)
          { st1 with k := (shuffle_ints rnd [0, 1, 2, 3] st1.k).2 },
          false)) := by
    simp only [dfs_step, hpopv, ← hg1, ← hg2, hst1]
  rw [hstep]
  by_cases hbrk : (p.1 == er && p.2 == ec) = true
  · rw [if_pos hbrk]
    exact ⟨rnk, cnt, tree⟩
  · rw [if_neg hbrk]
    simp only
    exact dfs_fold_tree p.1 p.2 hpin inv.cpos
      (shuffle_ints rnd [0, 1, 2, 3] st1.k).1
      (fun x hx => shuffle_ints_mem_toNat_lt rnd st1.k x hx)
      { st1 with k := (shuffle_ints rnd [0, 1, 2, 3] st1.k).2 } rnk cnt
      hg2cells hg2cols hg2rows tree hpdisc

theorem dfs_run_both {g0 : Grid} {s : Int × Int} {rnd : Nat → Nat} {er ec : Int} :
    ∀ (f : Nat) (st : DfsState) (l : List (Int × Int)) (rnk : Nat → Nat) (cnt : Nat),
    DfsInvL g0 s st l → ParentTree g0 s st.parent rnk cnt →
    ∃ l' rnk' cnt', DfsInvL g0 s (dfs_run rnd er ec f st).1 l' ∧
      ParentTree g0 s (dfs_run rnd er ec f st).1.parent rnk' cnt' := by
  intro f
  induction f with
  | zero => exact fun st l rnk cnt inv tree => ⟨l, rnk, cnt, inv, tree⟩
  | succ f ih =>
    intro st l rnk cnt inv tree
    have hrs : dfs_run rnd er ec (f + 1) st =
        if stack_empty st.st then (st, true)
        else if (dfs_step rnd er ec st).2 then ((dfs_step rnd er ec st).1, true)
        else dfs_run rnd er ec f (dfs_step rnd er ec st).1 := rfl
    rw [hrs]
    by_cases hqe : stack_empty st.st = true
    · rw [if_pos hqe]
      exact ⟨l, rnk, cnt, inv, tree⟩
    · rw [if_neg hqe]
      have hne : stack_empty st.st = false := by
        cases h : stack_empty st.st
        · rfl
        · exact absurd h hqe
      obtain ⟨l2, inv2, _⟩ := @dfs_step_inv g0 s rnd er ec st l inv hne
      obtain ⟨rnk2, cnt2, tree2⟩ := @dfs_step_tree g0 s rnd er ec st l rnk cnt inv
        tree hne
      by_cases hbrk : (dfs_step rnd er ec st).2 = true
      · rw [if_pos hbrk]
        exact ⟨l2, rnk2, cnt2, inv2, tree2⟩
      · rw [if_neg hbrk]
        exact ih (dfs_step rnd er ec st).1 l2 rnk2 cnt2 inv2 tree2

theorem chain'_pairwise_of_trans {α : Type} {R : α → α → Prop}
    (htr : ∀ a b c, R a b → R b c → R a c) :
    ∀ {l : List α}, List.Chain' R l → List.Pairwise R l := by
  intro l
  induction l with
  | nil => exact fun _ => List.Pairwise.nil
  | cons a t ih =>
    intro hch
    have h1 := (List.chain'_cons'.mp hch).1
    have hpt := ih (List.chain'_cons'.mp hch).2
    refine List.Pairwise.cons ?_ hpt
    intro b hb
    cases t with
    | nil => cases hb
    | cons x t' =>
      have hax : R a x := h1 x rfl
      rcases List.mem_cons.mp hb with hbx | hbt
      · rw [hbx]; exact hax
      · exact htr a x b hax ((List.pairwise_cons.mp hpt).1 b hbt)

theorem steps_ok_of_chain {g : Grid} {e : Int × Int} :
    ∀ (t : List (Int × Int)) (prev : Int × Int),
    (prev :: t).getLast? = some e →
    (∀ q ∈ t, inside_open g q = true) →
    List.Chain' (fun a b => adjB a b = true) (prev :: t) →
    steps_ok g e prev t = true := by
  intro t
  induction t with
  | nil =>
    intro prev hlast _ _
    have hpe : prev = e := by simpa using hlast
    simp [steps_ok, hpe]
  | cons x t' ih =>
    intro prev hlast hopen hch
    have hadj : adjB prev x = true := (List.chain'_cons'.mp hch).1 x rfl
    have hch' := (List.chain'_cons'.mp hch).2
    have hlast' : (x :: t').getLast? = some e := by
      rwa [getLast?_cons_of_ne_nil prev (by simp)] at hlast
    have hrec := ih x hlast' (fun q hq => hopen q (by simp [hq])) hch'
    simp [steps_ok, hadj, hopen x (by simp), hrec]

theorem is_path_of_chain {g : Grid} {s e : Int × Int} {C : List (Int × Int)}
    (hhd : C.head? = some s) (hlast : C.getLast? = some e)
    (hin : is_inside g s.1 s.2 = true)
    (hopen : ∀ q ∈ C, q ≠ s → inside_open g q = true)
    (hnd : C.Nodup)
    (hch : List.Chain' (fun a b => adjB a b = true) C) :
    is_path g s e C = true := by
  cases C with
  | nil => exact absurd hhd (by simp)
  | cons a t =>
    have has : a = s := by simpa using hhd
    subst has
    have hnin : a ∉ t := (List.nodup_cons.mp hnd).1
    have hopen' : ∀ q ∈ t, inside_open g q = true := by
      intro q hq
      refine hopen q (by simp [hq]) ?_
      intro hqa
      rw [hqa] at hq
      exact hnin hq
    have hst := steps_ok_of_chain t a hlast hopen' hch
    simp [is_path, hin, hst]

/-- The walk recon_path takes over a parent forest: from any discovered cell
it follows parent links to the root, yielding a rank-decreasing sequence of
adjacent cells ending at the root cell. -/
theorem recon_path_tree {g0 : Grid} {s : Int × Int} {parent : List Int}
    {rnk : Nat → Nat} {cnt : Nat}
    (tree : ParentTree g0 s parent rnk cnt) (hcpos : 0 < g0.cols)
    (hsin : insideP g0 s) :
    ∀ (m : Nat) (p : Int × Int), insideP g0 p →
    parent.getD (iidx g0.cols p.1 p.2) (-1) ≠ -1 →
    rnk (iidx g0.cols p.1 p.2) < m → ∀ f, m ≤ f →
    ∃ L : List (Int × Int),
      recon_path parent f ((iidx g0.cols p.1 p.2 : Nat) : Int)
        = L.map (fun q => ((iidx g0.cols q.1 q.2 : Nat) : Int)) ∧
      L.head? = some p ∧ L.getLast? = some s ∧
      (∀ q ∈ L, insideP g0 q) ∧
      (∀ q ∈ L, q ≠ s → inside_open g0 q = true) ∧
      List.Chain' (fun x y => adjB y x = true) L ∧
      List.Chain' (fun x y => rnk (iidx g0.cols y.1 y.2) < rnk (iidx g0.cols x.1 x.2)) L := by
  intro m
  induction m with
  | zero => intro p _ _ h; omega
  | succ m1 ih =>
    intro p hp hdisc hrnk f hf
    have hidxlt : iidx g0.cols p.1 p.2 < parent.length := by
      rw [tree.plen]
      exact iidx_lt hp.1 hp.2.1 hp.2.2.1 hp.2.2.2
    obtain ⟨f1, rfl⟩ : ∃ f1, f = f1 + 1 := ⟨f - 1, by omega⟩
    have hcur : ((iidx g0.cols p.1 p.2 : Nat) : Int) ≠ -2 ∧
        ((iidx g0.cols p.1 p.2 : Nat) : Int) ≠ -1 := ⟨by omega, by omega⟩
    have htoNat := Int.toNat_ofNat (iidx g0.cols p.1 p.2)
    have hstep : recon_path parent (f1 + 1) ((iidx g0.cols p.1 p.2 : Nat) : Int)
        = ((iidx g0.cols p.1 p.2 : Nat) : Int) ::
          recon_path parent f1
            (parent.getD ((iidx g0.cols p.1 p.2 : Nat) : Int).toNat (-1)) := by
      simp only [recon_path]
      rw [if_pos hcur]
    rcases tree.vals (iidx g0.cols p.1 p.2) hidxlt with hroot | hneg | hpos
    · have hidxs : iidx g0.cols p.1 p.2 = iidx g0.cols s.1 s.2 :=
        tree.root_uniq (iidx g0.cols p.1 p.2) hidxlt hroot
      have hps : p = s := Prod.ext_iff.mpr
        (iidx_inj hcpos hp.1 hp.2.1 hp.2.2.1 hp.2.2.2
          hsin.1 hsin.2.1 hsin.2.2.1 hsin.2.2.2 hidxs)
      refine ⟨[p], ?_, rfl, by simp [hps], ?_, ?_, List.chain'_singleton p,
        List.chain'_singleton p⟩
      · rw [hstep, htoNat, hroot, recon_path_neg2]
        simp
      · intro q hq
        have : q = p := by simpa using hq
        rw [this]
        exact hp
      · intro q hq hqs
        have : q = p := by simpa using hq
        rw [this] at hqs
        exact absurd hps hqs
    · exact absurd hneg hdisc
    · obtain ⟨q, hqin, hadj, hpopen, hpar, hqdisc, hqrnk⟩ := tree.edge p hp hpos
      have hqint : ((iidx g0.cols q.1 q.2 : Nat) : Int) = q.1 * (g0.cols : Int) + q.2 :=
        iidx_int' hqin.1 hqin.2.2.1
      have hnext : parent.getD (iidx g0.cols p.1 p.2) (-1)
          = ((iidx g0.cols q.1 q.2 : Nat) : Int) := hpar.trans hqint.symm
      have hrnkq : rnk (iidx g0.cols q.1 q.2) < m1 := by omega
      obtain ⟨L', hmap, hhd, hlast, hins, hop, hch1, hch2⟩ :=
        ih q hqin hqdisc hrnkq f1 (by omega)
      have hLne : L' ≠ [] := by
        intro h
        rw [h] at hhd
        exact Option.noConfusion hhd
      refine ⟨p :: L', ?_, rfl, ?_, ?_, ?_, ?_, ?_⟩
      · rw [hstep, htoNat, hnext, hmap]
        rfl
      · rw [getLast?_cons_of_ne_nil p hLne]
        exact hlast
      · intro x hx
        rcases List.mem_cons.mp hx with h | h
        · rw [h]; exact hp
        · exact hins x h
      · intro x hx hxs
        rcases List.mem_cons.mp hx with h | h
        · rw [h]; exact hpopen
        · exact hop x h hxs
      · refine List.chain'_cons'.mpr ⟨?_, hch1⟩
        intro y hy
        have hyq : L'.head? = some y := hy
        rw [hhd] at hyq
        have hye : y = q := (Option.some.inj hyq).symm
        rw [hye]
        exact hadj
      · refine List.chain'_cons'.mpr ⟨?_, hch2⟩
        intro y hy
        have hyq : L'.head? = some y := hy
        rw [hhd] at hyq
        have hye : y = q := (Option.some.inj hyq).symm
        rw [hye]
        exact hqrnk

/-- C4: the path reconstructed after solve_dfs, when non-empty (that is, when
parent[end] was set), is a simple walk: read in start-to-end order its cells
are pairwise distinct open in-bounds cells, consecutive cells are
grid-adjacent, the walk starts at the start cell and ends at the end cell. -/
theorem dfs_path_valid {g : Grid} {rnd : Nat → Nat} {sr sc er ec delay_ms : Int}
    (hs : insideP g (sr, sc)) (he : insideP g (er, ec))
    (hsopen : grid_get g sr sc = 0)
    (hdisc : ((solve_dfs g rnd sr sc er ec delay_ms).2.1).getD (iidx g.cols er ec) (-1)
      ≠ -1) :
    ∃ C : List (Int × Int),
      recon_path (solve_dfs g rnd sr sc er ec delay_ms).2.1 (g.rows * g.cols + 1)
          ((iidx g.cols er ec : Nat) : Int)
        = (C.map (fun q => ((iidx g.cols q.1 q.2 : Nat) : Int))).reverse ∧
      is_path g (sr, sc) (er, ec) C = true ∧ C.Nodup ∧
      ∀ q ∈ C, inside_open g q = true := by
  have hcpos : 0 < g.cols := by
    have := hs.2.2.2
    have := hs.2.2.1
    omega
  obtain ⟨l', rnk', cnt', invF, treeF⟩ :=
    @dfs_run_both g (sr, sc) rnd er ec (g.rows * g.cols + 2) (dfs_start g sr sc)
      [(sr, sc)] (fun _ => 0) 1 (dfs_start_inv hs) (dfs_start_tree hs)
  have hparent : (solve_dfs g rnd sr sc er ec delay_ms).2.1
      = (dfs_run rnd er ec (g.rows * g.cols + 2) (dfs_start g sr sc)).1.parent := rfl
  rw [hparent] at hdisc ⊢
  have hidxlt : iidx g.cols er ec <
      (dfs_run rnd er ec (g.rows * g.cols + 2) (dfs_start g sr sc)).1.parent.length := by
    rw [treeF.plen]
    exact iidx_lt he.1 he.2.1 he.2.2.1 he.2.2.2
  have hrnklt : rnk' (iidx g.cols er ec) < g.rows * g.cols := by
    have h1 := treeF.rnk_lt (iidx g.cols er ec) hidxlt hdisc
    have h2 : cnt' ≤ g.rows * g.cols := by
      rw [treeF.cnt_eq]
      unfold disc_count
      rw [treeF.plen]
      exact countP_range_le _ _
    omega
  obtain ⟨L, hmap, hhd, hlast, hins, hop, hchAdj, hchRnk⟩ :=
    recon_path_tree treeF hcpos hs (g.rows * g.cols) (er, ec) he hdisc hrnklt
      (g.rows * g.cols + 1) (by omega)
  have hndL : L.Nodup := by
    have hpw := @chain'_pairwise_of_trans (Int × Int)
      (fun x y => rnk' (iidx g.cols y.1 y.2) < rnk' (iidx g.cols x.1 x.2))
      (fun a b c hab hbc => Nat.lt_trans hbc hab) L hchRnk
    exact List.Pairwise.imp
      (fun h => by
        intro he'
        rw [he'] at h
        exact Nat.lt_irrefl _ h) hpw
  refine ⟨L.reverse, ?_, ?_, List.nodup_reverse.mpr hndL, ?_⟩
  · rw [List.map_reverse, List.reverse_reverse]
    exact hmap
  · refine is_path_of_chain ?_ ?_ (is_inside_insideP.mpr hs) ?_
      (List.nodup_reverse.mpr hndL) (List.chain'_reverse.mpr hchAdj)
    · rw [List.head?_reverse]
      exact hlast
    · rw [List.getLast?_reverse]
      exact hhd
    · intro q hq hqs
      rw [List.mem_reverse] at hq
      exact hop q hq hqs
  · intro q hq
    rw [List.mem_reverse] at hq
    by_cases hqs : q = (sr, sc)
    · rw [hqs]
      have h1 : is_inside g sr sc = true := is_inside_insideP.mpr hs
      simp [inside_open, h1, hsopen]
    · exact hop q hq hqs

theorem dfs_path_valid_witness :
    ∃ C : List (Int × Int),
      recon_path (solve_dfs ⟨3, 3, List.replicate 9 0, List.replicate 9 0⟩
            (fun _ => 0) 0 0 2 2 0).2.1 (3 * 3 + 1) ((iidx 3 2 2 : Nat) : Int)
        = (C.map (fun q => ((iidx 3 q.1 q.2 : Nat) : Int))).reverse ∧
      is_path ⟨3, 3, List.replicate 9 0, List.replicate 9 0⟩ (0, 0) (2, 2) C = true ∧
      C.Nodup ∧
      ∀ q ∈ C, inside_open ⟨3, 3, List.replicate 9 0, List.replicate 9 0⟩ q = true :=
  dfs_path_valid ⟨by decide, by decide, by decide, by decide⟩
    ⟨by decide, by decide, by decide, by decide⟩ (by decide) (by decide)

theorem foldl_set_length (v : Nat) (f : Nat → Nat) :
    ∀ (l : List Nat) (cs : List Nat),
    (l.foldl (fun cs2 c => cs2.set (f c) v) cs).length = cs.length := by
  intro l
  induction l with
  | nil => intro cs; rfl
  | cons a t ih =>
    intro cs
    rw [List.foldl_cons, ih, List.length_set]

theorem foldl_set_getD_of_not_mem (v : Nat) (f : Nat → Nat) :
    ∀ (l : List Nat) (cs : List Nat) (i d : Nat), (∀ c ∈ l, f c ≠ i) →
    (l.foldl (fun cs2 c => cs2.set (f c) v) cs).getD i d = cs.getD i d := by
  intro l
  induction l with
  | nil => intro cs i d _; rfl
  | cons a t ih =>
    intro cs i d h
    rw [List.foldl_cons, ih (cs.set (f a) v) i d (fun c hc => h c (by simp [hc]))]
    exact getD_set_ne cs v d (h a (by simp))

theorem foldl_set_getD_of_mem (v : Nat) (f : Nat → Nat) :
    ∀ (l : List Nat) (cs : List Nat) (i d : Nat), (∃ c ∈ l, f c = i) → i < cs.length →
    (l.foldl (fun cs2 c => cs2.set (f c) v) cs).getD i d = v := by
  intro l
  induction l with
  | nil =>
    intro cs i d h _
    obtain ⟨c, hc, _⟩ := h
    cases hc
  | cons a t ih =>
    intro cs i d h hlen
    rw [List.foldl_cons]
    by_cases hex : ∃ c ∈ t, f c = i
    · exact ih (cs.set (f a) v) i d hex (by rw [List.length_set]; exact hlen)
    · have hai : f a = i := by
        obtain ⟨c, hc, hfc⟩ := h
        rcases List.mem_cons.mp hc with hca | hct
        · rw [← hca]; exact hfc
        · exact absurd ⟨c, hct, hfc⟩ hex
      rw [foldl_set_getD_of_not_mem v f t (cs.set (f a) v) i d
        (fun c hc hfc => hex ⟨c, hc, hfc⟩)]
      rw [hai]
      exact getD_set_self cs i v d hlen

theorem foldl_set2_length (v : Nat) (f : Nat → Nat → Nat) (lc : List Nat) :
    ∀ (lr : List Nat) (cells : List Nat),
    (lr.foldl (fun cs r => lc.foldl (fun cs2 c => cs2.set (f r c) v) cs) cells).length
      = cells.length := by
  intro lr
  induction lr with
  | nil => intro cells; rfl
  | cons a t ih =>
    intro cells
    rw [List.foldl_cons, ih, foldl_set_length v (fun c => f a c) lc]

theorem foldl_set2_getD_of_not_mem (v : Nat) (f : Nat → Nat → Nat) (lc : List Nat) :
    ∀ (lr : List Nat) (cells : List Nat) (i d : Nat),
    (∀ r ∈ lr, ∀ c ∈ lc, f r c ≠ i) →
    (lr.foldl (fun cs r => lc.foldl (fun cs2 c => cs2.set (f r c) v) cs) cells).getD i d
      = cells.getD i d := by
  intro lr
  induction lr with
  | nil => intro cells i d _; rfl
  | cons a t ih =>
    intro cells i d h
    rw [List.foldl_cons, ih _ i d (fun r hr c hc => h r (by simp [hr]) c hc)]
    exact foldl_set_getD_of_not_mem v (fun c => f a c) lc cells i d
      (fun c hc => h a (by simp) c hc)

theorem foldl_set2_getD_of_mem (v : Nat) (f : Nat → Nat → Nat) (lc : List Nat) :
    ∀ (lr : List Nat) (cells : List Nat) (i d : Nat),
    (∃ r ∈ lr, ∃ c ∈ lc, f r c = i) → i < cells.length →
    (lr.foldl (fun cs r => lc.foldl (fun cs2 c => cs2.set (f r c) v) cs) cells).getD i d
      = v := by
  intro lr
  induction lr with
  | nil =>
    intro cells i d h _
    obtain ⟨r, hr, _⟩ := h
    cases hr
  | cons a t ih =>
    intro cells i d h hlen
    rw [List.foldl_cons]
    by_cases hex : ∃ r ∈ t, ∃ c ∈ lc, f r c = i
    · refine ih _ i d hex ?_
      rw [foldl_set_length v (fun c => f a c) lc]
      exact hlen
    · have ha : ∃ c ∈ lc, f a c = i := by
        obtain ⟨r, hr, c, hc, hfc⟩ := h
        rcases List.mem_cons.mp hr with hra | hrt
        · exact ⟨c, hc, by rw [← hra]; exact hfc⟩
        · exact absurd ⟨r, hrt, c, hc, hfc⟩ hex
      rw [foldl_set2_getD_of_not_mem v f lc t _ i d
        (fun r hr c hc hfc => hex ⟨r, hr, c, hc, hfc⟩)]
      exact foldl_set_getD_of_mem v (fun c => f a c) lc cells i d ha hlen

theorem gen_fill_walls_length (rows cols : Nat) (cells : List Nat) :
    (gen_fill_walls rows cols cells).length = cells.length :=
  foldl_set2_length 1 (fun r c => r * cols + c) (List.range cols) (List.range rows) cells

theorem gen_fill_walls_getD (rows cols : Nat) (hc : 0 < cols) (cells : List Nat)
    (hlen : cells.length = rows * cols) :
    ∀ i, i < rows * cols → (gen_fill_walls rows cols cells).getD i 1 = 1 := by
  intro i hi
  refine foldl_set2_getD_of_mem 1 (fun r c => r * cols + c) (List.range cols)
    (List.range rows) cells i 1
    ⟨i / cols, List.mem_range.mpr ?_, i % cols, List.mem_range.mpr (Nat.mod_lt i hc),
      by show i / cols * cols + i % cols = i; rw [Nat.mul_comm]; exact Nat.div_add_mod i cols⟩
    (by omega)
  exact (Nat.div_lt_iff_lt_mul hc).mpr hi

theorem gen_open_rooms_length (rows cols : Nat) (cells : List Nat) :
    (gen_open_rooms rows cols cells).length = cells.length :=
  foldl_set2_length 0 (fun r c => r * cols + c) (odd_below cols) (odd_below rows) cells

theorem mem_odd_below {m x : Nat} : x ∈ odd_below m ↔ x % 2 = 1 ∧ x < m := by
  unfold odd_below
  simp only [List.mem_map, List.mem_range]
  constructor
  · rintro ⟨t, ht, rfl⟩
    omega
  · rintro ⟨hodd, hlt⟩
    exact ⟨x / 2, by omega, by omega⟩

theorem gen_open_rooms_getD_room (rows cols : Nat) (hc : 0 < cols) (cells : List Nat)
    (hlen : cells.length = rows * cols) :
    ∀ i, i < rows * cols → isRoom cols i = true →
    (gen_open_rooms rows cols cells).getD i 1 = 0 := by
  intro i hi hroom
  unfold isRoom at hroom
  simp only [Bool.and_eq_true, beq_iff_eq] at hroom
  refine foldl_set2_getD_of_mem 0 (fun r c => r * cols + c) (odd_below cols)
    (odd_below rows) cells i 1
    ⟨i / cols, mem_odd_below.mpr ⟨hroom.1, (Nat.div_lt_iff_lt_mul hc).mpr hi⟩,
     i % cols, mem_odd_below.mpr ⟨hroom.2, Nat.mod_lt i hc⟩,
     by show i / cols * cols + i % cols = i
        rw [Nat.mul_comm]
        exact Nat.div_add_mod i cols⟩ (by omega)

theorem gen_open_rooms_getD_wall (rows cols : Nat) (cells : List Nat) :
    ∀ i d, isRoom cols i = false →
    (gen_open_rooms rows cols cells).getD i d = cells.getD i d := by
  intro i d hw
  unfold isRoom at hw
  refine foldl_set2_getD_of_not_mem 0 (fun r c => r * cols + c) (odd_below cols)
    (odd_below rows) cells i d ?_
  intro r hr c hc hfc
  rw [mem_odd_below] at hr hc
  have hfc2 : r * cols + c = i := hfc
  have hdiv : i / cols = r := by
    rw [← hfc2, Nat.mul_comm, Nat.add_comm, Nat.add_mul_div_left c r (by omega),
      Nat.div_eq_of_lt hc.2]
    omega
  have hmod : i % cols = c := by
    rw [← hfc2, Nat.mul_comm, Nat.add_comm, Nat.add_mul_mod_self_left,
      Nat.mod_eq_of_lt hc.2]
  rw [hdiv, hmod, hr.1, hc.1] at hw
  simp at hw

theorem cells1_getD {rows cols : Nat} (hc : 0 < cols) (cells : List Nat)
    (hlen : cells.length = rows * cols) :
    ∀ i, i < rows * cols →
    (gen_open_rooms rows cols (gen_fill_walls rows cols cells)).getD i 1
      = if isRoom cols i then 0 else 1 := by
  intro i hi
  cases hroom : isRoom cols i with
  | true =>
    rw [if_pos rfl]
    exact gen_open_rooms_getD_room rows cols hc _
      (by rw [gen_fill_walls_length]; exact hlen) i hi hroom
  | false =>
    rw [if_neg (by simp)]
    rw [gen_open_rooms_getD_wall rows cols _ i 1 hroom]
    exact gen_fill_walls_getD rows cols hc cells hlen i hi

theorem cells1_length {rows cols : Nat} (cells : List Nat) :
    (gen_open_rooms rows cols (gen_fill_walls rows cols cells)).length = cells.length := by
  rw [gen_open_rooms_length, gen_fill_walls_length]

theorem countP_range_mul (b : Nat) (hb : 0 < b) (p q : Nat → Bool) :
    ∀ a, (List.range (a * b)).countP (fun i => p (i / b) && q (i % b))
      = (List.range a).countP p * (List.range b).countP q := by
  intro a
  induction a with
  | zero => simp
  | succ m ih =>
    rw [Nat.succ_mul, List.range_add, List.countP_append, ih, List.countP_map,
      List.range_succ, List.countP_append]
    have hpt : ∀ x ∈ List.range b,
        ((fun i => p (i / b) && q (i % b)) ∘ (fun x => m * b + x)) x = true
          ↔ (fun x => p m && q x) x = true := by
      intro x hx
      rw [List.mem_range] at hx
      have h1 : (m * b + x) / b = m := by
        rw [Nat.mul_comm, Nat.add_comm, Nat.add_mul_div_left x m hb, Nat.div_eq_of_lt hx]
        omega
      have h2 : (m * b + x) % b = x := by
        rw [Nat.mul_comm, Nat.add_comm, Nat.add_mul_mod_self_left, Nat.mod_eq_of_lt hx]
      show (p ((m * b + x) / b) && q ((m * b + x) % b)) = true ↔ (p m && q x) = true
      rw [h1, h2]
    rw [List.countP_congr hpt]
    have hsing : List.countP p [m] = if p m then 1 else 0 := by
      simp [List.countP_cons]
    by_cases hpm : p m = true
    · have hbq : (List.range b).countP (fun x => p m && q x)
          = (List.range b).countP q := by
        refine List.countP_congr ?_
        intro x _
        simp [hpm]
      rw [hbq, hsing, if_pos hpm, Nat.add_mul, Nat.one_mul]
    · have hbq : (List.range b).countP (fun x => p m && q x) = 0 := by
        rw [List.countP_eq_zero]
        intro x _
        simp only [Bool.and_eq_true, not_and]
        intro h
        exact absurd h hpm
      rw [hbq, hsing, if_neg hpm, Nat.add_mul, Nat.zero_mul]

theorem countP_range_odd : ∀ m, (List.range m).countP (fun x => x % 2 == 1) = m / 2 := by
  intro m
  induction m with
  | zero => rfl
  | succ k ih =>
    rw [List.range_succ, List.countP_append, ih]
    by_cases hk : k % 2 = 1
    · have h1 : List.countP (fun x => x % 2 == 1) [k] = 1 := by
        simp [List.countP_cons, hk]
      rw [h1]
      omega
    · have hk0 : k % 2 = 0 := by omega
      have h1 : List.countP (fun x => x % 2 == 1) [k] = 0 := by
        simp [List.countP_cons, hk0]
      rw [h1]
      omega

theorem countP_isRoom (rows cols : Nat) (hc : 0 < cols) :
    (List.range (rows * cols)).countP (fun i => isRoom cols i)
      = (rows / 2) * (cols / 2) := by
  have h := countP_range_mul cols hc (fun r => r % 2 == 1) (fun c => c % 2 == 1) rows
  rw [countP_range_odd, countP_range_odd] at h
  exact h

theorem isRoom_iidx {cols : Nat} {p : Int × Int} (hc : 0 < cols)
    (h1 : 0 ≤ p.1) (h2 : 0 ≤ p.2) (h4 : p.2 < (cols : Int)) :
    isRoom cols (iidx cols p.1 p.2) = true ↔ p.1 % 2 = 1 ∧ p.2 % 2 = 1 := by
  obtain ⟨hd, hm⟩ := pos_div_mod hc h1 h2 h4
  have hd2 : ((iidx cols p.1 p.2 / cols : Nat) : Int) = p.1 := by
    rw [Int.ofNat_ediv]
    exact hd
  have hm2 : ((iidx cols p.1 p.2 % cols : Nat) : Int) = p.2 := by
    rw [Int.ofNat_emod]
    exact hm
  unfold isRoom
  simp only [Bool.and_eq_true, beq_iff_eq]
  omega

theorem iidx_natCast (cols r c : Nat) : iidx cols (r : Int) (c : Int) = r * cols + c := by
  unfold iidx
  have h : (r : Int) * (cols : Int) + (c : Int) = ((r * cols + c : Nat) : Int) := by
    push_cast
    ring
  rw [h, Int.toNat_ofNat]

theorem gdirs_getD_mem {kd : Nat} (h : kd < 4) : gdirs.getD kd (0, 0) ∈ gdirs := by
  match kd, h with
  | 0, _ => decide
  | 1, _ => decide
  | 2, _ => decide
  | 3, _ => decide

theorem getD_mem_of_lt {α : Type} (l : List α) (i : Nat) (d : α) (h : i < l.length) :
    l.getD i d ∈ l := by
  rw [List.getD_eq_getElem?_getD, List.getElem?_eq_getElem h]
  exact List.getElem_mem h

theorem VisP_set_one {g : Grid} {vis : List Nat} {j : Nat} {p : Int × Int}
    (h : VisP g vis p) : VisP g (vis.set j 1) p := by
  unfold VisP at h ⊢
  by_cases hj : j = iidx g.cols p.1 p.2
  · rcases Nat.lt_or_ge j vis.length with hl | hl
    · rw [← hj, getD_set_self vis j 1 0 hl]
      omega
    · rw [List.set_eq_of_length_le hl]
      exact h
  · rw [getD_set_ne vis 1 0 hj]
    exact h

theorem VisP_set_self {g : Grid} {vis : List Nat} {p : Int × Int}
    (hl : iidx g.cols p.1 p.2 < vis.length) :
    VisP g (vis.set (iidx g.cols p.1 p.2) 1) p := by
  unfold VisP
  rw [getD_set_self vis _ 1 0 hl]
  omega

theorem cells_mono_set_zero (cells : List Nat) (j : Nat) :
    ∀ i, cells.getD i 1 = 0 → (cells.set j 0).getD i 1 = 0 := by
  intro i h
  by_cases hj : j = i
  · subst hj
    rcases Nat.lt_or_ge j cells.length with hl | hl
    · rw [getD_set_self cells j 0 1 hl]
    · rw [List.set_eq_of_length_le hl]
      exact h
  · rw [getD_set_ne cells 0 1 hj]
    exact h

theorem steps_ok_mono {g : Grid} {cells' : List Nat}
    (hm : ∀ i, g.cells.getD i 1 = 0 → cells'.getD i 1 = 0) {e : Int × Int} :
    ∀ (l : List (Int × Int)) (prev : Int × Int), steps_ok g e prev l = true →
    steps_ok { g with cells := cells' } e prev l = true := by
  intro l
  induction l with
  | nil => intro prev h; exact h
  | cons x t ih =>
    intro prev h
    simp only [steps_ok, Bool.and_eq_true] at h ⊢
    refine ⟨⟨h.1.1, ?_⟩, ih x h.2⟩
    have hio := h.1.2
    unfold inside_open at hio ⊢
    simp only [Bool.and_eq_true, beq_iff_eq] at hio ⊢
    exact ⟨hio.1, hm _ hio.2⟩

theorem reaches_mono {g : Grid} {cells' : List Nat}
    (hm : ∀ i, g.cells.getD i 1 = 0 → cells'.getD i 1 = 0) {s e : Int × Int}
    (h : ReachesB g s e) : ReachesB { g with cells := cells' } s e := by
  obtain ⟨l, hl⟩ := h
  refine ⟨l, ?_⟩
  cases l with
  | nil => simp [is_path] at hl
  | cons x t =>
    simp only [is_path, Bool.and_eq_true] at hl ⊢
    exact ⟨hl.1, steps_ok_mono hm t x hl.2⟩

theorem mark_count_set_one {vis : List Nat} {j : Nat} (hj : j < vis.length)
    (h0 : vis.getD j 0 = 0) : mark_count (vis.set j 1) = mark_count vis + 1 := by
  unfold mark_count
  rw [List.length_set]
  refine @countP_range_update vis.length j
    (fun i => !(vis.getD i 0 == 0)) (fun i => !((vis.set j 1).getD i 0 == 0)) hj ?_ ?_ ?_
  · intro i hi
    show (!(vis.getD i 0 == 0)) = (!((vis.set j 1).getD i 0 == 0))
    rw [getD_set_ne vis 1 0 (fun h => hi h.symm)]
  · show (!(vis.getD j 0 == 0)) = false
    rw [h0]
    decide
  · show (!((vis.set j 1).getD j 0 == 0)) = true
    rw [getD_set_self vis j 1 0 hj]
    decide

theorem open_nonroom_set_zero {rows cols : Nat} {cells : List Nat} {j : Nat}
    (hn : j < rows * cols) (hlen : cells.length = rows * cols)
    (h1 : cells.getD j 1 ≠ 0) (hw : isRoom cols j = false) :
    open_nonroom rows cols (cells.set j 0) = open_nonroom rows cols cells + 1 := by
  unfold open_nonroom
  refine @countP_range_update (rows * cols) j
    (fun i => (cells.getD i 1 == 0) && !(isRoom cols i))
    (fun i => ((cells.set j 0).getD i 1 == 0) && !(isRoom cols i)) hn ?_ ?_ ?_
  · intro i hi
    show ((cells.getD i 1 == 0) && !(isRoom cols i))
      = (((cells.set j 0).getD i 1 == 0) && !(isRoom cols i))
    rw [getD_set_ne cells 0 1 (fun h => hi h.symm)]
  · show ((cells.getD j 1 == 0) && !(isRoom cols j)) = false
    have hb : (cells.getD j 1 == 0) = false := by
      rw [beq_eq_false_iff_ne]
      exact h1
    rw [hb]
    simp
  · show (((cells.set j 0).getD j 1 == 0) && !(isRoom cols j)) = true
    rw [getD_set_self cells j 0 1 (by omega), hw]
    decide

theorem mark_count_le_rooms {g : Grid} {vis : List Nat} (hc : 0 < g.cols)
    (hvlen : vis.length = g.rows * g.cols)
    (hvr : ∀ i, i < g.rows * g.cols → vis.getD i 0 ≠ 0 → isRoom g.cols i = true) :
    mark_count vis ≤ (g.rows / 2) * (g.cols / 2) := by
  unfold mark_count
  rw [hvlen, ← countP_isRoom g.rows g.cols hc]
  refine List.countP_mono_left ?_
  intro i hi hp
  rw [List.mem_range] at hi
  refine hvr i hi ?_
  simp only [Bool.not_eq_eq_eq_not, Bool.not_true, beq_eq_false_iff_ne, ne_eq] at hp
  exact hp

theorem insideP_mk {g : Grid} {r c : Int} (h1 : 0 ≤ r) (h2 : r < (g.rows : Int))
    (h3 : 0 ≤ c) (h4 : c < (g.cols : Int)) : insideP g (r, c) := ⟨h1, h2, h3, h4⟩

theorem gen_start_inv {g : Grid} (hlen : g.cells.length = g.rows * g.cols)
    (hr : 3 ≤ g.rows) (hc : 3 ≤ g.cols) :
    GenInv g { cells := gen_open_rooms g.rows g.cols (gen_fill_walls g.rows g.cols g.cells),
               vis := (List.replicate (g.rows * g.cols) 0).set (iidx g.cols 1 1) 1,
               stack := [(1, 1)], k := 0 } := by
  have hcpos : 0 < g.cols := by omega
  have hj11 : iidx g.cols 1 1 < g.rows * g.cols :=
    iidx_lt (by norm_num) (by omega) (by norm_num) (by omega)
  have hvget : ∀ i, ((List.replicate (g.rows * g.cols) 0).set (iidx g.cols 1 1) 1).getD i 0
      ≠ 0 → i = iidx g.cols 1 1 := by
    intro i h
    by_cases hij : iidx g.cols 1 1 = i
    · exact hij.symm
    · rw [getD_set_ne _ 1 0 hij, getD_replicate_self] at h
      exact absurd rfl h
  have hroom11 : isRoom g.cols (iidx g.cols 1 1) = true := by
    have := (@isRoom_iidx g.cols ((1 : Int), (1 : Int)) hcpos (by norm_num) (by norm_num)
      (by omega)).mpr ⟨by norm_num, by norm_num⟩
    exact this
  refine ⟨?_, ?_, ?_, ?_, ?_, ?_, ?_, ?_, ?_, ?_⟩
  · exact (cells1_length g.cells).trans hlen
  · simp
  · intro i hi hroomi
    rw [cells1_getD hcpos g.cells hlen i hi, if_pos hroomi]
  · intro i hi hne
    rw [hvget i hne]
    exact hroom11
  · intro w hw hnr hopen
    have hiw : iidx g.cols w.1 w.2 < g.rows * g.cols :=
      iidx_lt hw.1 hw.2.1 hw.2.2.1 hw.2.2.2
    rw [cells1_getD hcpos g.cells hlen _ hiw] at hopen
    by_cases hri : isRoom g.cols (iidx g.cols w.1 w.2) = true
    · exact absurd ((isRoom_iidx hcpos hw.1 hw.2.2.1 hw.2.2.2).mp hri) hnr
    · rw [if_neg hri] at hopen
      exact absurd hopen one_ne_zero
  · intro p hp
    have hp1 : p = ((1 : Int), (1 : Int)) := by
      rcases List.mem_cons.mp hp with h | h
      · exact h
      · cases h
    rw [hp1]
    refine ⟨⟨by norm_num, by norm_num, by norm_num, by omega, by norm_num, by omega⟩, ?_⟩
    exact @VisP_set_self g (List.replicate (g.rows * g.cols) 0) (1, 1)
      (by rw [List.length_replicate]; exact hj11)
  · intro p hroomp hvisp hnotin d _ _ _ _ _
    unfold VisP at hvisp
    have hpi := hvget _ hvisp
    obtain ⟨_, _, hb1, hb2, hb3, hb4⟩ := hroomp
    have h12 := @iidx_inj g.rows g.cols p.1 p.2 1 1 hcpos (by omega) (by omega)
      (by omega) (by omega) (by norm_num) (by omega) (by norm_num) (by omega) hpi
    have hps : p = ((1 : Int), (1 : Int)) := by
      rw [Prod.ext_iff]
      exact h12
    exact (hnotin (by rw [hps]; simp)).elim
  · have hopen0 : open_nonroom g.rows g.cols
        (gen_open_rooms g.rows g.cols (gen_fill_walls g.rows g.cols g.cells)) = 0 := by
      unfold open_nonroom
      rw [List.countP_eq_zero]
      intro i hi
      rw [List.mem_range] at hi
      rw [cells1_getD hcpos g.cells hlen i hi]
      by_cases hri : isRoom g.cols i = true
      · simp [hri]
      · rw [if_neg hri]
        simp
    have hm0 : mark_count (List.replicate (g.rows * g.cols) (0 : Nat)) = 0 := by
      unfold mark_count
      rw [List.countP_eq_zero]
      intro i _
      rw [getD_replicate_self]
      simp
    have hm1 := @mark_count_set_one (List.replicate (g.rows * g.cols) (0 : Nat))
      (iidx g.cols 1 1) (by simp [List.length_replicate]; omega) (getD_replicate_self _ _ _)
    rw [hopen0]
    rw [hm1, hm0]
  · intro p hp hvisp
    unfold VisP at hvisp
    have hpi := hvget _ hvisp
    have h12 := @iidx_inj g.rows g.cols p.1 p.2 1 1 hcpos hp.1 hp.2.1 hp.2.2.1 hp.2.2.2
      (by norm_num) (by omega) (by norm_num) (by omega) hpi
    have hps : p = ((1 : Int), (1 : Int)) := by
      rw [Prod.ext_iff]
      exact h12
    rw [hps]
    refine reaches_self (is_inside_insideP.mpr (insideP_mk (by norm_num) ?_ (by norm_num) ?_))
    · show (1 : Int) < (g.rows : Int)
      omega
    · show (1 : Int) < (g.cols : Int)
      omega
  · exact @VisP_set_self g (List.replicate (g.rows * g.cols) 0) (1, 1)
      (by rw [List.length_replicate]; exact hj11)

theorem gdirs_index {d : Int × Int} (hd : d ∈ gdirs) :
    ∃ i, i < 4 ∧ gdirs.getD i (0, 0) = d := by
  simp only [gdirs, List.mem_cons, List.not_mem_nil, or_false] at hd
  rcases hd with h | h | h | h
  · exact ⟨0, by omega, by rw [h]; decide⟩
  · exact ⟨1, by omega, by rw [h]; decide⟩
  · exact ⟨2, by omega, by rw [h]; decide⟩
  · exact ⟨3, by omega, by rw [h]; decide⟩

theorem inside_open_mk {g : Grid} {p : Int × Int} (h1 : insideP g p)
    (h2 : g.cells.getD (iidx g.cols p.1 p.2) 1 = 0) : inside_open g p = true := by
  unfold inside_open
  rw [Bool.and_eq_true]
  constructor
  · exact is_inside_insideP.mpr h1
  · rw [beq_iff_eq]
    exact h2

theorem gen_choices_empty {rows cols : Nat} {vis : List Nat} {r c : Int}
    (h : (gen_choices rows cols vis r c).length = 0) :
    ∀ i, i < 4 →
    ¬(0 < r + (gdirs.getD i (0, 0)).1 ∧ r + (gdirs.getD i (0, 0)).1 < (rows : Int) - 1 ∧
      0 < c + (gdirs.getD i (0, 0)).2 ∧ c + (gdirs.getD i (0, 0)).2 < (cols : Int) - 1 ∧
      vis.getD (iidx cols (r + (gdirs.getD i (0, 0)).1) (c + (gdirs.getD i (0, 0)).2)) 0
        = 0) := by
  intro i hi hcontra
  have hnil : gen_choices rows cols vis r c = [] := List.length_eq_zero.mp h
  have hmem : i ∈ gen_choices rows cols vis r c := by
    unfold gen_choices
    rw [List.mem_filter]
    refine ⟨List.mem_range.mpr hi, ?_⟩
    show (decide (0 < r + (gdirs.getD i (0, 0)).1) &&
      decide (r + (gdirs.getD i (0, 0)).1 < (rows : Int) - 1) &&
      decide (0 < c + (gdirs.getD i (0, 0)).2) &&
      decide (c + (gdirs.getD i (0, 0)).2 < (cols : Int) - 1) &&
      (vis.getD (iidx cols (r + (gdirs.getD i (0, 0)).1) (c + (gdirs.getD i (0, 0)).2)) 0
        == 0)) = true
    obtain ⟨h1, h2, h3, h4, h5⟩ := hcontra
    simp only [Bool.and_eq_true, decide_eq_true_eq, beq_iff_eq]
    exact ⟨⟨⟨⟨h1, h2⟩, h3⟩, h4⟩, h5⟩
  rw [hnil] at hmem
  cases hmem

theorem gen_choices_mem {rows cols : Nat} {vis : List Nat} {r c : Int} {i : Nat}
    (h : i ∈ gen_choices rows cols vis r c) :
    i < 4 ∧ 0 < r + (gdirs.getD i (0, 0)).1 ∧
    r + (gdirs.getD i (0, 0)).1 < (rows : Int) - 1 ∧
    0 < c + (gdirs.getD i (0, 0)).2 ∧ c + (gdirs.getD i (0, 0)).2 < (cols : Int) - 1 ∧
    vis.getD (iidx cols (r + (gdirs.getD i (0, 0)).1) (c + (gdirs.getD i (0, 0)).2)) 0
      = 0 := by
  unfold gen_choices at h
  rw [List.mem_filter] at h
  obtain ⟨hr4, hp⟩ := h
  have hp2 : (decide (0 < r + (gdirs.getD i (0, 0)).1) &&
      decide (r + (gdirs.getD i (0, 0)).1 < (rows : Int) - 1) &&
      decide (0 < c + (gdirs.getD i (0, 0)).2) &&
      decide (c + (gdirs.getD i (0, 0)).2 < (cols : Int) - 1) &&
      (vis.getD (iidx cols (r + (gdirs.getD i (0, 0)).1) (c + (gdirs.getD i (0, 0)).2)) 0
        == 0)) = true := hp
  simp only [Bool.and_eq_true, decide_eq_true_eq, beq_iff_eq] at hp2
  exact ⟨List.mem_range.mp hr4, hp2.1.1.1.1, hp2.1.1.1.2, hp2.1.1.2, hp2.1.2, hp2.2⟩

theorem VisP_congr {g : Grid} {vis : List Nat} {p q : Int × Int} (h1 : p.1 = q.1)
    (h2 : p.2 = q.2) (h : VisP g vis p) : VisP g vis q := by
  unfold VisP at h ⊢
  rw [← h1, ← h2]
  exact h

theorem gen_step_inv {g : Grid} {rnd : Nat → Nat} {st : GenState}
    (hr : 3 ≤ g.rows) (hc : 3 ≤ g.cols)
    (inv : GenInv g st) (hne : st.stack ≠ []) :
    GenInv g (gen_step g.rows g.cols rnd st) ∧
    gen_meas g (gen_step g.rows g.cols rnd st) < gen_meas g st := by
  have hcpos : 0 < g.cols := by omega
  obtain ⟨cells, vis, stack, k⟩ := st
  cases stack with
  | nil => exact absurd rfl hne
  | cons cur rest =>
    have hclen : cells.length = g.rows * g.cols := inv.clen
    have hvlen : vis.length = g.rows * g.cols := inv.vlen
    obtain ⟨hcur_room, hcur_vis⟩ := inv.stack_mem cur (by simp)
    obtain ⟨hcp1, hcp2, hcb1, hcb2, hcb3, hcb4⟩ := hcur_room
    by_cases hcs : (gen_choices g.rows g.cols vis cur.1 cur.2).length = 0
    · -- pop branch
      have hstep : gen_step g.rows g.cols rnd ⟨cells, vis, cur :: rest, k⟩
          = ⟨cells, vis, rest, k⟩ := by
        simp only [gen_step]
        rw [if_neg (fun hx => hx hcs)]
      rw [hstep]
      refine ⟨⟨inv.clen, inv.vlen, inv.rooms_open, inv.vis_room, inv.wall_ends,
        ?_, ?_, inv.count, inv.reach, inv.vis11⟩, ?_⟩
      · intro p hp
        exact inv.stack_mem p (List.mem_cons_of_mem cur hp)
      · intro p hroomp hvisp hnotin d hd hb1 hb2 hb3 hb4
        by_cases hpc : p = cur
        · obtain ⟨i, hi4, hgd⟩ := gdirs_index hd
          have hemp := gen_choices_empty hcs i hi4
          rw [hgd] at hemp
          subst hpc
          unfold VisP
          intro h0
          exact hemp ⟨hb1, hb2, hb3, hb4, h0⟩
        · refine inv.pop_closed p hroomp hvisp ?_ d hd hb1 hb2 hb3 hb4
          intro hmem
          rcases List.mem_cons.mp hmem with h1 | h1
          · exact hpc h1
          · exact hnotin h1
      · show 2 * ((g.rows / 2) * (g.cols / 2) - mark_count vis) + rest.length
          < 2 * ((g.rows / 2) * (g.cols / 2) - mark_count vis) + (cur :: rest).length
        simp only [List.length_cons]
        omega
    · -- carve branch
      set cs := gen_choices g.rows g.cols vis cur.1 cur.2 with hcsdef
      set pick := cs.getD (rnd k % cs.length) 0 with hpickdef
      have hpickmem : pick ∈ cs := getD_mem_of_lt cs _ 0 (Nat.mod_lt _ (by omega))
      obtain ⟨hpick4, hg1, hg2, hg3, hg4, hg5⟩ := gen_choices_mem hpickmem
      set d := gdirs.getD pick (0, 0) with hddef
      have hdmem : d ∈ gdirs := gdirs_getD_mem hpick4
      have hdd : (d.1 = -2 ∧ d.2 = 0) ∨ (d.1 = 2 ∧ d.2 = 0) ∨
          (d.1 = 0 ∧ d.2 = -2) ∨ (d.1 = 0 ∧ d.2 = 2) := by
        simp only [gdirs, List.mem_cons, List.not_mem_nil, or_false] at hdmem
        rcases hdmem with h | h | h | h <;> rw [h] <;> simp
      set nr := cur.1 + d.1 with hnrdef
      set nc := cur.2 + d.2 with hncdef
      set wr := cur.1 + d.1 / 2 with hwrdef
      set wc := cur.2 + d.2 / 2 with hwcdef
      have hhalf : d.1 / 2 + d.1 / 2 = d.1 ∧ d.2 / 2 + d.2 / 2 = d.2 := by
        rcases hdd with ⟨h1, h2⟩ | ⟨h1, h2⟩ | ⟨h1, h2⟩ | ⟨h1, h2⟩ <;> rw [h1, h2] <;> decide
      have hhalf_mem : (d.1 / 2, d.2 / 2) ∈ nbrs4 := by
        rcases hdd with ⟨h1, h2⟩ | ⟨h1, h2⟩ | ⟨h1, h2⟩ | ⟨h1, h2⟩ <;> rw [h1, h2] <;> decide
      have hWb : 1 ≤ wr ∧ wr ≤ (g.rows : Int) - 2 ∧ 1 ≤ wc ∧ wc ≤ (g.cols : Int) - 2 ∧
          nr % 2 = 1 ∧ nc % 2 = 1 ∧
          ((wr % 2 = 0 ∧ wc % 2 = 1) ∨ (wr % 2 = 1 ∧ wc % 2 = 0)) := by
        rcases hdd with ⟨h1, h2⟩ | ⟨h1, h2⟩ | ⟨h1, h2⟩ | ⟨h1, h2⟩ <;> omega
      obtain ⟨hwb1, hwb2, hwb3, hwb4, hnodd1, hnodd2, hwpar⟩ := hWb
      have hinsW : insideP g (wr, wc) :=
        insideP_mk (by omega) (by omega) (by omega) (by omega)
      have hinsN : insideP g (nr, nc) :=
        insideP_mk (by omega) (by omega) (by omega) (by omega)
      have hjw : iidx g.cols wr wc < g.rows * g.cols :=
        @iidx_lt g.rows g.cols wr wc (by omega) (by omega) (by omega) (by omega)
      have hjn : iidx g.cols nr nc < g.rows * g.cols :=
        @iidx_lt g.rows g.cols nr nc (by omega) (by omega) (by omega) (by omega)
      have hroomN : isRoom g.cols (iidx g.cols nr nc) = true :=
        (@isRoom_iidx g.cols (nr, nc) hcpos (show (0 : Int) ≤ nr by omega)
          (show (0 : Int) ≤ nc by omega) (show nc < (g.cols : Int) by omega)).mpr
          ⟨hnodd1, hnodd2⟩
      have hroomW : isRoom g.cols (iidx g.cols wr wc) = false := by
        cases hb : isRoom g.cols (iidx g.cols wr wc) with
        | false => rfl
        | true =>
          have h2 : wr % 2 = 1 ∧ wc % 2 = 1 :=
            (@isRoom_iidx g.cols (wr, wc) hcpos (show (0 : Int) ≤ wr by omega)
              (show (0 : Int) ≤ wc by omega) (show wc < (g.cols : Int) by omega)).mp hb
          rcases hwpar with ⟨hp1, _⟩ | ⟨_, hp2⟩ <;> omega
      have hjwn : iidx g.cols wr wc ≠ iidx g.cols nr nc := by
        intro he
        rw [he, hroomN] at hroomW
        exact Bool.noConfusion hroomW
      have hclosed : cells.getD (iidx g.cols wr wc) 1 ≠ 0 := by
        intro h0
        have hwe := inv.wall_ends (wr, wc) hinsW
          (show ¬(wr % 2 = 1 ∧ wc % 2 = 1) by
            rcases hwpar with ⟨hp1, _⟩ | ⟨_, hp2⟩ <;> omega) h0
        rcases hwe with ⟨hp1, hp2, _, _, _, _, hv1, hv2⟩ | ⟨hp1, hp2, _, _, _, _, hv1, hv2⟩
        · rcases hdd with ⟨h1, h2⟩ | ⟨h1, h2⟩ | ⟨h1, h2⟩ | ⟨h1, h2⟩
          · have hvq : VisP g vis (nr, nc) :=
              VisP_congr (show wr - 1 = nr by omega) (show wc = nc by omega) hv1
            exact hvq hg5
          · have hvq : VisP g vis (nr, nc) :=
              VisP_congr (show wr + 1 = nr by omega) (show wc = nc by omega) hv2
            exact hvq hg5
          · have hx : wr % 2 = 0 := hp1
            omega
          · have hx : wr % 2 = 0 := hp1
            omega
        · rcases hdd with ⟨h1, h2⟩ | ⟨h1, h2⟩ | ⟨h1, h2⟩ | ⟨h1, h2⟩
          · have hx : wc % 2 = 0 := hp2
            omega
          · have hx : wc % 2 = 0 := hp2
            omega
          · have hvq : VisP g vis (nr, nc) :=
              VisP_congr (show wr = nr by omega) (show wc - 1 = nc by omega) hv1
            exact hvq hg5
          · have hvq : VisP g vis (nr, nc) :=
              VisP_congr (show wr = nr by omega) (show wc + 1 = nc by omega) hv2
            exact hvq hg5
      have hstep : gen_step g.rows g.cols rnd ⟨cells, vis, cur :: rest, k⟩
          = ⟨cells.set (iidx g.cols wr wc) 0, vis.set (iidx g.cols nr nc) 1,
             (nr, nc) :: cur :: rest, k + 1⟩ := by
        simp only [gen_step]
        rw [if_pos hcs]
      rw [hstep]
      have hcount_new : open_nonroom g.rows g.cols (cells.set (iidx g.cols wr wc) 0)
          = open_nonroom g.rows g.cols cells + 1 :=
        open_nonroom_set_zero hjw hclen hclosed hroomW
      have hmark_new : mark_count (vis.set (iidx g.cols nr nc) 1) = mark_count vis + 1 :=
        mark_count_set_one (by rw [hvlen]; exact hjn) hg5
      have hvis_room_new : ∀ i, i < g.rows * g.cols →
          (vis.set (iidx g.cols nr nc) 1).getD i 0 ≠ 0 → isRoom g.cols i = true := by
        intro i hi hne2
        by_cases hij : iidx g.cols nr nc = i
        · rw [← hij]
          exact hroomN
        · rw [getD_set_ne vis 1 0 hij] at hne2
          exact inv.vis_room i hi hne2
      refine ⟨⟨?_, ?_, ?_, hvis_room_new, ?_, ?_, ?_, ?_, ?_, ?_⟩, ?_⟩
      · show (cells.set (iidx g.cols wr wc) 0).length = g.rows * g.cols
        rw [List.length_set]
        exact hclen
      · show (vis.set (iidx g.cols nr nc) 1).length = g.rows * g.cols
        rw [List.length_set]
        exact hvlen
      · -- rooms stay open
        intro i hi hri
        by_cases hij : iidx g.cols wr wc = i
        · rw [← hij]
          exact getD_set_self cells _ 0 1 (by omega)
        · rw [getD_set_ne cells 0 1 hij]
          exact inv.rooms_open i hi hri
      · -- wall_ends
        intro w hw hnrm hopen2
        by_cases hij : iidx g.cols w.1 w.2 = iidx g.cols wr wc
        · obtain ⟨hw1, hw2⟩ := @iidx_inj g.rows g.cols w.1 w.2 wr wc hcpos
            hw.1 hw.2.1 hw.2.2.1 hw.2.2.2 (show (0 : Int) ≤ wr by omega)
            (show wr < (g.rows : Int) by omega) (show (0 : Int) ≤ wc by omega)
            (show wc < (g.cols : Int) by omega) hij
          rcases hdd with ⟨h1, h2⟩ | ⟨h1, h2⟩ | ⟨h1, h2⟩ | ⟨h1, h2⟩
          · left
            refine ⟨by omega, by omega, by omega, by omega, by omega, by omega, ?_, ?_⟩
            · exact VisP_congr (show nr = w.1 - 1 by omega) (show nc = w.2 by omega)
                (@VisP_set_self g vis (nr, nc) (by rw [hvlen]; exact hjn))
            · exact VisP_congr (show cur.1 = w.1 + 1 by omega) (show cur.2 = w.2 by omega)
                (VisP_set_one hcur_vis)
          · left
            refine ⟨by omega, by omega, by omega, by omega, by omega, by omega, ?_, ?_⟩
            · exact VisP_congr (show cur.1 = w.1 - 1 by omega) (show cur.2 = w.2 by omega)
                (VisP_set_one hcur_vis)
            · exact VisP_congr (show nr = w.1 + 1 by omega) (show nc = w.2 by omega)
                (@VisP_set_self g vis (nr, nc) (by rw [hvlen]; exact hjn))
          · right
            refine ⟨by omega, by omega, by omega, by omega, by omega, by omega, ?_, ?_⟩
            · exact VisP_congr (show nr = w.1 by omega) (show nc = w.2 - 1 by omega)
                (@VisP_set_self g vis (nr, nc) (by rw [hvlen]; exact hjn))
            · exact VisP_congr (show cur.1 = w.1 by omega) (show cur.2 = w.2 + 1 by omega)
                (VisP_set_one hcur_vis)
          · right
            refine ⟨by omega, by omega, by omega, by omega, by omega, by omega, ?_, ?_⟩
            · exact VisP_congr (show cur.1 = w.1 by omega) (show cur.2 = w.2 - 1 by omega)
                (VisP_set_one hcur_vis)
            · exact VisP_congr (show nr = w.1 by omega) (show nc = w.2 + 1 by omega)
                (@VisP_set_self g vis (nr, nc) (by rw [hvlen]; exact hjn))
        · have hopen3 : cells.getD (iidx g.cols w.1 w.2) 1 = 0 := by
            have hx : (cells.set (iidx g.cols wr wc) 0).getD (iidx g.cols w.1 w.2) 1 = 0 :=
              hopen2
            rwa [getD_set_ne cells 0 1 (fun he => hij he.symm)] at hx
          rcases inv.wall_ends w hw hnrm hopen3 with
            ⟨a1, a2, a3, a4, a5, a6, hv1, hv2⟩ | ⟨a1, a2, a3, a4, a5, a6, hv1, hv2⟩
          · exact Or.inl ⟨a1, a2, a3, a4, a5, a6, VisP_set_one hv1, VisP_set_one hv2⟩
          · exact Or.inr ⟨a1, a2, a3, a4, a5, a6, VisP_set_one hv1, VisP_set_one hv2⟩
      · -- stack_mem
        intro p hp
        rcases List.mem_cons.mp hp with h | h
        · rw [h]
          refine ⟨⟨hnodd1, hnodd2, hg1, hg2, hg3, hg4⟩, ?_⟩
          exact @VisP_set_self g vis (nr, nc) (by rw [hvlen]; exact hjn)
        · obtain ⟨hr1, hr2⟩ := inv.stack_mem p h
          exact ⟨hr1, VisP_set_one hr2⟩
      · -- pop_closed
        intro p hroomp hvisp hnotin d2 hd2 hb1 hb2 hb3 hb4
        have hpold : p ∉ cur :: rest := fun hmem =>
          hnotin (List.mem_cons_of_mem _ hmem)
        have hpne : p ≠ (nr, nc) := fun he => hnotin (by rw [he]; simp)
        obtain ⟨hq1, hq2, hqb1, hqb2, hqb3, hqb4⟩ := hroomp
        have hidxne : iidx g.cols nr nc ≠ iidx g.cols p.1 p.2 := by
          intro he
          have h12 := @iidx_inj g.rows g.cols nr nc p.1 p.2 hcpos (by omega) (by omega)
            (by omega) (by omega) (by omega) (by omega) (by omega) (by omega) he
          refine hpne ?_
          rw [Prod.ext_iff]
          exact ⟨h12.1.symm, h12.2.symm⟩
        have hvisp2 : VisP g vis p := by
          unfold VisP at hvisp ⊢
          rwa [getD_set_ne vis 1 0 hidxne] at hvisp
        exact VisP_set_one (inv.pop_closed p ⟨hq1, hq2, hqb1, hqb2, hqb3, hqb4⟩ hvisp2
          hpold d2 hd2 hb1 hb2 hb3 hb4)
      · -- count
        show open_nonroom g.rows g.cols (cells.set (iidx g.cols wr wc) 0) + 1
          = mark_count (vis.set (iidx g.cols nr nc) 1)
        have hcnt : open_nonroom g.rows g.cols cells + 1 = mark_count vis := inv.count
        rw [hcount_new, hmark_new]
        omega
      · -- reach
        intro p hp hvisp
        by_cases hij : iidx g.cols p.1 p.2 = iidx g.cols nr nc
        · have hpe := @iidx_inj g.rows g.cols p.1 p.2 nr nc hcpos hp.1 hp.2.1 hp.2.2.1
            hp.2.2.2 (by omega) (by omega) (by omega) (by omega) hij
          have hreach0 : ReachesB { g with cells := cells } (1, 1) cur :=
            inv.reach cur ⟨by omega, by omega, by omega, by omega⟩ hcur_vis
          have hreach1 := @reaches_mono { g with cells := cells }
            (cells.set (iidx g.cols wr wc) 0)
            (cells_mono_set_zero cells (iidx g.cols wr wc)) (1, 1) cur hreach0
          have hadj1 : adjB cur (wr, wc) = true :=
            @adjB_of_dir cur.1 cur.2 (d.1 / 2, d.2 / 2) hhalf_mem
          have hio1 : inside_open { g with cells := cells.set (iidx g.cols wr wc) 0 }
              (wr, wc) = true := by
            refine inside_open_mk ⟨by omega, ?_, by omega, ?_⟩ ?_
            · show wr < (g.rows : Int)
              omega
            · show wc < (g.cols : Int)
              omega
            · show (cells.set (iidx g.cols wr wc) 0).getD (iidx g.cols wr wc) 1 = 0
              exact getD_set_self cells _ 0 1 (by omega)
          have hreach2 := reaches_snoc hreach1 hadj1 hio1
          have hadj2 : adjB (wr, wc) (nr, nc) = true := by
            unfold adjB
            rw [decide_eq_true_eq]
            have hx : ((nr, nc).1 - (wr, wc).1, (nr, nc).2 - (wr, wc).2)
                = ((d.1 / 2 : Int), (d.2 / 2 : Int)) := by
              rw [Prod.ext_iff]
              exact ⟨show nr - wr = d.1 / 2 by omega, show nc - wc = d.2 / 2 by omega⟩
            rw [hx]
            exact hhalf_mem
          have hio2 : inside_open { g with cells := cells.set (iidx g.cols wr wc) 0 }
              (nr, nc) = true := by
            refine inside_open_mk ⟨by omega, ?_, by omega, ?_⟩ ?_
            · show nr < (g.rows : Int)
              omega
            · show nc < (g.cols : Int)
              omega
            · show (cells.set (iidx g.cols wr wc) 0).getD (iidx g.cols nr nc) 1 = 0
              rw [getD_set_ne cells 0 1 hjwn]
              exact inv.rooms_open _ hjn hroomN
          have hreach3 := reaches_snoc hreach2 hadj2 hio2
          have hpp : p = (nr, nc) := by
            rw [Prod.ext_iff]
            exact hpe
          rw [hpp]
          exact hreach3
        · have hvisp2 : VisP g vis p := by
            unfold VisP at hvisp ⊢
            rwa [getD_set_ne vis 1 0 (fun he => hij he.symm)] at hvisp
          exact @reaches_mono { g with cells := cells } (cells.set (iidx g.cols wr wc) 0)
            (cells_mono_set_zero cells (iidx g.cols wr wc)) (1, 1) p
            (inv.reach p hp hvisp2)
      · exact VisP_set_one inv.vis11
      · -- measure
        show 2 * ((g.rows / 2) * (g.cols / 2) - mark_count (vis.set (iidx g.cols nr nc) 1))
            + ((nr, nc) :: cur :: rest).length
          < 2 * ((g.rows / 2) * (g.cols / 2) - mark_count vis) + (cur :: rest).length
        have hmle : mark_count (vis.set (iidx g.cols nr nc) 1)
            ≤ (g.rows / 2) * (g.cols / 2) :=
          mark_count_le_rooms hcpos (by rw [List.length_set]; exact hvlen) hvis_room_new
        rw [hmark_new] at hmle ⊢
        simp only [List.length_cons]
        omega

theorem bool_eq_of_iff {a b : Bool} (h : a = true ↔ b = true) : a = b := by
  cases a <;> cases b <;> simp_all

theorem gen_run_inv {g : Grid} {rnd : Nat → Nat} (hr : 3 ≤ g.rows) (hc : 3 ≤ g.cols) :
    ∀ (f : Nat) (st : GenState), GenInv g st → gen_meas g st < f →
    (gen_run g.rows g.cols rnd f st).2 = true ∧
    GenInv g (gen_run g.rows g.cols rnd f st).1 ∧
    (gen_run g.rows g.cols rnd f st).1.stack = [] := by
  intro f
  induction f with
  | zero => intro st _ h; omega
  | succ f ih =>
    intro st inv hm
    have hrs : gen_run g.rows g.cols rnd (f + 1) st =
        if st.stack.isEmpty then (st, true)
        else gen_run g.rows g.cols rnd f (gen_step g.rows g.cols rnd st) := rfl
    rw [hrs]
    by_cases hemp : st.stack.isEmpty = true
    · rw [if_pos hemp]
      exact ⟨rfl, inv, List.isEmpty_iff.mp hemp⟩
    · rw [if_neg hemp]
      have hne : st.stack ≠ [] := fun h => hemp (by rw [h]; rfl)
      obtain ⟨inv2, hlt⟩ := @gen_step_inv g rnd st hr hc inv hne
      exact ih (gen_step g.rows g.cols rnd st) inv2 (by omega)

theorem gen_all_visited {g : Grid} {st : GenState}
    (hrodd : g.rows % 2 = 1) (hcodd : g.cols % 2 = 1)
    (hr : 3 ≤ g.rows) (hc : 3 ≤ g.cols)
    (inv : GenInv g st) (hemp : st.stack = []) :
    ∀ r c : Int, 0 ≤ r → r < (g.rows : Int) → 0 ≤ c → c < (g.cols : Int) →
    r % 2 = 1 → c % 2 = 1 → VisP g st.vis (r, c) := by
  have key : ∀ m : Nat, ∀ r c : Int, 0 ≤ r → r < (g.rows : Int) → 0 ≤ c →
      c < (g.cols : Int) → r % 2 = 1 → c % 2 = 1 → r + c = (m : Int) →
      VisP g st.vis (r, c) := by
    intro m
    induction m using Nat.strong_induction_on with
    | _ m ih =>
      intro r c hr0 hr1 hc0 hc1 hro hco hsum
      by_cases hbase : r = 1 ∧ c = 1
      · obtain ⟨h1, h2⟩ := hbase
        rw [h1, h2]
        exact inv.vis11
      · by_cases hr3 : 3 ≤ r
        · have hvis' := ih (m - 2) (by omega) (r - 2) c (by omega) (by omega) hc0 hc1
            (by omega) hco (by omega)
          have hroomp : RoomP g (r - 2, c) :=
            ⟨by omega, by omega, by omega, by omega, by omega, by omega⟩
          have h2 := inv.pop_closed (r - 2, c) hroomp hvis' (by rw [hemp]; simp)
            (2, 0) (by decide) (show (0 : Int) < r - 2 + 2 by omega)
            (show r - 2 + 2 < (g.rows : Int) - 1 by omega)
            (show (0 : Int) < c + 0 by omega)
            (show c + 0 < (g.cols : Int) - 1 by omega)
          exact VisP_congr (show r - 2 + 2 = r by omega) (show c + 0 = c by omega) h2
        · have hc3 : 3 ≤ c := by
            have hcne : c ≠ 1 := fun h => hbase ⟨by omega, h⟩
            omega
          have hvis' := ih (m - 2) (by omega) r (c - 2) hr0 hr1 (by omega) (by omega)
            hro (by omega) (by omega)
          have hroomp : RoomP g (r, c - 2) :=
            ⟨by omega, by omega, by omega, by omega, by omega, by omega⟩
          have h2 := inv.pop_closed (r, c - 2) hroomp hvis' (by rw [hemp]; simp)
            (0, 2) (by decide) (show (0 : Int) < r + 0 by omega)
            (show r + 0 < (g.rows : Int) - 1 by omega)
            (show (0 : Int) < c - 2 + 2 by omega)
            (show c - 2 + 2 < (g.cols : Int) - 1 by omega)
          exact VisP_congr (show r + 0 = r by omega) (show c - 2 + 2 = c by omega) h2
  intro r c hr0 hr1 hc0 hc1 hro hco
  exact key (r + c).toNat r c hr0 hr1 hc0 hc1 hro hco (by omega)

theorem gen_final_count {g : Grid} {st : GenState}
    (hrodd : g.rows % 2 = 1) (hcodd : g.cols % 2 = 1)
    (hr : 3 ≤ g.rows) (hc : 3 ≤ g.cols)
    (inv : GenInv g st) (hemp : st.stack = []) :
    mark_count st.vis = (g.rows / 2) * (g.cols / 2) := by
  have hcpos : 0 < g.cols := by omega
  unfold mark_count
  rw [inv.vlen, ← countP_isRoom g.rows g.cols hcpos]
  refine countP_range_congr ?_
  intro i hi
  refine bool_eq_of_iff ?_
  constructor
  · intro hp
    have hne : st.vis.getD i 0 ≠ 0 := by
      simp only [Bool.not_eq_eq_eq_not, Bool.not_true, beq_eq_false_iff_ne, ne_eq] at hp
      exact hp
    exact inv.vis_room i hi hne
  · intro hroom
    obtain ⟨hins, hiidx⟩ := index_pos hcpos hi
    unfold isRoom at hroom
    simp only [Bool.and_eq_true, beq_iff_eq] at hroom
    have hd2 : ((i / g.cols : Nat) : Int) = (i : Int) / (g.cols : Int) := Int.ofNat_ediv i g.cols
    have hm2 : ((i % g.cols : Nat) : Int) = (i : Int) % (g.cols : Int) := Int.ofNat_emod i g.cols
    have hvis := gen_all_visited hrodd hcodd hr hc inv hemp
      ((i : Int) / (g.cols : Int)) ((i : Int) % (g.cols : Int))
      hins.1 hins.2.1 hins.2.2.1 hins.2.2.2 (by omega) (by omega)
    unfold VisP at hvis
    have hvis2 : st.vis.getD i 0 ≠ 0 := by
      have hx : iidx g.cols ((i : Int) / (g.cols : Int)) ((i : Int) % (g.cols : Int)) = i :=
        hiidx
      rwa [hx] at hvis
    simp only [Bool.not_eq_eq_eq_not, Bool.not_true, beq_eq_false_iff_ne, ne_eq]
    exact hvis2

/-- C3: on a grid with odd dimensions at least 11, generate_maze carves a
spanning tree of the rooms: the carving loop runs to completion, every
odd-odd room cell is open and reachable from (1,1) over open cells, and the
number of opened wall-position cells is exactly the number of rooms minus
one. -/
theorem generator_spanning_tree {g : Grid} {rnd : Nat → Nat}
    (hrodd : g.rows % 2 = 1) (hcodd : g.cols % 2 = 1)
    (hr11 : 11 ≤ g.rows) (hc11 : 11 ≤ g.cols)
    (hlen : g.cells.length = g.rows * g.cols) :
    (generate_maze g rnd).2 = true ∧
    (∀ r c : Int, 0 ≤ r → r < (g.rows : Int) → 0 ≤ c → c < (g.cols : Int) →
      r % 2 = 1 → c % 2 = 1 →
      grid_get (generate_maze g rnd).1 r c = 0 ∧
      ReachesB (generate_maze g rnd).1 (1, 1) (r, c)) ∧
    open_wall_cells (generate_maze g rnd).1 + 1 = (g.rows / 2) * (g.cols / 2) := by
  have hr : 3 ≤ g.rows := by omega
  have hc : 3 ≤ g.cols := by omega
  have hcpos : 0 < g.cols := by omega
  have hj11 : iidx g.cols 1 1 < g.rows * g.cols :=
    iidx_lt (by norm_num) (by omega) (by norm_num) (by omega)
  have inv0 := gen_start_inv hlen hr hc
  have hm0 : mark_count (List.replicate (g.rows * g.cols) (0 : Nat)) = 0 := by
    unfold mark_count
    rw [List.countP_eq_zero]
    intro i _
    rw [getD_replicate_self]
    simp
  have hm1 : mark_count ((List.replicate (g.rows * g.cols) 0).set (iidx g.cols 1 1) 1)
      = 1 := by
    rw [mark_count_set_one (by rw [List.length_replicate]; exact hj11)
      (getD_replicate_self _ _ _), hm0]
  have hRle : (g.rows / 2) * (g.cols / 2) ≤ g.rows * g.cols :=
    Nat.mul_le_mul (Nat.div_le_self _ _) (Nat.div_le_self _ _)
  have hmeas : gen_meas g
      { cells := gen_open_rooms g.rows g.cols (gen_fill_walls g.rows g.cols g.cells),
        vis := (List.replicate (g.rows * g.cols) 0).set (iidx g.cols 1 1) 1,
        stack := [(1, 1)], k := 0 } < 2 * g.rows * g.cols + 1 := by
    show 2 * ((g.rows / 2) * (g.cols / 2)
      - mark_count ((List.replicate (g.rows * g.cols) 0).set (iidx g.cols 1 1) 1))
      + [((1 : Int), (1 : Int))].length < 2 * g.rows * g.cols + 1
    rw [hm1]
    simp only [List.length_cons, List.length_nil]
    have h2 : 2 * g.rows * g.cols = 2 * (g.rows * g.cols) := by ring
    omega
  obtain ⟨hhalt, invF, hempF⟩ := @gen_run_inv g rnd hr hc (2 * g.rows * g.cols + 1)
    { cells := gen_open_rooms g.rows g.cols (gen_fill_walls g.rows g.cols g.cells),
      vis := (List.replicate (g.rows * g.cols) 0).set (iidx g.cols 1 1) 1,
      stack := [(1, 1)], k := 0 } inv0 hmeas
  refine ⟨hhalt, ?_, ?_⟩
  · intro r c hr0 hr1 hc0 hc1 hro hco
    have hins : insideP g (r, c) := insideP_mk hr0 hr1 hc0 hc1
    have hirc : iidx g.cols r c < g.rows * g.cols := iidx_lt hr0 hr1 hc0 hc1
    have hroomi : isRoom g.cols (iidx g.cols r c) = true :=
      (@isRoom_iidx g.cols (r, c) hcpos hr0 hc0 hc1).mpr ⟨hro, hco⟩
    constructor
    · exact invF.rooms_open (iidx g.cols r c) hirc hroomi
    · have hvis := gen_all_visited hrodd hcodd hr hc invF hempF r c hr0 hr1 hc0 hc1 hro hco
      exact invF.reach (r, c) hins hvis
  · have hmkR := gen_final_count hrodd hcodd hr hc invF hempF
    have hcnt := invF.count
    have hocc : open_wall_cells (generate_maze g rnd).1
        = open_nonroom g.rows g.cols
          (gen_run g.rows g.cols rnd (2 * g.rows * g.cols + 1)
            { cells := gen_open_rooms g.rows g.cols (gen_fill_walls g.rows g.cols g.cells),
              vis := (List.replicate (g.rows * g.cols) 0).set (iidx g.cols 1 1) 1,
              stack := [(1, 1)], k := 0 }).1.cells := by
      unfold open_wall_cells open_nonroom
      rw [List.countP_eq_length_filter]
      rfl
    rw [hocc]
    omega

theorem generator_spanning_tree_witness :
    (generate_maze ⟨11, 11, List.replicate 121 1, List.replicate 121 0⟩
      (fun _ => 0)).2 = true ∧
    (∀ r c : Int, 0 ≤ r → r < ((11 : Nat) : Int) → 0 ≤ c → c < ((11 : Nat) : Int) →
      r % 2 = 1 → c % 2 = 1 →
      grid_get (generate_maze ⟨11, 11, List.replicate 121 1, List.replicate 121 0⟩
        (fun _ => 0)).1 r c = 0 ∧
      ReachesB (generate_maze ⟨11, 11, List.replicate 121 1, List.replicate 121 0⟩
        (fun _ => 0)).1 (1, 1) (r, c)) ∧
    open_wall_cells (generate_maze ⟨11, 11, List.replicate 121 1, List.replicate 121 0⟩
      (fun _ => 0)).1 + 1 = (11 / 2) * (11 / 2) :=
  generator_spanning_tree (by decide) (by decide) (by decide) (by decide) (by decide)

theorem QueueInv_unique {q : Queue} {l1 l2 : List (Int × Int)}
    (h1 : QueueInv q l1) (h2 : QueueInv q l2) : l1 = l2 := by
  obtain ⟨_, _, _, _, hs1, _, hc1⟩ := h1
  obtain ⟨_, _, _, _, hs2, _, hc2⟩ := h2
  have hlen : l1.length = l2.length := by omega
  apply List.ext_getElem hlen
  intro i hi1 hi2
  have e1 := hc1 i hi1
  have e2 := hc2 i hi2
  rw [e1] at e2
  have g1 : l1.getD i (0, 0) = l1[i] := by
    rw [List.getD_eq_getElem?_getD, List.getElem?_eq_getElem hi1]
    rfl
  have g2 : l2.getD i (0, 0) = l2[i] := by
    rw [List.getD_eq_getElem?_getD, List.getElem?_eq_getElem hi2]
    rfl
  rw [← g1, ← g2]
  exact e2

theorem pairwise_of_all {α : Type} {R : α → α → Prop} :
    ∀ {l : List α}, (∀ a ∈ l, ∀ b ∈ l, R a b) → List.Pairwise R l := by
  intro l
  induction l with
  | nil => exact fun _ => List.Pairwise.nil
  | cons a t ih =>
    intro h
    refine List.Pairwise.cons ?_ (ih ?_)
    · intro b hb
      exact h a (by simp) b (by simp [hb])
    · intro x hx y hy
      exact h x (by simp [hx]) y (by simp [hy])

theorem nbrs4_index {d : Int × Int} (hd : d ∈ nbrs4) :
    ∃ i, i < 4 ∧ nbrs4.getD i (0, 0) = d := by
  simp only [nbrs4, List.mem_cons, List.not_mem_nil, or_false] at hd
  rcases hd with h | h | h | h
  · exact ⟨0, by omega, by rw [h]; decide⟩
  · exact ⟨1, by omega, by rw [h]; decide⟩
  · exact ⟨2, by omega, by rw [h]; decide⟩
  · exact ⟨3, by omega, by rw [h]; decide⟩

theorem bfs_start_btree {g : Grid} {sr sc : Int} (hs : insideP g (sr, sc)) :
    BTree g (sr, sc) (bfs_start g sr sc).parent (fun _ => 0) := by
  have hcpos : 0 < g.cols := by
    have := hs.2.2.2
    have := hs.2.2.1
    omega
  set n := g.rows * g.cols
  have hsl : iidx g.cols sr sc < n := iidx_lt hs.1 hs.2.1 hs.2.2.1 hs.2.2.2
  have hpar : (bfs_start g sr sc).parent = (List.replicate n (-1 : Int)).set
      (iidx g.cols sr sc) (-2) := rfl
  have hpget : ∀ i, i < n → (bfs_start g sr sc).parent.getD i (-1) =
      if i = iidx g.cols sr sc then -2 else -1 := by
    intro i hi
    rw [hpar]
    by_cases hie : i = iidx g.cols sr sc
    · subst hie
      rw [if_pos rfl]
      exact getD_set_self _ _ _ _ (by simp [hsl])
    · rw [if_neg hie, getD_set_ne _ _ _ (fun he => hie he.symm), getD_replicate _ _ hi]
  have hplen : (bfs_start g sr sc).parent.length = n := by rw [hpar]; simp
  refine
    { plen := hplen
      root := by rw [hpget _ hsl, if_pos rfl]
      root_uniq := ?_
      vals := ?_
      edge := ?_
      dep0 := rfl }
  · intro i hi hv
    rw [hplen] at hi
    rw [hpget i hi] at hv
    by_cases hie : i = iidx g.cols sr sc
    · exact hie
    · rw [if_neg hie] at hv
      omega
  · intro i hi
    rw [hplen] at hi
    rw [hpget i hi]
    split
    · exact Or.inl rfl
    · exact Or.inr (Or.inl rfl)
  · intro p hpin hge
    exfalso
    rw [hpget _ (iidx_lt hpin.1 hpin.2.1 hpin.2.2.1 hpin.2.2.2)] at hge
    split at hge
    · omega
    · omega

/-- The reconstruction walk under a BFS parent forest: exact length
`dep end + 1`, adjacency, distinct cells, endpoints start and end. -/
theorem recon_path_btree {g0 : Grid} {s : Int × Int} {parent : List Int}
    {dep : Nat → Nat}
    (tree : BTree g0 s parent dep) (hcpos : 0 < g0.cols)
    (hsin : insideP g0 s) :
    ∀ (m : Nat) (p : Int × Int), insideP g0 p →
    parent.getD (iidx g0.cols p.1 p.2) (-1) ≠ -1 →
    dep (iidx g0.cols p.1 p.2) < m → ∀ f, m ≤ f →
    ∃ L : List (Int × Int),
      recon_path parent f ((iidx g0.cols p.1 p.2 : Nat) : Int)
        = L.map (fun q => ((iidx g0.cols q.1 q.2 : Nat) : Int)) ∧
      L.length = dep (iidx g0.cols p.1 p.2) + 1 ∧
      L.head? = some p ∧ L.getLast? = some s ∧
      (∀ q ∈ L, insideP g0 q) ∧
      (∀ q ∈ L, q ≠ s → inside_open g0 q = true) ∧
      List.Chain' (fun x y => adjB y x = true) L ∧
      List.Chain' (fun x y => dep (iidx g0.cols y.1 y.2) < dep (iidx g0.cols x.1 x.2)) L := by
  intro m
  induction m with
  | zero => intro p _ _ h; omega
  | succ m1 ih =>
    intro p hp hdisc hdep f hf
    have hidxlt : iidx g0.cols p.1 p.2 < parent.length := by
      rw [tree.plen]
      exact iidx_lt hp.1 hp.2.1 hp.2.2.1 hp.2.2.2
    obtain ⟨f1, rfl⟩ : ∃ f1, f = f1 + 1 := ⟨f - 1, by omega⟩
    have hcur : ((iidx g0.cols p.1 p.2 : Nat) : Int) ≠ -2 ∧
        ((iidx g0.cols p.1 p.2 : Nat) : Int) ≠ -1 := ⟨by omega, by omega⟩
    have htoNat := Int.toNat_ofNat (iidx g0.cols p.1 p.2)
    have hstep : recon_path parent (f1 + 1) ((iidx g0.cols p.1 p.2 : Nat) : Int)
        = ((iidx g0.cols p.1 p.2 : Nat) : Int) ::
          recon_path parent f1
            (parent.getD ((iidx g0.cols p.1 p.2 : Nat) : Int).toNat (-1)) := by
      simp only [recon_path]
      rw [if_pos hcur]
    rcases tree.vals (iidx g0.cols p.1 p.2) hidxlt with hroot | hneg | hpos
    · have hidxs : iidx g0.cols p.1 p.2 = iidx g0.cols s.1 s.2 :=
        tree.root_uniq (iidx g0.cols p.1 p.2) hidxlt hroot
      have hps : p = s := Prod.ext_iff.mpr
        (iidx_inj hcpos hp.1 hp.2.1 hp.2.2.1 hp.2.2.2
          hsin.1 hsin.2.1 hsin.2.2.1 hsin.2.2.2 hidxs)
      have hdp0 : dep (iidx g0.cols p.1 p.2) = 0 := by
        rw [hidxs]
        exact tree.dep0
      refine ⟨[p], ?_, by simp [hdp0], rfl, by simp [hps], ?_, ?_,
        List.chain'_singleton p, List.chain'_singleton p⟩
      · rw [hstep, htoNat, hroot, recon_path_neg2]
        simp
      · intro q hq
        have : q = p := by simpa using hq
        rw [this]
        exact hp
      · intro q hq hqs
        have : q = p := by simpa using hq
        rw [this] at hqs
        exact absurd hps hqs
    · exact absurd hneg hdisc
    · obtain ⟨q, hqin, hadj, hpopen, hpar, hqdisc, hqdep⟩ := tree.edge p hp hpos
      have hqint : ((iidx g0.cols q.1 q.2 : Nat) : Int) = q.1 * (g0.cols : Int) + q.2 :=
        iidx_int' hqin.1 hqin.2.2.1
      have hnext : parent.getD (iidx g0.cols p.1 p.2) (-1)
          = ((iidx g0.cols q.1 q.2 : Nat) : Int) := hpar.trans hqint.symm
      have hdepq : dep (iidx g0.cols q.1 q.2) < m1 := by omega
      obtain ⟨L', hmap, hlen, hhd, hlast, hins, hop, hch1, hch2⟩ :=
        ih q hqin hqdisc hdepq f1 (by omega)
      have hLne : L' ≠ [] := by
        intro h
        rw [h] at hhd
        exact Option.noConfusion hhd
      refine ⟨p :: L', ?_, ?_, rfl, ?_, ?_, ?_, ?_, ?_⟩
      · rw [hstep, htoNat, hnext, hmap]
        rfl
      · simp only [List.length_cons, hlen]
        omega
      · rw [getLast?_cons_of_ne_nil p hLne]
        exact hlast
      · intro x hx
        rcases List.mem_cons.mp hx with h | h
        · rw [h]; exact hp
        · exact hins x h
      · intro x hx hxs
        rcases List.mem_cons.mp hx with h | h
        · rw [h]; exact hpopen
        · exact hop x h hxs
      · refine List.chain'_cons'.mpr ⟨?_, hch1⟩
        intro y hy
        have hyq : L'.head? = some y := hy
        rw [hhd] at hyq
        have hye : y = q := (Option.some.inj hyq).symm
        rw [hye]
        exact hadj
      · refine List.chain'_cons'.mpr ⟨?_, hch2⟩
        intro y hy
        have hyq : L'.head? = some y := hy
        rw [hhd] at hyq
        have hye : y = q := (Option.some.inj hyq).symm
        rw [hye]
        omega

theorem bfs_expand_deep {g0 : Grid} {s : Int × Int} {er ec : Int} {u : Int × Int}
    {dep_u : Nat} {l2 : List (Int × Int)} {st : BfsState} {news : List (Int × Int)}
    {dep : Nat → Nat}
    (P : BfsFold g0 s er ec u dep_u l2 st news dep)
    (hu : insideP g0 u) (hureach : ReachesB g0 s u) (hein : insideP g0 (er, ec))
    (kd : Nat) (hkd : kd < 4) :
    ∃ news' dep',
      BfsFold g0 s er ec u dep_u l2 (bfs_expand u.1 u.2 st kd) news' dep' ∧
      (∀ p : Int × Int, insideP g0 p →
        st.parent.getD (iidx g0.cols p.1 p.2) (-1) ≠ -1 →
        (bfs_expand u.1 u.2 st kd).parent.getD (iidx g0.cols p.1 p.2) (-1) ≠ -1 ∧
        dep' (iidx g0.cols p.1 p.2) = dep (iidx g0.cols p.1 p.2)) ∧
      (insideP g0 (u.1 + (nbrs4.getD kd (0, 0)).1, u.2 + (nbrs4.getD kd (0, 0)).2) →
       inside_open g0 (u.1 + (nbrs4.getD kd (0, 0)).1, u.2 + (nbrs4.getD kd (0, 0)).2)
         = true →
       (bfs_expand u.1 u.2 st kd).parent.getD
         (iidx g0.cols (u.1 + (nbrs4.getD kd (0, 0)).1)
           (u.2 + (nbrs4.getD kd (0, 0)).2)) (-1) ≠ -1 ∧
       dep' (iidx g0.cols (u.1 + (nbrs4.getD kd (0, 0)).1)
         (u.2 + (nbrs4.getD kd (0, 0)).2)) ≤ dep_u + 1) ∧
      g0.rows * g0.cols - disc_count (bfs_expand u.1 u.2 st kd).parent +
          (l2 ++ news').length =
        g0.rows * g0.cols - disc_count st.parent + (l2 ++ news).length := by
  set n := g0.rows * g0.cols with hn
  set d := nbrs4.getD kd (0, 0) with hd
  set nr := u.1 + d.1 with hnr
  set nc := u.2 + d.2 with hnc
  have inv := P.base
  by_cases hg : (is_inside st.g nr nc && (grid_get st.g nr nc == 0) &&
      (st.parent.getD (iidx st.g.cols nr nc) (-1) == -1)) = true
  · -- discovery
    simp only [Bool.and_eq_true, beq_iff_eq] at hg
    obtain ⟨⟨hin, hopen⟩, hund⟩ := hg
    have hexp : bfs_expand u.1 u.2 st kd =
        { st with
          parent := st.parent.set (iidx st.g.cols nr nc) (u.1 * (st.g.cols : Int) + u.2)
          q := queue_push st.q (nr, nc)
          g := mark_or st.g nr nc M_FRONT } := by
      simp only [bfs_expand]
      rw [← hd, ← hnr, ← hnc]
      rw [if_pos (by
        simp only [Bool.and_eq_true, beq_iff_eq]
        exact ⟨⟨hin, hopen⟩, hund⟩)]
    have hnin : insideP g0 (nr, nc) := by
      rw [← is_inside_insideP, ← is_inside_eq inv.rows inv.cols]
      exact hin
    have hj : iidx st.g.cols nr nc = iidx g0.cols nr nc := by rw [inv.cols]
    have hjlt : iidx g0.cols nr nc < n := iidx_lt hnin.1 hnin.2.1 hnin.2.2.1 hnin.2.2.2
    have hjplen : iidx g0.cols nr nc < st.parent.length := by rw [inv.plen]; exact hjlt
    have hund0 : st.parent.getD (iidx g0.cols nr nc) (-1) = -1 := by
      rw [← hj]
      exact hund
    have hroom : (l2 ++ news).length + 1 < st.q.cap := by
      have h1 := inv.len_le
      have h2 : disc_count st.parent < n := by
        unfold disc_count
        rw [inv.plen]
        apply countP_range_lt_of_false hjlt
        rw [hund0]
        decide
      rw [inv.cap]
      omega
    have hpnew : ∀ i, i ≠ iidx g0.cols nr nc →
        (st.parent.set (iidx st.g.cols nr nc) (u.1 * (st.g.cols : Int) + u.2)).getD i (-1)
          = st.parent.getD i (-1) := by
      intro i hi
      rw [hj]
      exact getD_set_ne _ _ _ (fun he => hi he.symm)
    have hpj : (st.parent.set (iidx st.g.cols nr nc)
        (u.1 * (st.g.cols : Int) + u.2)).getD (iidx g0.cols nr nc) (-1)
          = u.1 * (st.g.cols : Int) + u.2 := by
      rw [hj]
      exact getD_set_self _ _ _ _ hjplen
    have hvnn : (0 : Int) ≤ u.1 * (st.g.cols : Int) + u.2 := by
      rw [inv.cols]
      have h1 : 0 ≤ u.1 := hu.1
      have h2 : 0 ≤ u.2 := hu.2.2.1
      positivity
    have hdisc' : disc_count (st.parent.set (iidx st.g.cols nr nc)
        (u.1 * (st.g.cols : Int) + u.2)) = disc_count st.parent + 1 := by
      unfold disc_count
      rw [List.length_set, inv.plen]
      apply countP_range_update hjlt
      · intro i hi
        rw [hpnew i hi]
      · rw [hund0]
        decide
      · rw [hpj]
        simp only [Bool.not_eq_true', beq_eq_false_iff_ne, ne_eq]
        omega
    have hju : iidx g0.cols u.1 u.2 ≠ iidx g0.cols nr nc := by
      intro he
      have hud := P.udisc
      rw [he] at hud
      exact hud hund0
    have hfreshmem : (nr, nc) ∉ l2 ++ news := by
      intro hmem
      exact inv.mem_disc (nr, nc) hmem hund0
    obtain ⟨l', inv', hme⟩ := bfs_expand_inv inv u.1 u.2 kd hkd hu hureach
    have hq2 : QueueInv (bfs_expand u.1 u.2 st kd).q ((l2 ++ news) ++ [(nr, nc)]) := by
      rw [hexp]
      exact queue_push_inv inv.qinv hroom _
    have hleq : l' = (l2 ++ news) ++ [(nr, nc)] := QueueInv_unique inv'.qinv hq2
    rw [hleq] at inv' hme
    rw [List.append_assoc] at inv'
    have hparexp : (bfs_expand u.1 u.2 st kd).parent =
        st.parent.set (iidx st.g.cols nr nc) (u.1 * (st.g.cols : Int) + u.2) := by
      rw [hexp]
    have hstab : ∀ p : Int × Int, insideP g0 p →
        st.parent.getD (iidx g0.cols p.1 p.2) (-1) ≠ -1 →
        (bfs_expand u.1 u.2 st kd).parent.getD (iidx g0.cols p.1 p.2) (-1) ≠ -1 ∧
        Function.update dep (iidx g0.cols nr nc) (dep_u + 1) (iidx g0.cols p.1 p.2)
          = dep (iidx g0.cols p.1 p.2) := by
      intro p hpin hpd
      have hpe : iidx g0.cols p.1 p.2 ≠ iidx g0.cols nr nc := by
        intro he
        rw [he] at hpd
        exact hpd hund0
      rw [hparexp]
      constructor
      · rw [hpnew _ hpe]
        exact hpd
      · exact Function.update_noteq hpe _ _
    have hdiscmono : ∀ i, st.parent.getD i (-1) ≠ -1 →
        (bfs_expand u.1 u.2 st kd).parent.getD i (-1) ≠ -1 := by
      intro i hi
      rw [hparexp]
      by_cases hie : i = iidx g0.cols nr nc
      · rw [hie, hpj]
        omega
      · rw [hpnew _ hie]
        exact hi
    refine ⟨news ++ [(nr, nc)], Function.update dep (iidx g0.cols nr nc) (dep_u + 1),
      ⟨?_, ?_, ?_, ?_, ?_, ?_, ?_, ?_, ?_, ?_, ?_⟩, hstab, ?_, ?_⟩
    · rw [← List.append_assoc]
      rw [List.append_assoc]
      exact inv'
    · -- BTree
      rw [hparexp]
      refine
        { plen := by rw [List.length_set]; exact P.tree.plen
          root := ?_
          root_uniq := ?_
          vals := ?_
          edge := ?_
          dep0 := ?_ }
      · have hsne : iidx g0.cols s.1 s.2 ≠ iidx g0.cols nr nc := by
          intro he
          rw [← he] at hund0
          rw [P.tree.root] at hund0
          omega
        rw [hpnew _ hsne]
        exact P.tree.root
      · intro i hi hv
        rw [List.length_set] at hi
        by_cases hie : i = iidx g0.cols nr nc
        · subst hie
          rw [hpj] at hv
          omega
        · rw [hpnew _ hie] at hv
          exact P.tree.root_uniq i hi hv
      · intro i hi
        rw [List.length_set] at hi
        by_cases hie : i = iidx g0.cols nr nc
        · subst hie
          rw [hpj]
          exact Or.inr (Or.inr hvnn)
        · rw [hpnew _ hie]
          exact P.tree.vals i hi
      · intro p hpin hge
        by_cases hie : iidx g0.cols p.1 p.2 = iidx g0.cols nr nc
        · have hpeq : p = (nr, nc) := by
            obtain ⟨e1, e2⟩ := iidx_inj inv.cpos hpin.1 hpin.2.1 hpin.2.2.1 hpin.2.2.2
              hnin.1 hnin.2.1 hnin.2.2.1 hnin.2.2.2 hie
            exact Prod.ext e1 e2
          subst hpeq
          refine ⟨u, hu, ?_, ?_, ?_, ?_, ?_⟩
          · have h := @adjB_of_dir u.1 u.2 _ (nbrs4_getD_mem hkd)
            exact h
          · unfold inside_open
            rw [← is_inside_eq inv.rows inv.cols, ← grid_get_eq inv.cells inv.cols]
            simp [hin, hopen]
          · rw [hie, hpj, inv.cols]
          · rw [hpnew _ hju]
            exact P.udisc
          · rw [hie, Function.update_same, Function.update_noteq hju, P.udep]
        · rw [hpnew _ hie] at hge
          obtain ⟨q, hq1, hq2x, hq3, hq4, hq5, hq6⟩ := P.tree.edge p hpin hge
          have hqne2 : iidx g0.cols q.1 q.2 ≠ iidx g0.cols nr nc := by
            intro he
            rw [he, hund0] at hq5
            exact hq5 rfl
          refine ⟨q, hq1, hq2x, hq3, by rw [hpnew _ hie]; exact hq4, ?_, ?_⟩
          · rw [hpnew _ hqne2]
            exact hq5
          · rw [Function.update_noteq hqne2, Function.update_noteq hie]
            exact hq6
      · have hsne : iidx g0.cols s.1 s.2 ≠ iidx g0.cols nr nc := by
          intro he
          rw [← he] at hund0
          rw [P.tree.root] at hund0
          omega
        rw [Function.update_noteq hsne]
        exact P.tree.dep0
    · -- udisc
      rw [hparexp, hpnew _ hju]
      exact P.udisc
    · -- udep
      rw [Function.update_noteq hju, P.udep]
    · -- l2dep
      intro v hv
      have hvne : iidx g0.cols v.1 v.2 ≠ iidx g0.cols nr nc := by
        intro he
        have := inv.mem_disc v (by rw [List.mem_append]; exact Or.inl hv)
        rw [he] at this
        exact this hund0
      rw [Function.update_noteq hvne]
      exact P.l2dep v hv
    · -- newsdep
      intro v hv
      rcases List.mem_append.mp hv with h | h
      · have hvne : iidx g0.cols v.1 v.2 ≠ iidx g0.cols nr nc := by
          intro he
          have := inv.mem_disc v (by rw [List.mem_append]; exact Or.inr h)
          rw [he] at this
          exact this hund0
        rw [Function.update_noteq hvne]
        exact P.newsdep v h
      · have hve : v = (nr, nc) := by simpa using h
        rw [hve]
        rw [Function.update_same]
    · -- newsfresh
      intro v hv
      rcases List.mem_append.mp hv with h | h
      · exact P.newsfresh v h
      · have hve : v = (nr, nc) := by simpa using h
        constructor
        · intro hmem
          rw [hve] at hmem
          exact inv.mem_disc (nr, nc) (by rw [List.mem_append]; exact Or.inl hmem) hund0
        · intro hveu
          have hud := P.udisc
          rw [← hveu, hve] at hud
          exact hud hund0
    · -- procbound
      intro p hpin hpd hpnin
      have hpne : p ≠ (nr, nc) := by
        intro he
        rw [he] at hpnin
        refine hpnin ?_
        rw [← List.append_assoc, List.mem_append]
        right
        simp
      have hpe : iidx g0.cols p.1 p.2 ≠ iidx g0.cols nr nc := by
        intro he
        obtain ⟨e1, e2⟩ := iidx_inj inv.cpos hpin.1 hpin.2.1 hpin.2.2.1 hpin.2.2.2
          hnin.1 hnin.2.1 hnin.2.2.1 hnin.2.2.2 he
        exact hpne (Prod.ext e1 e2)
      rw [hparexp, hpnew _ hpe] at hpd
      rw [Function.update_noteq hpe]
      refine P.procbound p hpin hpd ?_
      intro hmem
      refine hpnin ?_
      rw [← List.append_assoc, List.mem_append]
      exact Or.inl hmem
    · -- oldclos
      intro p hpin hpd hpnin hpe2 hpu d2 hd2 hin2 hio2
      have hpne : p ≠ (nr, nc) := by
        intro he
        rw [he] at hpnin
        refine hpnin ?_
        rw [← List.append_assoc, List.mem_append]
        right
        simp
      have hpe : iidx g0.cols p.1 p.2 ≠ iidx g0.cols nr nc := by
        intro he
        obtain ⟨e1, e2⟩ := iidx_inj inv.cpos hpin.1 hpin.2.1 hpin.2.2.1 hpin.2.2.2
          hnin.1 hnin.2.1 hnin.2.2.1 hnin.2.2.2 he
        exact hpne (Prod.ext e1 e2)
      rw [hparexp, hpnew _ hpe] at hpd
      have hold := P.oldclos p hpin hpd
        (fun hmem => hpnin (by rw [← List.append_assoc, List.mem_append]; exact Or.inl hmem))
        hpe2 hpu d2 hd2 hin2 hio2
      constructor
      · exact (hdiscmono _ hold.1)
      · have hnbne : iidx g0.cols (p.1 + d2.1) (p.2 + d2.2) ≠ iidx g0.cols nr nc := by
          intro he
          rw [he] at hold
          exact hold.1 hund0
        rw [Function.update_noteq hnbne, Function.update_noteq hpe]
        exact hold.2
    · -- endqf
      intro hed
      rw [hparexp] at hed
      by_cases hee : iidx g0.cols er ec = iidx g0.cols nr nc
      · have heeq : (er, ec) = (nr, nc) := by
          obtain ⟨e1, e2⟩ := iidx_inj inv.cpos hein.1 hein.2.1 hein.2.2.1 hein.2.2.2
            hnin.1 hnin.2.1 hnin.2.2.1 hnin.2.2.2 hee
          exact Prod.ext e1 e2
        left
        rw [← List.append_assoc, List.mem_append]
        right
        rw [heeq]
        simp
      · rw [hpnew _ hee] at hed
        rcases P.endqf hed with h | h
        · left
          rw [← List.append_assoc, List.mem_append]
          exact Or.inl h
        · exact Or.inr h
    · -- depbound
      intro i hi hid
      rw [hparexp] at hid ⊢
      rw [hdisc']
      by_cases hie : i = iidx g0.cols nr nc
      · subst hie
        rw [Function.update_same]
        have hub := P.depbound (iidx g0.cols u.1 u.2)
          (by rw [← inv.plen]
              rw [P.tree.plen] at *
              exact iidx_lt hu.1 hu.2.1 hu.2.2.1 hu.2.2.2) P.udisc
        rw [P.udep] at hub
        omega
      · rw [Function.update_noteq hie]
        rw [hpnew _ hie] at hid
        have := P.depbound i hi hid
        omega
    · -- neighbour fact
      intro hin2 hio2
      constructor
      · rw [hparexp, hpj]
        omega
      · rw [Function.update_same]
    · -- measure
      rw [← List.append_assoc]
      exact hme
  · -- no discovery
    have hexp : bfs_expand u.1 u.2 st kd = st := by
      simp only [bfs_expand]
      rw [← hd, ← hnr, ← hnc]
      rw [if_neg hg]
    rw [hexp]
    refine ⟨news, dep, P, fun p _ hd2 => ⟨hd2, rfl⟩, ?_, rfl⟩
    intro hin2 hio2
    have hisin : is_inside st.g nr nc = true := by
      rw [is_inside_eq inv.rows inv.cols, is_inside_insideP]
      exact hin2
    have hgg : (grid_get st.g nr nc == 0) = true := by
      rw [beq_iff_eq, grid_get_eq inv.cells inv.cols]
      unfold inside_open at hio2
      rw [Bool.and_eq_true, beq_iff_eq] at hio2
      exact hio2.2
    have hdisc2 : st.parent.getD (iidx st.g.cols nr nc) (-1) ≠ -1 := by
      intro he
      refine hg ?_
      simp only [Bool.and_eq_true, beq_iff_eq]
      exact ⟨⟨hisin, by rw [beq_iff_eq] at hgg; exact hgg⟩, he⟩
    have hdisc3 : st.parent.getD (iidx g0.cols nr nc) (-1) ≠ -1 := by
      rw [← inv.cols]
      exact hdisc2
    refine ⟨hdisc3, ?_⟩
    by_cases hmem : (nr, nc) ∈ l2 ++ news
    · rcases List.mem_append.mp hmem with h | h
      · exact (P.l2dep _ h).2
      · rw [P.newsdep _ h]
    · exact Nat.le_succ_of_le (P.procbound (nr, nc) hin2 hdisc3 hmem)

theorem bfs_fold_deep {g0 : Grid} {s : Int × Int} {er ec : Int} {u : Int × Int}
    {dep_u : Nat} {l2 : List (Int × Int)}
    (hu : insideP g0 u) (hureach : ReachesB g0 s u) (hein : insideP g0 (er, ec)) :
    ∀ (dirs : List Nat), (∀ k ∈ dirs, k < 4) →
    ∀ (st : BfsState) (news : List (Int × Int)) (dep : Nat → Nat),
    BfsFold g0 s er ec u dep_u l2 st news dep →
    ∃ news' dep',
      BfsFold g0 s er ec u dep_u l2 (dirs.foldl (bfs_expand u.1 u.2) st) news' dep' ∧
      (∀ p : Int × Int, insideP g0 p →
        st.parent.getD (iidx g0.cols p.1 p.2) (-1) ≠ -1 →
        (dirs.foldl (bfs_expand u.1 u.2) st).parent.getD (iidx g0.cols p.1 p.2) (-1)
          ≠ -1 ∧
        dep' (iidx g0.cols p.1 p.2) = dep (iidx g0.cols p.1 p.2)) ∧
      (∀ k ∈ dirs,
        insideP g0 (u.1 + (nbrs4.getD k (0, 0)).1, u.2 + (nbrs4.getD k (0, 0)).2) →
        inside_open g0 (u.1 + (nbrs4.getD k (0, 0)).1, u.2 + (nbrs4.getD k (0, 0)).2)
          = true →
        (dirs.foldl (bfs_expand u.1 u.2) st).parent.getD
          (iidx g0.cols (u.1 + (nbrs4.getD k (0, 0)).1)
            (u.2 + (nbrs4.getD k (0, 0)).2)) (-1) ≠ -1 ∧
        dep' (iidx g0.cols (u.1 + (nbrs4.getD k (0, 0)).1)
          (u.2 + (nbrs4.getD k (0, 0)).2)) ≤ dep_u + 1) ∧
      g0.rows * g0.cols - disc_count ((dirs.foldl (bfs_expand u.1 u.2) st)).parent +
          (l2 ++ news').length =
        g0.rows * g0.cols - disc_count st.parent + (l2 ++ news).length := by
  intro dirs
  induction dirs with
  | nil =>
    intro _ st news dep P
    exact ⟨news, dep, P, fun p _ h => ⟨h, rfl⟩, fun k hk => absurd hk (by simp), rfl⟩
  | cons k ks ih =>
    intro hks st news dep P
    obtain ⟨news1, dep1, P1, stab1, nbr1, me1⟩ :=
      bfs_expand_deep P hu hureach hein k (hks k (by simp))
    obtain ⟨news2, dep2, P2, stab2, nbr2, me2⟩ :=
      ih (fun x hx => hks x (by simp [hx])) (bfs_expand u.1 u.2 st k) news1 dep1 P1
    simp only [List.foldl_cons]
    refine ⟨news2, dep2, P2, ?_, ?_, ?_⟩
    · intro p hpin hpd
      obtain ⟨hd1, he1⟩ := stab1 p hpin hpd
      obtain ⟨hd2, he2⟩ := stab2 p hpin hd1
      exact ⟨hd2, by rw [he2, he1]⟩
    · intro k2 hk2 hin2 hio2
      rcases List.mem_cons.mp hk2 with h | h
      · subst h
        obtain ⟨hd1, he1⟩ := nbr1 hin2 hio2
        obtain ⟨hd2, he2⟩ := stab2 _ hin2 hd1
        exact ⟨hd2, by rw [he2]; exact he1⟩
      · exact nbr2 k2 h hin2 hio2
    · omega

theorem pairwise_le_congr {f g : Int × Int → Nat} :
    ∀ {l : List (Int × Int)}, (∀ a ∈ l, f a = g a) →
    List.Pairwise (fun a b => f a ≤ f b) l →
    List.Pairwise (fun a b => g a ≤ g b) l := by
  intro l
  induction l with
  | nil => exact fun _ _ => List.Pairwise.nil
  | cons a t ih =>
    intro hfg hp
    obtain ⟨h1, h2⟩ := List.pairwise_cons.mp hp
    refine List.Pairwise.cons ?_ (ih (fun x hx => hfg x (by simp [hx])) h2)
    intro b hb
    rw [← hfg a (by simp), ← hfg b (by simp [hb])]
    exact h1 b hb

theorem bfs_step_deep {g0 : Grid} {s : Int × Int} {er ec : Int} {st : BfsState}
    {l : List (Int × Int)} {dep : Nat → Nat}
    (deep : BfsDeep g0 s er ec st l dep) (hne : queue_empty st.q = false)
    (hein : insideP g0 (er, ec)) :
    ((bfs_step er ec st).2 = true →
      ∃ l', BfsFinal g0 s er ec (bfs_step er ec st).1 l' dep ∧
        (bfs_step er ec st).1.parent.getD (iidx g0.cols er ec) (-1) ≠ -1) ∧
    ((bfs_step er ec st).2 = false →
      ∃ l' dep', BfsDeep g0 s er ec (bfs_step er ec st).1 l' dep' ∧
        g0.rows * g0.cols - disc_count (bfs_step er ec st).1.parent + l'.length + 1 =
          g0.rows * g0.cols - disc_count st.parent + l.length) := by
  have inv := deep.base
  have hlne : l ≠ [] := by
    intro h
    rw [(queue_empty_inv inv.qinv).mpr h] at hne
    exact Bool.noConfusion hne
  obtain ⟨p, l2, rfl⟩ : ∃ p l2, l = p :: l2 := by
    cases l with
    | nil => exact absurd rfl hlne
    | cons a t => exact ⟨a, t, rfl⟩
  obtain ⟨hpopv, hpopq⟩ := queue_pop_inv inv.qinv
  have hpin : insideP g0 p := inv.mem_inside p (by simp)
  have hpdisc := inv.mem_disc p (by simp)
  have hpreach : ReachesB g0 s p := inv.disc_reach p hpin hpdisc
  have hstep : bfs_step er ec st =
      (let g1 := mark_andnot st.g p.1 p.2 M_FRONT
       let g2 := if mark_get g1 p.1 p.2 &&& M_VISIT == 0 then mark_or g1 p.1 p.2 M_VISIT
         else g1
       let st1 : BfsState := { g := g2, parent := st.parent, q := (queue_pop st.q).2 }
       if p.1 == er && p.2 == ec then (st1, true)
       else ((List.range 4).foldl (bfs_expand p.1 p.2) st1, false)) := by
    simp only [bfs_step, hpopv]
  set g1 := mark_andnot st.g p.1 p.2 M_FRONT with hg1
  set g2 := (if mark_get g1 p.1 p.2 &&& M_VISIT == 0 then mark_or g1 p.1 p.2 M_VISIT
    else g1) with hg2
  have hg2cells : g2.cells = g0.cells := by
    rw [hg2, hg1]
    split <;> exact inv.cells
  have hg2cols : g2.cols = g0.cols := by
    rw [hg2, hg1]
    split <;> exact inv.cols
  have hg2rows : g2.rows = g0.rows := by
    rw [hg2, hg1]
    split <;> exact inv.rows
  have inv1 : BfsInvL g0 s { g := g2, parent := st.parent, q := (queue_pop st.q).2 } l2 :=
    { qinv := hpopq
      cap := inv.cap
      cpos := inv.cpos
      cells := hg2cells
      cols := hg2cols
      rows := hg2rows
      plen := inv.plen
      nodup := inv.nodup.of_cons
      mem_inside := fun x hx => inv.mem_inside x (by simp [hx])
      mem_disc := fun x hx => inv.mem_disc x (by simp [hx])
      disc_reach := inv.disc_reach
      pushctr := inv.pushctr
      ovf := inv.ovf }
  have hpairh := List.pairwise_cons.mp deep.pair
  rw [hstep]
  simp only [← hg1, ← hg2]
  by_cases hbrk : (p.1 == er && p.2 == ec) = true
  · rw [if_pos hbrk]
    simp only [Bool.and_eq_true, beq_iff_eq] at hbrk
    have hpe : p = (er, ec) := Prod.ext hbrk.1 hbrk.2
    constructor
    · intro _
      refine ⟨l2, ⟨inv1, deep.tree, ?_, ?_, ?_, deep.depbound⟩, ?_⟩
      · -- ple
        intro p2 hp2in hp2d hp2nin v hv
        by_cases hp2e : p2 = p
        · rw [hp2e]
          exact hpairh.1 v hv
        · exact deep.ple p2 hp2in hp2d
            (fun hmem => by
              rcases List.mem_cons.mp hmem with h | h
              · exact hp2e h
              · exact hp2nin h) v (by simp [hv])
      · -- closure
        intro p2 hp2in hp2d hp2nin hp2e d hd hin2 hio2
        refine deep.closure p2 hp2in hp2d ?_ hp2e d hd hin2 hio2
        intro hmem
        rcases List.mem_cons.mp hmem with h | h
        · rw [← hpe] at hp2e
          exact hp2e h
        · exact hp2nin h
      · -- endnotq
        rw [← hpe]
        exact (List.nodup_cons.mp inv.nodup).1
      · -- discovered end
        show st.parent.getD (iidx g0.cols er ec) (-1) ≠ -1
        rw [hpe] at hpdisc
        exact hpdisc
    · intro hfalse
      exact Bool.noConfusion hfalse
  · rw [if_neg hbrk]
    have hpne : p ≠ (er, ec) := by
      intro he
      refine hbrk ?_
      simp only [Bool.and_eq_true, beq_iff_eq]
      exact ⟨congrArg Prod.fst he, congrArg Prod.snd he⟩
    constructor
    · intro hfalse
      exact Bool.noConfusion hfalse
    intro _
    set dep_u := dep (iidx g0.cols p.1 p.2) with hdepu
    have P0 : BfsFold g0 s er ec p dep_u l2
        { g := g2, parent := st.parent, q := (queue_pop st.q).2 } [] dep :=
      { base := by rw [List.append_nil]; exact inv1
        tree := deep.tree
        udisc := hpdisc
        udep := rfl
        l2dep := fun v hv => ⟨hpairh.1 v hv, deep.layer v (by simp [hv]) p (by simp)⟩
        newsdep := fun v hv => absurd hv (List.not_mem_nil v)
        newsfresh := fun v hv => absurd hv (List.not_mem_nil v)
        procbound := by
          intro p2 hp2in hp2d hp2nin
          rw [List.append_nil] at hp2nin
          by_cases hp2e : p2 = p
          · rw [hp2e]
          · exact deep.ple p2 hp2in hp2d
              (fun hmem => by
                rcases List.mem_cons.mp hmem with h | h
                · exact hp2e h
                · exact hp2nin h) p (by simp)
        oldclos := by
          intro p2 hp2in hp2d hp2nin hp2e hp2u d hd hin2 hio2
          rw [List.append_nil] at hp2nin
          refine deep.closure p2 hp2in hp2d ?_ hp2e d hd hin2 hio2
          intro hmem
          rcases List.mem_cons.mp hmem with h | h
          · exact hp2u h
          · exact hp2nin h
        endqf := by
          intro hed
          rcases List.mem_cons.mp (deep.endq hed) with h | h
          · exact Or.inr h
          · left
            rw [List.append_nil]
            exact h
        depbound := deep.depbound }
    obtain ⟨news', dep', P', stab', nbrs', me'⟩ :=
      bfs_fold_deep hpin hpreach hein (List.range 4)
        (fun k hk => List.mem_range.mp hk) _ [] dep P0
    have hl2stab : ∀ v ∈ l2, dep' (iidx g0.cols v.1 v.2) = dep (iidx g0.cols v.1 v.2) :=
      fun v hv => (stab' v (inv1.mem_inside v hv) (inv1.mem_disc v hv)).2
    have hpstab := stab' p hpin hpdisc
    refine ⟨l2 ++ news', dep', ⟨P'.base, P'.tree, ?_, ?_, ?_, ?_, ?_, P'.depbound⟩, ?_⟩
    · -- pair
      rw [List.pairwise_append]
      refine ⟨?_, ?_, ?_⟩
      · refine pairwise_le_congr (fun a ha => (hl2stab a ha).symm) hpairh.2
      · refine pairwise_of_all ?_
        intro a ha b hb
        rw [P'.newsdep a ha, P'.newsdep b hb]
      · intro a ha b hb
        rw [P'.newsdep b hb]
        exact (P'.l2dep a ha).2
    · -- layer
      intro v hv w hw
      have hvb : dep_u ≤ dep' (iidx g0.cols v.1 v.2) ∧
          dep' (iidx g0.cols v.1 v.2) ≤ dep_u + 1 := by
        rcases List.mem_append.mp hv with h | h
        · exact P'.l2dep v h
        · rw [P'.newsdep v h]
          omega
      have hwb : dep_u ≤ dep' (iidx g0.cols w.1 w.2) ∧
          dep' (iidx g0.cols w.1 w.2) ≤ dep_u + 1 := by
        rcases List.mem_append.mp hw with h | h
        · exact P'.l2dep w h
        · rw [P'.newsdep w h]
          omega
      omega
    · -- ple
      intro p2 hp2in hp2d hp2nin v hv
      have hb := P'.procbound p2 hp2in hp2d hp2nin
      have hvb : dep_u ≤ dep' (iidx g0.cols v.1 v.2) := by
        rcases List.mem_append.mp hv with h | h
        · exact (P'.l2dep v h).1
        · rw [P'.newsdep v h]
          omega
      omega
    · -- closure
      intro p2 hp2in hp2d hp2nin hp2e d hd hin2 hio2
      by_cases hp2u : p2 = p
      · obtain ⟨k, hk4, hkd⟩ := nbrs4_index hd
        have hfact := nbrs' k (List.mem_range.mpr hk4)
        rw [hkd] at hfact
        have := hfact (by rw [hp2u] at hin2; exact hin2) (by rw [hp2u] at hio2; exact hio2)
        constructor
        · rw [hp2u]
          exact this.1
        · rw [hp2u, hpstab.2]
          exact this.2
      · exact P'.oldclos p2 hp2in hp2d hp2nin hp2e hp2u d hd hin2 hio2
    · -- endq
      intro hed
      rcases P'.endqf hed with h | h
      · exact h
      · exact absurd h.symm hpne
    · -- measure
      simp only [List.append_nil] at me'
      simp only [List.length_cons]
      omega

theorem bfs_start_deep {g : Grid} {sr sc er ec : Int} (hs : insideP g (sr, sc))
    (hein : insideP g (er, ec)) :
    BfsDeep g (sr, sc) er ec (bfs_start g sr sc) [(sr, sc)] (fun _ => 0) := by
  have hcpos : 0 < g.cols := by
    have := hs.2.2.2
    have := hs.2.2.1
    omega
  have hsl : iidx g.cols sr sc < g.rows * g.cols :=
    iidx_lt hs.1 hs.2.1 hs.2.2.1 hs.2.2.2
  have hpar : (bfs_start g sr sc).parent = (List.replicate (g.rows * g.cols) (-1 : Int)).set
      (iidx g.cols sr sc) (-2) := rfl
  have hdisc_only : ∀ p : Int × Int, insideP g p →
      (bfs_start g sr sc).parent.getD (iidx g.cols p.1 p.2) (-1) ≠ -1 → p = (sr, sc) := by
    intro p hpin hpd
    rw [hpar] at hpd
    by_cases hie : iidx g.cols sr sc = iidx g.cols p.1 p.2
    · obtain ⟨e1, e2⟩ := iidx_inj hcpos hpin.1 hpin.2.1 hpin.2.2.1 hpin.2.2.2
        hs.1 hs.2.1 hs.2.2.1 hs.2.2.2 hie.symm
      exact Prod.ext e1 e2
    · rw [getD_set_ne _ _ _ hie, getD_replicate_self] at hpd
      exact absurd rfl hpd
  refine
    { base := bfs_start_inv hs
      tree := bfs_start_btree hs
      pair := by simp
      layer := fun v _ w _ => by simp
      ple := fun p _ _ _ v _ => by simp
      closure := ?_
      endq := ?_
      depbound := ?_ }
  · intro p hpin hpd hpn _ _ _ _ _
    exact absurd (by rw [hdisc_only p hpin hpd]; simp) hpn
  · intro hed
    have := hdisc_only (er, ec) hein hed
    rw [this]
    simp
  · intro i _ _
    rw [bfs_start_disc_one hs]
    simp

theorem bfs_run_deep {g0 : Grid} {s : Int × Int} {er ec : Int}
    (hein : insideP g0 (er, ec)) :
    ∀ (f : Nat) (st : BfsState) (l : List (Int × Int)) (dep : Nat → Nat),
    BfsDeep g0 s er ec st l dep →
    g0.rows * g0.cols - disc_count st.parent + l.length < f →
    ∃ l' dep', BfsFinal g0 s er ec (bfs_run er ec f st).1 l' dep' ∧
      ((bfs_run er ec f st).1.parent.getD (iidx g0.cols er ec) (-1) ≠ -1 ∨ l' = []) ∧
      (bfs_run er ec f st).2 = true := by
  intro f
  induction f with
  | zero => intro st l dep _ h; omega
  | succ f ih =>
    intro st l dep deep hm
    rw [bfs_run_succ]
    by_cases hqe : queue_empty st.q = true
    · rw [if_pos hqe]
      have hle : l = [] := (queue_empty_inv deep.base.qinv).mp hqe
      subst hle
      exact ⟨[], dep,
        ⟨deep.base, deep.tree, deep.ple, deep.closure, by simp, deep.depbound⟩,
        Or.inr rfl, rfl⟩
    · rw [if_neg hqe]
      have hne : queue_empty st.q = false := by
        cases h : queue_empty st.q
        · rfl
        · exact absurd h hqe
      obtain ⟨hbrkT, hbrkF⟩ := bfs_step_deep deep hne hein
      by_cases hbrk : (bfs_step er ec st).2 = true
      · rw [if_pos hbrk]
        obtain ⟨l', F, hdisc⟩ := hbrkT hbrk
        exact ⟨l', dep, F, Or.inl hdisc, rfl⟩
      · rw [if_neg hbrk]
        obtain ⟨l', dep', deep', hme⟩ := hbrkF (by
          cases h : (bfs_step er ec st).2
          · rfl
          · exact absurd h hbrk)
        exact ih _ l' dep' deep' (by omega)

theorem bfs_final_empty_disc {g0 : Grid} {s : Int × Int} {er ec : Int} {st : BfsState}
    {dep : Nat → Nat} (F : BfsFinal g0 s er ec st [] dep)
    (hreach : ReachesB g0 s (er, ec)) :
    st.parent.getD (iidx g0.cols er ec) (-1) ≠ -1 := by
  obtain ⟨lp, hlp⟩ := hreach
  have key : ∀ (t : List (Int × Int)) (prev : Int × Int), insideP g0 prev →
      st.parent.getD (iidx g0.cols prev.1 prev.2) (-1) ≠ -1 →
      steps_ok g0 (er, ec) prev t = true →
      st.parent.getD (iidx g0.cols er ec) (-1) ≠ -1 := by
    intro t
    induction t with
    | nil =>
      intro prev hin hd hst
      have hpe : prev = (er, ec) := by simpa [steps_ok] using hst
      rw [hpe] at hd
      exact hd
    | cons x t' ih =>
      intro prev hin hd hst
      simp only [steps_ok, Bool.and_eq_true] at hst
      obtain ⟨⟨hadj, hio⟩, hst'⟩ := hst
      by_cases hpe : prev = (er, ec)
      · rw [hpe] at hd
        exact hd
      · have hxin : insideP g0 x := by
          unfold inside_open at hio
          rw [Bool.and_eq_true] at hio
          exact is_inside_insideP.mp hio.1
        have hdmem : ((x.1 - prev.1, x.2 - prev.2) : Int × Int) ∈ nbrs4 := by
          unfold adjB at hadj
          rw [decide_eq_true_eq] at hadj
          exact hadj
        have hx1 : prev.1 + (x.1 - prev.1) = x.1 := by ring
        have hx2 : prev.2 + (x.2 - prev.2) = x.2 := by ring
        have hcl := F.closure prev hin hd (by simp) hpe (x.1 - prev.1, x.2 - prev.2) hdmem
          (by rw [hx1, hx2]; exact hxin) (by rw [hx1, hx2]; exact hio)
        rw [hx1, hx2] at hcl
        exact ih x hxin hcl.1 hst'
  cases lp with
  | nil => simp [is_path] at hlp
  | cons a t =>
    simp only [is_path, Bool.and_eq_true, beq_iff_eq] at hlp
    obtain ⟨⟨ha, hins⟩, hst⟩ := hlp
    subst ha
    have hsdisc : st.parent.getD (iidx g0.cols a.1 a.2) (-1) ≠ -1 := by
      rw [F.tree.root]
      omega
    exact key t a (is_inside_insideP.mp hins) hsdisc hst

theorem bfs_final_min {g0 : Grid} {s : Int × Int} {er ec : Int} {st : BfsState}
    {l : List (Int × Int)} {dep : Nat → Nat} (F : BfsFinal g0 s er ec st l dep)
    (hein : insideP g0 (er, ec))
    (hedisc : st.parent.getD (iidx g0.cols er ec) (-1) ≠ -1) :
    ∀ (t : List (Int × Int)) (prev : Int × Int) (m : Nat), insideP g0 prev →
    st.parent.getD (iidx g0.cols prev.1 prev.2) (-1) ≠ -1 →
    dep (iidx g0.cols prev.1 prev.2) ≤ m →
    steps_ok g0 (er, ec) prev t = true →
    dep (iidx g0.cols er ec) ≤ m + t.length := by
  have hendple : ∀ v ∈ l, dep (iidx g0.cols er ec) ≤ dep (iidx g0.cols v.1 v.2) :=
    F.ple (er, ec) hein hedisc F.endnotq
  intro t
  induction t with
  | nil =>
    intro prev m hin hd hdep hst
    have hpe : prev = (er, ec) := by simpa [steps_ok] using hst
    rw [hpe] at hdep
    have hdep2 : dep (iidx g0.cols er ec) ≤ m := hdep
    simp only [List.length_nil]
    omega
  | cons x t' ih =>
    intro prev m hin hd hdep hst
    simp only [steps_ok, Bool.and_eq_true] at hst
    obtain ⟨⟨hadj, hio⟩, hst'⟩ := hst
    simp only [List.length_cons]
    by_cases hql : prev ∈ l
    · have h1 := hendple prev hql
      omega
    · by_cases hpe : prev = (er, ec)
      · rw [hpe] at hdep
        have hdep2 : dep (iidx g0.cols er ec) ≤ m := hdep
        omega
      · have hxin : insideP g0 x := by
          unfold inside_open at hio
          rw [Bool.and_eq_true] at hio
          exact is_inside_insideP.mp hio.1
        have hdmem : ((x.1 - prev.1, x.2 - prev.2) : Int × Int) ∈ nbrs4 := by
          unfold adjB at hadj
          rw [decide_eq_true_eq] at hadj
          exact hadj
        have hx1 : prev.1 + (x.1 - prev.1) = x.1 := by ring
        have hx2 : prev.2 + (x.2 - prev.2) = x.2 := by ring
        have hcl := F.closure prev hin hd hql hpe (x.1 - prev.1, x.2 - prev.2) hdmem
          (by rw [hx1, hx2]; exact hxin) (by rw [hx1, hx2]; exact hio)
        rw [hx1, hx2] at hcl
        have := ih x (m + 1) hxin hcl.1 (by omega) hst'
        omega

/-- C1: when the end cell is reachable from the start over open cells, the
path reconstruct_and_mark walks after solve_bfs realises the graph distance:
read in start-to-end order its cells form a walk from start to end whose
cell count (hence edge count) is minimal among all open-cell walks between
the two. -/
theorem bfs_shortest_path {g : Grid} {sr sc er ec delay_ms : Int}
    (hs : insideP g (sr, sc)) (he : insideP g (er, ec))
    (hreach : ReachesB g (sr, sc) (er, ec)) :
    ∃ C : List (Int × Int),
      recon_path (solve_bfs g sr sc er ec delay_ms).2.1 (g.rows * g.cols + 1)
          ((iidx g.cols er ec : Nat) : Int)
        = (C.map (fun q => ((iidx g.cols q.1 q.2 : Nat) : Int))).reverse ∧
      is_path g (sr, sc) (er, ec) C = true ∧
      ∀ l2 : List (Int × Int), is_path g (sr, sc) (er, ec) l2 = true →
        C.length ≤ l2.length := by
  have hcpos : 0 < g.cols := by
    have := hs.2.2.2
    have := hs.2.2.1
    omega
  have hparent : (solve_bfs g sr sc er ec delay_ms).2.1
      = (bfs_run er ec (g.rows * g.cols + 2) (bfs_start g sr sc)).1.parent := rfl
  have hm0 : g.rows * g.cols - disc_count (bfs_start g sr sc).parent +
      ([((sr : Int), (sc : Int))] : List (Int × Int)).length < g.rows * g.cols + 2 := by
    rw [bfs_start_disc_one hs]
    simp only [List.length_cons, List.length_nil]
    omega
  obtain ⟨lF, depF, F, hdisj, _⟩ := @bfs_run_deep g (sr, sc) er ec he
    (g.rows * g.cols + 2) (bfs_start g sr sc) [(sr, sc)] (fun _ => 0)
    (bfs_start_deep hs he) hm0
  have hedisc : (bfs_run er ec (g.rows * g.cols + 2) (bfs_start g sr sc)).1.parent.getD
      (iidx g.cols er ec) (-1) ≠ -1 := by
    rcases hdisj with h | h
    · exact h
    · rw [h] at F
      exact bfs_final_empty_disc F hreach
  rw [hparent]
  have hidxlt : iidx g.cols er ec <
      (bfs_run er ec (g.rows * g.cols + 2) (bfs_start g sr sc)).1.parent.length := by
    rw [F.tree.plen]
    exact iidx_lt he.1 he.2.1 he.2.2.1 he.2.2.2
  have hdlt : depF (iidx g.cols er ec) < g.rows * g.cols := by
    have h1 := F.depbound (iidx g.cols er ec) (by rw [← F.tree.plen]; exact hidxlt) hedisc
    have h2 : disc_count (bfs_run er ec (g.rows * g.cols + 2)
        (bfs_start g sr sc)).1.parent ≤ g.rows * g.cols := by
      unfold disc_count
      rw [F.tree.plen]
      exact countP_range_le _ _
    omega
  obtain ⟨L, hmap, hlen, hhd, hlast, hins, hop, hchAdj, hchDep⟩ :=
    recon_path_btree F.tree hcpos hs (g.rows * g.cols) (er, ec) he hedisc hdlt
      (g.rows * g.cols + 1) (by omega)
  have hndL : L.Nodup := by
    have hpw := @chain'_pairwise_of_trans (Int × Int)
      (fun x y => depF (iidx g.cols y.1 y.2) < depF (iidx g.cols x.1 x.2))
      (fun a b c hab hbc => Nat.lt_trans hbc hab) L hchDep
    exact List.Pairwise.imp
      (fun h => by
        intro he'
        rw [he'] at h
        exact Nat.lt_irrefl _ h) hpw
  refine ⟨L.reverse, ?_, ?_, ?_⟩
  · rw [List.map_reverse, List.reverse_reverse]
    exact hmap
  · refine is_path_of_chain ?_ ?_ (is_inside_insideP.mpr hs) ?_
      (List.nodup_reverse.mpr hndL) (List.chain'_reverse.mpr hchAdj)
    · rw [List.head?_reverse]
      exact hlast
    · rw [List.getLast?_reverse]
      exact hhd
    · intro q hq hqs
      rw [List.mem_reverse] at hq
      exact hop q hq hqs
  · intro l2 hl2
    cases l2 with
    | nil => simp [is_path] at hl2
    | cons a t =>
      simp only [is_path, Bool.and_eq_true, beq_iff_eq] at hl2
      obtain ⟨⟨ha, hins2⟩, hst⟩ := hl2
      subst ha
      have hsdisc : (bfs_run er ec (g.rows * g.cols + 2)
          (bfs_start g sr sc)).1.parent.getD
            (iidx g.cols ((sr, sc) : Int × Int).1 ((sr, sc) : Int × Int).2) (-1) ≠ -1 := by
        rw [F.tree.root]
        omega
      have hsdep : depF (iidx g.cols ((sr, sc) : Int × Int).1 ((sr, sc) : Int × Int).2)
          ≤ 0 := le_of_eq F.tree.dep0
      have hkey := bfs_final_min F he hedisc t (sr, sc) 0 (is_inside_insideP.mp hins2)
        hsdisc hsdep hst
      simp only [List.length_reverse, List.length_cons, hlen]
      omega

theorem bfs_shortest_path_witness :
    ∃ C : List (Int × Int),
      recon_path (solve_bfs ⟨3, 3, List.replicate 9 0, List.replicate 9 0⟩
            0 0 2 2 0).2.1 (3 * 3 + 1) ((iidx 3 2 2 : Nat) : Int)
        = (C.map (fun q => ((iidx 3 q.1 q.2 : Nat) : Int))).reverse ∧
      is_path ⟨3, 3, List.replicate 9 0, List.replicate 9 0⟩ (0, 0) (2, 2) C = true ∧
      ∀ l2 : List (Int × Int),
        is_path ⟨3, 3, List.replicate 9 0, List.replicate 9 0⟩ (0, 0) (2, 2) l2 = true →
        C.length ≤ l2.length :=
  bfs_shortest_path ⟨by decide, by decide, by decide, by decide⟩
    ⟨by decide, by decide, by decide, by decide⟩
    ⟨[(0, 0), (0, 1), (0, 2), (1, 2), (2, 2)], by decide⟩

end Maze
